import Mathlib

/-!
# Verification of `word_automata.py`

Shallow embedding of the prefix-automaton program `src/word_automata.py`.

A Python `State` object is represented by its id (`State.number`).  The
object heap is a list `states : List StateData`, position `n` holding the
data of the state with id `n`; ids are handed out consecutively by object
creation (`State.count`), so the heap only ever grows by appending, which
mirrors the global id counter.  Python `dict`s preserve insertion order and
update values in place, so `transitions` and `parents` are association
lists whose set-operation keeps the position of an existing key and appends
a fresh key at the end.  `defaultdict(list)` appending and `dict.update`
are modelled by `pAppend` and `pUpdate` below.

The `mode` attribute of `Automaton` only selects which traversal `__iter__`
performs; each method sets it before iterating, so the two traversals are
embedded directly into the methods that use them (`markYields` for
`mode = "mark"`, `histYields` for `mode = "history"`).
-/

/-- Association-list lookup, first match wins (Python `dict.get`). -/
def alookup {κ β : Type} [DecidableEq κ] : List (κ × β) → κ → Option β
  | [], _ => none
  | (k, v) :: xs, k' => if k' = k then some v else alookup xs k'

/-- Association-list write (Python `d[k] = v`): an existing key keeps its
position and gets the new value, a fresh key is appended at the end. -/
def aset {κ β : Type} [DecidableEq κ] : List (κ × β) → κ → β → List (κ × β)
  | [], k', v' => [(k', v')]
  | (k, v) :: xs, k', v' =>
      if k' = k then (k, v') :: xs else (k, v) :: aset xs k' v'

/-- Python `defaultdict(list)`: `d[p].append(l)`. -/
def pAppend (xs : List (Nat × List Char)) (p : Nat) (l : Char) :
    List (Nat × List Char) :=
  match alookup xs p with
  | some ls => aset xs p (ls ++ [l])
  | none => xs ++ [(p, [l])]

/-- Python `dict.update`: entries of `other` written one by one. -/
def pUpdate (xs other : List (Nat × List Char)) : List (Nat × List Char) :=
  other.foldl (fun acc kv => aset acc kv.1 kv.2) xs

/-- Data of one `State` object: `is_final`, `transitions` (symbol to state
id, a Python dict) and `parents` (parent id to the list of letters leading
from it here, a Python `defaultdict(list)`). -/
structure StateData where
  is_final : Bool
  transitions : List (Char × Nat)
  parents : List (Nat × List Char)
  deriving DecidableEq, Repr

/-- The default data of a freshly constructed `State()`. -/
def StateData.fresh : StateData := ⟨false, [], []⟩

/-- The `Automaton`: heap of state objects, id of `initial_state`, and the
`compressed` flag. -/
structure Automaton where
  states : List StateData
  initial : Nat
  compressed : Bool
  deriving DecidableEq, Repr

/-- Heap read (dereferencing a state id). -/
def hGet (a : Automaton) (n : Nat) : StateData :=
  a.states.getD n StateData.fresh

/-- Heap write at an existing id. -/
def hSet (a : Automaton) (n : Nat) (d : StateData) : Automaton :=
  { a with states := a.states.set n d }

/-- `Automaton.__init__`: one fresh initial state. -/
def emptyA : Automaton := ⟨[StateData.fresh], 0, false⟩

/-- The errors the program raises: `RuntimeError` in `add_word` (insertion
after compression), the two `ValueError`s of `merge_states`, and the
`RuntimeError` of `merge_states` (conflicting transitions). -/
inductive Err where
  | compressedErr
  | emptyMergeErr
  | mixedFinalErr
  | conflictErr
  deriving DecidableEq, Repr

/-- `State.next_state(letter, add_transition)`.  When creation is enabled
and the transition is missing, a fresh state is allocated with the single
parent link `(letter, self)` and registered; the function then returns
`self.transitions.get(letter, None)`.  The (possibly updated) heap is
threaded explicitly. -/
def nextState (a : Automaton) (n : Nat) (letter : Char) (add : Bool) :
    Automaton × Option Nat :=
  if add ∧ alookup (hGet a n).transitions letter = none then
    let freshId := a.states.length
    let a1 : Automaton := { a with states :=
      a.states ++ [⟨false, [], [(n, [letter])]⟩] }
    let sd := hGet a1 n
    let a2 := hSet a1 n
      { sd with transitions := aset sd.transitions letter freshId }
    (a2, alookup (hGet a2 n).transitions letter)
  else
    (a, alookup (hGet a n).transitions letter)

/-- The walking loop of `Automaton.add_word` (creation enabled): returns
the heap and the id of the state reached after the whole word. -/
def addGo (a : Automaton) (n : Nat) : List Char → Automaton × Nat
  | [] => (a, n)
  | l :: w =>
    match nextState a n l true with
    | (a1, some t) => addGo a1 t w
    | (a1, none) => (a1, n)   -- unreachable: creation always yields a state

/-- `Automaton.add_word`: fails if `compressed`, otherwise walks with
creation enabled and marks the reached state final. -/
def addWord (a : Automaton) (w : List Char) : Except Err Automaton :=
  if a.compressed then .error .compressedErr
  else
    let p := addGo a a.initial w
    .ok (hSet p.1 p.2 { hGet p.1 p.2 with is_final := true })

/-- The walking loop of `Automaton.accept_word` (creation disabled),
threading the heap through `next_state` exactly as the source does. -/
def accGo (a : Automaton) (n : Nat) : List Char → Automaton × Bool
  | [] => (a, (hGet a n).is_final)
  | l :: w =>
    match nextState a n l false with
    | (a1, some t) => accGo a1 t w
    | (a1, none) => (a1, false)

/-- `Automaton.accept_word`, with the heap it leaves behind. -/
def acceptWordM (a : Automaton) (w : List Char) : Automaton × Bool :=
  accGo a a.initial w

/-- `Automaton.accept_word` as the boolean query. -/
def acceptWord (a : Automaton) (w : List Char) : Bool :=
  (acceptWordM a w).2

/-- Folding a list of words into an automaton by `add_word` (the
construction phase; on an uncompressed automaton `add_word` never fails,
so the error branch is dead). -/
def buildA (ws : List (List Char)) : Automaton :=
  ws.foldl (fun a w => match addWord a w with | .ok a1 => a1 | .error _ => a)
    emptyA

/-- Weight of the not-yet-marked part of the heap; termination measure of
the mark-mode traversal. -/
def markWeight (a : Automaton) (marked : List Nat) : Nat :=
  ∑ i ∈ (Finset.range a.states.length).filter (fun i => i ∉ marked),
    ((hGet a i).transitions.length + 1)

/-- The mark-mode generator of `Automaton.__iter__` (`mode = "mark"`): a
stack-driven traversal yielding each state at most once, children pushed in
transition order and popped last-in first-out.  The loop always terminates
because `marked` only grows; it is embedded with explicit fuel so that it
stays kernel-computable, and `markWeight a marked + stack.length` is proved
sufficient below (each step strictly decreases that quantity). -/
def markGo (a : Automaton) : Nat → List Nat → List Nat → List Nat
  | 0, _, _ => []
  | _ + 1, [], _ => []
  | fuel + 1, s :: stack, marked =>
    if s ∈ marked then markGo a fuel stack marked
    else
      s :: markGo a fuel (((hGet a s).transitions.map Prod.snd).reverse ++ stack)
        (s :: marked)

/-- Total number of transitions stored in the heap. -/
def edgeCount (a : Automaton) : Nat :=
  a.states.foldl (fun acc sd => acc + sd.transitions.length) 0

/-- Fuel sufficient for any mark-mode traversal of `a` started from one
state with nothing marked. -/
def markFuel (a : Automaton) : Nat :=
  edgeCount a + a.states.length + 2

/-- The sequence of states yielded by a mark-mode iteration started at the
root. -/
def markYields (a : Automaton) : List Nat :=
  markGo a (markFuel a) [a.initial] []

/-- `Automaton.count_states`. -/
def countStates (a : Automaton) : Nat :=
  (markYields a).length

/-- `Automaton.get_leaves`: mark-mode traversal filtered to states with no
outgoing transition, in yield order. -/
def getLeaves (a : Automaton) : List Nat :=
  (markYields a).filter (fun s => (hGet a s).transitions.isEmpty)

/-- Fuel that will be proved sufficient for the history-mode traversal of
any acyclic heap. -/
def canonFuel (a : Automaton) : Nat :=
  (edgeCount a + 2) ^ (a.states.length + 2)

/-- The history-mode generator of `Automaton.__iter__`
(`mode = "history"`): yields every (prefix, state) pair along every
root-to-state path, without deduplication.  This loop only terminates on
acyclic heaps, so it takes explicit fuel; `canonFuel` is enough for every
graph the program builds. -/
def histGo (a : Automaton) : Nat → List (List Char × Nat) → List (List Char × Nat)
  | 0, _ => []
  | _ + 1, [] => []
  | fuel + 1, (h, s) :: stack =>
    (h, s) :: histGo a fuel
      (((hGet a s).transitions.map (fun lc => (h ++ [lc.1], lc.2))).reverse ++ stack)

/-- The (prefix, state) pairs yielded by a history-mode iteration. -/
def histYields (a : Automaton) : List (List Char × Nat) :=
  histGo a (canonFuel a) [([], a.initial)]

/-- `Automaton.count_words`: history-mode traversal counting final
states, one per path. -/
def countWords (a : Automaton) : Nat :=
  (histYields a).countP (fun p => (hGet a p.2).is_final)

/-- The transition-union loop of `merge_states`: entries of a member state
copied into the new state, raising on a conflicting target. -/
def unionInto (a : Automaton) (newId : Nat) :
    List (Char × Nat) → Except Err Automaton
  | [] => .ok a
  | (l, child) :: rest =>
    let cur := hGet a newId
    let c := (alookup cur.transitions l).getD child
    if c ≠ child then .error .conflictErr
    else
      unionInto
        (hSet a newId { cur with transitions := aset cur.transitions l child })
        newId rest

/-- `p.transitions[l] = new_state`: one rewiring write. -/
def setTrans (a : Automaton) (p : Nat) (l : Char) (t : Nat) : Automaton :=
  hSet a p { hGet a p with transitions := aset (hGet a p).transitions l t }

/-- The rewiring loop of `merge_states`: every (parent, letters) record of
a member redirected to the new state. -/
def rewireParents (a : Automaton) (newId : Nat)
    (ps : List (Nat × List Char)) : Automaton :=
  ps.foldl (fun acc pl => pl.2.foldl (fun acc2 l => setTrans acc2 pl.1 l newId) acc) a

/-- The member loop of `merge_states`: per member, union its transitions
into the new state, rewire its recorded parents, then
`new_state.parents.update(s.parents)`. -/
def mergeGo (a : Automaton) (newId : Nat) : List Nat → Except Err Automaton
  | [] => .ok a
  | s :: rest => do
    let a1 ← unionInto a newId (hGet a s).transitions
    let a2 := rewireParents a1 newId (hGet a1 s).parents
    let nd := hGet a2 newId
    let a3 := hSet a2 newId
      { nd with parents := pUpdate nd.parents (hGet a2 s).parents }
    mergeGo a3 newId rest

/-- `Automaton.merge_states`: guards, creation of the fused state, then
the member loop; returns the new state's id. -/
def mergeStates (a : Automaton) (ms : List Nat) : Except Err (Automaton × Nat) :=
  match ms with
  | [] => .error .emptyMergeErr
  | m0 :: _ =>
    if ms.any (fun s => (hGet a s).is_final != (hGet a m0).is_final) then
      .error .mixedFinalErr
    else
      let newId := a.states.length
      let a1 : Automaton :=
        { a with states := a.states ++ [⟨(hGet a m0).is_final, [], []⟩] }
      match mergeGo a1 newId ms with
      | .ok a2 => .ok (a2, newId)
      | .error e => .error e

/-- A signature as `compress` computes it: `p.is_final` paired with the
tuple of the items of `p.transitions` in dictionary (insertion) order. -/
abbrev Sig := Bool × List (Char × Nat)

/-- The signature of an eligible parent. -/
def sigOf (a : Automaton) (p : Nat) : Sig :=
  ((hGet a p).is_final, (hGet a p).transitions)

/-- A parent is skipped unless all of its current transition targets are
already marked. -/
def eligible (a : Automaton) (marked : List Nat) (p : Nat) : Bool :=
  (hGet a p).transitions.all (fun lc => decide (lc.2 ∈ marked))

/-- `signatures[sig].append(p)` on the insertion-ordered signature
groups. -/
def addToGroups (gs : List (Sig × List Nat)) (sg : Sig) (p : Nat) :
    List (Sig × List Nat) :=
  match gs with
  | [] => [(sg, [p])]
  | (s0, ps) :: rest =>
    if sg = s0 then (s0, ps ++ [p]) :: rest
    else (s0, ps) :: addToGroups rest sg p

/-- The signature-grouping loop of `compress`: walk the popped state's
parent records in order, group the eligible ones by signature. -/
def buildSigs (a : Automaton) (marked : List Nat) :
    List (Nat × List Char) → List (Sig × List Nat) → List (Sig × List Nat)
  | [], gs => gs
  | (p, _) :: rest, gs =>
    if eligible a marked p then
      buildSigs a marked rest (addToGroups gs (sigOf a p) p)
    else buildSigs a marked rest gs

/-- The group-processing loop of `compress`: a group of more than one
member is fused, a singleton is used unchanged; the representatives are
returned in group order for enqueueing. -/
def processGroups (a : Automaton) :
    List (Sig × List Nat) → Except Err (Automaton × List Nat)
  | [] => .ok (a, [])
  | (_, ps) :: rest =>
    if ps.length > 1 then
      match mergeStates a ps with
      | .error e => .error e
      | .ok (a1, nid) =>
        match processGroups a1 rest with
        | .error e => .error e
        | .ok (a2, reps) => .ok (a2, nid :: reps)
    else
      match ps with
      | [] => processGroups a rest   -- groups are never built empty
      | p :: _ =>
        match processGroups a rest with
        | .error e => .error e
        | .ok (a2, reps) => .ok (a2, p :: reps)

/-- Result of running `compress`: normal completion, a propagated
exception, or fuel exhaustion (the source's `while` loop has no bound; on
every graph the program builds the loop terminates and enough fuel exists). -/
inductive CRes where
  | done (a : Automaton)
  | err (e : Err)
  | outOfFuel
  deriving DecidableEq, Repr

/-- One iteration of the `while queue` body, after the pop: mark the
state, group its eligible parents by signature, fuse or keep each group,
return the updated heap and the representatives in order. -/
def popStep (a : Automaton) (marked : List Nat) (s : Nat) :
    Except Err (Automaton × List Nat) :=
  processGroups a (buildSigs a (s :: marked) (hGet a s).parents [])

/-- The `while queue` loop of `compress`.  The queue is kept as a list
whose head is the next pop (`deque.pop` takes the right end); `appendleft`
therefore appends at the end of the list. -/
def compressLoop (a : Automaton) : Nat → List Nat → List Nat → CRes
  | _, [], _ => .done { a with compressed := true }
  | 0, _ :: _, _ => .outOfFuel
  | fuel + 1, s :: queue, marked =>
    match popStep a marked s with
    | .error e => .err e
    | .ok (a1, reps) => compressLoop a1 fuel (queue ++ reps) (s :: marked)

/-- `Automaton.compress` (with `verbose=False`): fuse all leaves into a
single state, then run the bottom-up merging loop, finally set
`compressed`. -/
def compressFull (a : Automaton) (fuel : Nat) : CRes :=
  match mergeStates a (getLeaves a) with
  | .error e => .err e
  | .ok (a1, leafRep) => compressLoop a1 fuel [leafRep] []

/-- The pure walk of the heap with creation disabled (what
`accept_word`'s loop traverses). -/
def walk (a : Automaton) : Nat → List Char → Option Nat
  | n, [] => some n
  | n, l :: w =>
    match alookup (hGet a n).transitions l with
    | some t => walk a t w
    | none => none

/-- Pure acceptance from a given state. -/
def acceptFrom (a : Automaton) (n : Nat) (w : List Char) : Bool :=
  match walk a n w with
  | some m => (hGet a m).is_final
  | none => false

/-- The empty automaton after a completed `compress` (used as a concrete
compressed graph). -/
def compressedEmpty : Automaton :=
  match compressFull emptyA 10 with
  | .done g => g
  | _ => emptyA

/-- The signature as the specification describes it: acceptance flag plus
the unordered collection of (symbol, target) pairs.  Modelled from the
spec's words (`unordered set of (symbol, target) pairs`) for comparison
with the ordered tuple the code uses. -/
def specSig (a : Automaton) (p : Nat) : Bool × Multiset (Char × Nat) :=
  ((hGet a p).is_final, ((hGet a p).transitions : Multiset (Char × Nat)))

/-- Concrete trie of the words ab, ac, bc, bb: the state after `a` gets
its transitions in order b, c while the state after `b` gets them in order
c, b. -/
def exC3 : Automaton := buildA [['a', 'b'], ['a', 'c'], ['b', 'c'], ['b', 'b']]

/-- Heap and fused-leaf id after the leaf-fusing bootstrap step of
`compress` on `exC3`. -/
def exC3m : Automaton × Nat :=
  match mergeStates exC3 (getLeaves exC3) with
  | .ok p => p
  | .error _ => (emptyA, 0)

/-- Full `compress` run on `exC3`. -/
def exC3res : CRes := compressFull exC3 100

/-- The compressed graph of `exC3`. -/
def exC3g : Automaton :=
  match exC3res with
  | .done g => g
  | _ => emptyA

/-- Concrete trie of the words ab, ac: the two leaves share the single
parent (the state after `a`), reached on different letters. -/
def exC4 : Automaton := buildA [['a', 'b'], ['a', 'c']]

/-- Heap and fused id after merging the two leaves of `exC4`. -/
def exC4m : Automaton × Nat :=
  match mergeStates exC4 (getLeaves exC4) with
  | .ok p => p
  | .error _ => (emptyA, 0)

/-- Frame of `merge_states`' member loop: the heap size, root, flag,
every acceptance flag, and every parents map except the new state's are
untouched (the loop only writes transitions, and only the new state's
parents map). -/
def FrameEq (nid : Nat) (x y : Automaton) : Prop :=
  x.states.length = y.states.length ∧ x.initial = y.initial
  ∧ x.compressed = y.compressed
  ∧ (∀ q, (hGet x q).is_final = (hGet y q).is_final)
  ∧ (∀ q, q ≠ nid → (hGet x q).parents = (hGet y q).parents)

/-- Every transition target and every recorded parent id points into the
heap. -/
def InRange (a : Automaton) : Prop :=
  ∀ n, (∀ lc ∈ (hGet a n).transitions, lc.2 < a.states.length)
     ∧ (∀ pr ∈ (hGet a n).parents, pr.1 < a.states.length)

/-- No state has a transition to itself. -/
def NoSelf (a : Automaton) : Prop :=
  ∀ n, ∀ lc ∈ (hGet a n).transitions, lc.2 ≠ n

/-- Transition and parent dictionaries have distinct keys (they model
Python dicts). -/
def KeysNodup (a : Automaton) : Prop :=
  ∀ n, (((hGet a n).transitions).map Prod.fst).Nodup
     ∧ (((hGet a n).parents).map Prod.fst).Nodup

/-- Every transition goes to a strictly larger id (holds for the trie the
construction phase builds, where targets are created after their parent). -/
def EdgeIncr (a : Automaton) : Prop :=
  ∀ n, ∀ lc ∈ (hGet a n).transitions, n < lc.2

/-- Every non-root state without outgoing transitions is accepting (each
such state is the end of some inserted word). -/
def LeafFinal (a : Automaton) : Prop :=
  ∀ n, n < a.states.length → n ≠ a.initial →
    (hGet a n).transitions = [] → (hGet a n).is_final = true

/-- All transition targets and parent keys are below the bound `L`. -/
def RangeB (L : Nat) (x : Automaton) : Prop :=
  ∀ n, (∀ lc ∈ (hGet x n).transitions, lc.2 < L)
     ∧ (∀ pr ∈ (hGet x n).parents, pr.1 < L)

/-- Parent records of live (never fused away) states are accurate: a
recorded (parent, letter) really is the parent's current transition into
the recording state. -/
def Accurate (a : Automaton) (dead : List Nat) : Prop :=
  ∀ s, s ∉ dead → ∀ pr ∈ (hGet a s).parents, ∀ l ∈ pr.2,
    alookup (hGet a pr.1).transitions l = some s

/-- Every parent record carries at least one letter (records are created
with one letter and only ever aggregated from other records). -/
def ParentsNE (x : Automaton) : Prop :=
  ∀ n, ∀ pr ∈ (hGet x n).parents, pr.2 ≠ []

/-- The pair (q, l) is recorded against one of the members `ms`. -/
def RecordedIn (a : Automaton) (ms : List Nat) (q : Nat) (l : Char) : Prop :=
  ∃ s ∈ ms, ∃ pr ∈ (hGet a s).parents, pr.1 = q ∧ l ∈ pr.2

instance exceptDecEq {ε α : Type} [DecidableEq ε] [DecidableEq α] :
    DecidableEq (Except ε α)
  | .error e1, .error e2 =>
    if h : e1 = e2 then .isTrue (by rw [h])
    else .isFalse (by intro hc; cases hc; exact h rfl)
  | .error _, .ok _ => .isFalse (by intro hc; cases hc)
  | .ok _, .error _ => .isFalse (by intro hc; cases hc)
  | .ok a1, .ok a2 =>
    if h : a1 = a2 then .isTrue (by rw [h])
    else .isFalse (by intro hc; cases hc; exact h rfl)

/-- All members of a list of signature groups, in group order. -/
def members (gs : List (Sig × List Nat)) : List Nat :=
  gs.flatMap (fun e => e.2)

/-- The members of the groups that `processGroups` actually fuses (those
with more than one member); the fused copies are dead afterwards. -/
def fused (gs : List (Sig × List Nat)) : List Nat :=
  gs.flatMap (fun e => if 1 < e.2.length then e.2 else [])

/-- The invariant of the `while queue` loop of `compress`, over the ghost
sets of marked states `mk`, queued states `q` and fused-away states
`dead`. -/
def LoopInv (a : Automaton) (mk q dead : List Nat) : Prop :=
  RangeB a.states.length a
  ∧ NoSelf a
  ∧ KeysNodup a
  ∧ ParentsNE a
  ∧ Accurate a dead
  ∧ (∀ x ∈ mk, x < a.states.length)
  ∧ (∀ x ∈ q, x < a.states.length)
  ∧ (∀ x ∈ dead, x < a.states.length)
  ∧ (∀ x ∈ mk, ∀ lc ∈ (hGet a x).transitions, lc.2 ∈ mk)
  ∧ (∀ x ∈ dead, ∀ lc ∈ (hGet a x).transitions, lc.2 ∈ mk)
  ∧ (∀ x ∈ q, ∀ lc ∈ (hGet a x).transitions, lc.2 ∈ mk)
  ∧ q.Nodup
  ∧ (∀ x ∈ mk, x ∉ q)
  ∧ (∀ x ∈ dead, x ∉ q)
  ∧ (∀ x ∈ dead, x ∉ mk)

/-- The bookkeeping invariant used to bound the reachable-state count of
the compressed graph: parent records only name original (pre-compression)
states, unmarked original states have complete in-edge records, fused-away
states have no in-edges at all, and the heap has grown by fewer states
than have died. -/
def C9Inv (a : Automaton) (orig : Nat) (mk dead : List Nat) : Prop :=
  orig ≤ a.states.length
  ∧ (∀ n, ∀ pr ∈ (hGet a n).parents, pr.1 < orig)
  ∧ (∀ q l t, t < orig → t ∉ dead → t ∉ mk →
      alookup (hGet a q).transitions l = some t →
      ∃ pr ∈ (hGet a t).parents, pr.1 = q ∧ l ∈ pr.2)
  ∧ (∀ m ∈ dead, ∀ q l, alookup (hGet a q).transitions l ≠ some m)
  ∧ dead.Nodup
  ∧ (∀ x ∈ dead, x < orig)
  ∧ a.states.length ≤ orig + dead.length
  ∧ (0 ∈ dead → 1 < orig → a.states.length + 1 ≤ orig + dead.length)

/-- Every state has at most one incoming transition (true of the trie the
construction phase builds: each state is created by exactly one
transition and tries share no suffixes). -/
def UniqueIn (a : Automaton) : Prop :=
  ∀ n1 n2 lc1 lc2, lc1 ∈ (hGet a n1).transitions →
    lc2 ∈ (hGet a n2).transitions → lc1.2 = lc2.2 → n1 = n2 ∧ lc1.1 = lc2.1

/-- The bundle of invariants of the graphs the construction phase
(`__init__` plus any sequence of successful `add_word` calls) builds. -/
structure IsTrie (a : Automaton) : Prop where
  init0 : a.initial = 0
  posLen : 0 < a.states.length
  notCompressed : a.compressed = false
  range : RangeB a.states.length a
  keysND : KeysNodup a
  parentsNE : ParentsNE a
  accurate : Accurate a []
  edgeIncr : EdgeIncr a
  leafFinal : LeafFinal a
  rootTrans : 1 < a.states.length → (hGet a 0).transitions ≠ []
  uniqueIn : UniqueIn a
  reachAll : ∀ n, n < a.states.length → ∃ w, walk a a.initial w = some n
  recComplete : ∀ q l t, alookup (hGet a q).transitions l = some t →
    ∃ pr ∈ (hGet a t).parents, pr.1 = q ∧ l ∈ pr.2

/-- The canonical (prefix, state) enumeration of all walks out of one
state, with explicit depth fuel; on an acyclic heap with enough fuel it
lists every reachable (prefix, state) pair exactly once, and the
history-mode traversal yields a permutation of it. -/
def pathsGo (a : Automaton) : Nat → List Char → Nat → List (List Char × Nat)
  | 0, _, _ => []
  | fuel + 1, h, s =>
    (h, s) :: (hGet a s).transitions.flatMap
      (fun lc => pathsGo a fuel (h ++ [lc.1]) lc.2)

-- ### Theorems ###

theorem nextState_false (a : Automaton) (n : Nat) (l : Char) :
    nextState a n l false = (a, alookup (hGet a n).transitions l) := by
  simp [nextState]

theorem accGo_eq (a : Automaton) (w : List Char) :
    ∀ n, accGo a n w = (a, acceptFrom a n w) := by
  induction w with
  | nil => intro n; simp [accGo, acceptFrom, walk]
  | cons l w ih =>
    intro n
    simp only [accGo, nextState_false, acceptFrom, walk]
    cases h : alookup (hGet a n).transitions l with
    | some t => simpa [h] using ih t
    | none => simp [h]

theorem acceptWord_eq_acceptFrom (a : Automaton) (w : List Char) :
    acceptWord a w = acceptFrom a a.initial w := by
  simp [acceptWord, acceptWordM, accGo_eq]

/-- C10: `accept_word` is a pure query: the walk is performed with
transition creation disabled, so the automaton (hence every state's
`is_final`, `transitions` and `parents`) is exactly the same after the
call as before it. -/
theorem accept_word_pure (a : Automaton) (w : List Char) :
    (acceptWordM a w).1 = a := by
  simp [acceptWordM, accGo_eq]

theorem compressLoop_done_compressed :
    ∀ (fuel : Nat) (a g : Automaton) (q mk : List Nat),
      compressLoop a fuel q mk = .done g → g.compressed = true := by
  intro fuel
  induction fuel with
  | zero =>
    intro a g q mk h
    cases q with
    | nil =>
      simp only [compressLoop, CRes.done.injEq] at h
      rw [← h]
    | cons s rest => cases h
  | succ fuel ih =>
    intro a g q mk h
    cases q with
    | nil =>
      simp only [compressLoop, CRes.done.injEq] at h
      rw [← h]
    | cons s rest =>
      simp only [compressLoop] at h
      cases hp : popStep a mk s with
      | error e => rw [hp] at h; cases h
      | ok pr =>
        rw [hp] at h
        exact ih _ _ _ _ h

/-- C7: `add_word` on a compressed automaton always fails with the
`InvalidState` error and returns no mutated graph; and a completed
`compress` leaves the `compressed` flag set, so every later insertion
attempt fails this way. -/
theorem insert_after_compress_fails :
    (∀ (a : Automaton) (w : List Char), a.compressed = true →
      addWord a w = .error .compressedErr)
    ∧ (∀ (a g : Automaton) (fuel : Nat), compressFull a fuel = .done g →
      g.compressed = true) := by
  constructor
  · intro a w h
    simp [addWord, h]
  · intro a g fuel h
    unfold compressFull at h
    cases hm : mergeStates a (getLeaves a) with
    | error e => rw [hm] at h; cases h
    | ok p =>
      rw [hm] at h
      exact compressLoop_done_compressed _ _ _ _ _ h

/-- Witness for `insert_after_compress_fails` at concrete inputs: a
compressed single-state graph rejects an insertion, and compressing the
empty automaton sets the flag. -/
theorem insert_after_compress_fails_witness :
    ({ states := [StateData.fresh], initial := 0, compressed := true } : Automaton).compressed
        = true
    ∧ addWord { states := [StateData.fresh], initial := 0, compressed := true } ['a']
        = .error .compressedErr
    ∧ compressFull emptyA 10 = .done compressedEmpty
    ∧ compressedEmpty.compressed = true :=
  ⟨rfl, insert_after_compress_fails.1 _ ['a'] rfl, by decide,
    insert_after_compress_fails.2 emptyA compressedEmpty 10 (by decide)⟩

/-- C6: `merge_states` on an empty list fails with the first
`InvalidArgument` error, and on members of differing acceptance with the
second; both guards fire before the fused state is allocated and before
any rewiring, so only the error is returned and no graph is produced. -/
theorem merge_guard_errors :
    (∀ (a : Automaton), mergeStates a [] = .error .emptyMergeErr)
    ∧ (∀ (a : Automaton) (m0 : Nat) (ms : List Nat),
        (∃ s ∈ m0 :: ms, (hGet a s).is_final ≠ (hGet a m0).is_final) →
        mergeStates a (m0 :: ms) = .error .mixedFinalErr) := by
  constructor
  · intro a; rfl
  · intro a m0 ms ⟨s, hs, hne⟩
    have hany : (m0 :: ms).any
        (fun s => (hGet a s).is_final != (hGet a m0).is_final) = true := by
      rw [List.any_eq_true]
      exact ⟨s, hs, by simpa using hne⟩
    simp [mergeStates, hany]

/-- Witness for `merge_guard_errors`: the two-state trie of the word "a"
has a non-final root and a final leaf. -/
theorem merge_guard_errors_witness :
    mergeStates (buildA [['a']]) [] = .error .emptyMergeErr
    ∧ (∃ s ∈ [0, 1], (hGet (buildA [['a']]) s).is_final
        ≠ (hGet (buildA [['a']]) 0).is_final)
    ∧ mergeStates (buildA [['a']]) [0, 1] = .error .mixedFinalErr :=
  ⟨merge_guard_errors.1 _,
   ⟨1, by decide, by decide⟩,
   merge_guard_errors.2 _ 0 [1] ⟨1, by decide, by decide⟩⟩

theorem list_set_getD {α : Type} :
    ∀ (l : List α) (n : Nat) (d : α), n < l.length → l.set n (l.getD n d) = l := by
  intro l
  induction l with
  | nil => intro n d h; cases h
  | cons x xs ih =>
    intro n d h
    cases n with
    | zero => rfl
    | succ n =>
      simp only [List.set, List.getD, List.get?, List.length_cons] at *
      rw [ih n d (by omega)]

theorem hSet_hGet_self (a : Automaton) (n : Nat) (h : n < a.states.length) :
    hSet a n (hGet a n) = a := by
  unfold hSet hGet
  cases a with
  | mk states ini comp =>
    congr 1
    exact list_set_getD states n StateData.fresh h

theorem setFinal_eta (sd : StateData) (h : sd.is_final = true) :
    { sd with is_final := true } = sd := by
  cases sd
  simp_all

theorem addGo_of_walk (a : Automaton) (w : List Char) :
    ∀ n m, walk a n w = some m → addGo a n w = (a, m) := by
  induction w with
  | nil =>
    intro n m h
    simp only [walk, Option.some.injEq] at h
    simp [addGo, h]
  | cons l w ih =>
    intro n m h
    simp only [walk] at h
    cases hl : alookup (hGet a n).transitions l with
    | none => rw [hl] at h; cases h
    | some t =>
      rw [hl] at h
      have hns : nextState a n l true = (a, some t) := by
        simp [nextState, hl]
      simp only [addGo, hns]
      exact ih t m h

theorem hGet_final_lt (a : Automaton) (m : Nat)
    (h : (hGet a m).is_final = true) : m < a.states.length := by
  by_contra hge
  unfold hGet at h
  rw [List.getD_eq_default] at h
  · cases h
  · omega

/-- C8: inserting a word the (unminimized) automaton already accepts is a
no-op: the walk finds every transition already present, so no state is
created, and the final marking rewrites a flag that is already set — the
resulting graph is the very same value, so `countWords`, `countStates`
and the accepted language are all unchanged. -/
theorem insert_idempotent (a : Automaton) (w : List Char)
    (h1 : a.compressed = false) (h2 : acceptWord a w = true) :
    addWord a w = .ok a := by
  rw [acceptWord_eq_acceptFrom] at h2
  unfold acceptFrom at h2
  cases hw : walk a a.initial w with
  | none => rw [hw] at h2; cases h2
  | some m =>
    rw [hw] at h2
    change (hGet a m).is_final = true at h2
    have hgo := addGo_of_walk a w a.initial m hw
    unfold addWord
    rw [if_neg (by simp [h1]), hgo]
    simp only [setFinal_eta (hGet a m) h2]
    rw [hSet_hGet_self a m (hGet_final_lt a m h2)]

/-- Witness for `insert_idempotent`: re-inserting "a" into the trie of
"a". -/
theorem insert_idempotent_witness :
    (buildA [['a']]).compressed = false
    ∧ acceptWord (buildA [['a']]) ['a'] = true
    ∧ addWord (buildA [['a']]) ['a'] = .ok (buildA [['a']]) :=
  ⟨by decide, by decide, insert_idempotent _ _ (by decide) (by decide)⟩

/-- C3 counterexample: in the compress run on the trie of
{ab, ac, bc, bb}, after the leaf-fusing step (fused leaf id 7) the first
pop of the loop examines the two recorded parents 4 and 1; both are
eligible and have the same acceptance flag and the same unordered set of
(symbol, target) pairs — the signature the specification describes — yet
they are put in different groups (the code keys groups by the ordered
tuple of dictionary items), so the completed compression leaves them as
two distinct states instead of fusing them. -/
theorem sig_unordered_counterexample :
    mergeStates exC3 (getLeaves exC3) = .ok exC3m
    ∧ (4, ['c']) ∈ (hGet exC3m.1 7).parents
    ∧ (1, ['b']) ∈ (hGet exC3m.1 7).parents
    ∧ eligible exC3m.1 [7] 4 = true
    ∧ eligible exC3m.1 [7] 1 = true
    ∧ specSig exC3m.1 4 = specSig exC3m.1 1
    ∧ (∀ e ∈ buildSigs exC3m.1 [7] (hGet exC3m.1 7).parents [],
        ¬((4 : Nat) ∈ e.2 ∧ (1 : Nat) ∈ e.2))
    ∧ exC3res = .done exC3g
    ∧ alookup (hGet exC3g 0).transitions 'a' = some 1
    ∧ alookup (hGet exC3g 0).transitions 'b' = some 4 := by
  decide

/-- C4 counterexample: fusing the two leaves of the trie of {ab, ac}
(leaves 3 and 2, both children of state 1, on letters c and b): the
member records (1, [c]) and (1, [b]) are both rewired onto the new state
4, but the new state's parents map ends up as [(1, [b])] — the symbol c
recorded against member 3 is lost, because `parents.update` overwrites
the entry of parent 1 instead of aggregating it. -/
theorem fuse_parents_counterexample :
    getLeaves exC4 = [3, 2]
    ∧ alookup (hGet exC4 3).parents 1 = some ['c']
    ∧ alookup (hGet exC4 2).parents 1 = some ['b']
    ∧ mergeStates exC4 (getLeaves exC4) = .ok exC4m
    ∧ exC4m.2 = 4
    ∧ alookup (hGet exC4m.1 1).transitions 'b' = some 4
    ∧ alookup (hGet exC4m.1 1).transitions 'c' = some 4
    ∧ (hGet exC4m.1 4).parents = [(1, ['b'])] := by
  decide

theorem addToGroups_sig (a : Automaton) :
    ∀ (gs : List (Sig × List Nat)) (sg : Sig) (p : Nat),
      (∀ e ∈ gs, ∀ x ∈ e.2, sigOf a x = e.1) → sigOf a p = sg →
      ∀ e ∈ addToGroups gs sg p, ∀ x ∈ e.2, sigOf a x = e.1 := by
  intro gs
  induction gs with
  | nil =>
    intro sg p _ hp e he x hx
    simp only [addToGroups, List.mem_singleton] at he
    subst he
    simp only [List.mem_singleton] at hx
    subst hx
    exact hp
  | cons g0 rest ih =>
    intro sg p hwf hp e he x hx
    obtain ⟨s0, ps⟩ := g0
    simp only [addToGroups] at he
    by_cases hsg : sg = s0
    · rw [if_pos hsg] at he
      rcases List.mem_cons.mp he with he | he
      · subst he
        rcases List.mem_append.mp hx with hx | hx
        · exact hwf (s0, ps) (List.mem_cons_self _ _) x hx
        · simp only [List.mem_singleton] at hx
          subst hx
          rw [hp, hsg]
      · exact hwf e (List.mem_cons_of_mem _ he) x hx
    · rw [if_neg hsg] at he
      rcases List.mem_cons.mp he with he | he
      · subst he
        exact hwf (s0, ps) (List.mem_cons_self _ _) x hx
      · exact ih sg p (fun e1 he1 => hwf e1 (List.mem_cons_of_mem _ he1)) hp e he x hx

theorem addToGroups_keys (gs : List (Sig × List Nat)) (sg : Sig) (p : Nat) :
    (addToGroups gs sg p).map Prod.fst
      = if sg ∈ gs.map Prod.fst then gs.map Prod.fst else gs.map Prod.fst ++ [sg] := by
  induction gs with
  | nil => simp [addToGroups]
  | cons g0 rest ih =>
    obtain ⟨s0, ps⟩ := g0
    simp only [addToGroups, List.map_cons, List.mem_cons]
    by_cases hsg : sg = s0
    · rw [if_pos hsg]
      simp [hsg]
    · rw [if_neg hsg]
      simp only [List.map_cons, ih]
      by_cases hmem : sg ∈ rest.map Prod.fst
      · rw [if_pos hmem, if_pos (Or.inr hmem)]
      · rw [if_neg hmem, if_neg (by
          intro h
          rcases h with h | h
          · exact hsg h
          · exact hmem h)]
        simp

theorem addToGroups_nodup (gs : List (Sig × List Nat)) (sg : Sig) (p : Nat)
    (h : (gs.map Prod.fst).Nodup) : ((addToGroups gs sg p).map Prod.fst).Nodup := by
  rw [addToGroups_keys]
  by_cases hmem : sg ∈ gs.map Prod.fst
  · rwa [if_pos hmem]
  · rw [if_neg hmem]
    simp only [List.nodup_append, List.nodup_singleton]
    exact ⟨h, by simpa using hmem⟩

theorem addToGroups_mem (gs : List (Sig × List Nat)) (sg : Sig) (p x : Nat) :
    (∃ e ∈ addToGroups gs sg p, x ∈ e.2) ↔ (∃ e ∈ gs, x ∈ e.2) ∨ x = p := by
  induction gs with
  | nil => simp [addToGroups]
  | cons g0 rest ih =>
    obtain ⟨s0, ps⟩ := g0
    simp only [addToGroups]
    by_cases hsg : sg = s0
    · rw [if_pos hsg]
      constructor
      · rintro ⟨e, he, hx⟩
        rcases List.mem_cons.mp he with he | he
        · subst he
          rcases List.mem_append.mp hx with hx | hx
          · exact Or.inl ⟨(s0, ps), List.mem_cons_self _ _, hx⟩
          · simp only [List.mem_singleton] at hx
            exact Or.inr hx
        · exact Or.inl ⟨e, List.mem_cons_of_mem _ he, hx⟩
      · rintro (⟨e, he, hx⟩ | hx)
        · rcases List.mem_cons.mp he with he | he
          · subst he
            exact ⟨(s0, ps ++ [p]), List.mem_cons_self _ _, List.mem_append.mpr (Or.inl hx)⟩
          · exact ⟨e, List.mem_cons_of_mem _ he, hx⟩
        · exact ⟨(s0, ps ++ [p]), List.mem_cons_self _ _,
            List.mem_append.mpr (Or.inr (by simp [hx]))⟩
    · rw [if_neg hsg]
      constructor
      · rintro ⟨e, he, hx⟩
        rcases List.mem_cons.mp he with he | he
        · subst he
          exact Or.inl ⟨(s0, ps), List.mem_cons_self _ _, hx⟩
        · rcases ih.mp ⟨e, he, hx⟩ with h | h
          · obtain ⟨e1, he1, hx1⟩ := h
            exact Or.inl ⟨e1, List.mem_cons_of_mem _ he1, hx1⟩
          · exact Or.inr h
      · rintro (⟨e, he, hx⟩ | hx)
        · rcases List.mem_cons.mp he with he | he
          · subst he
            exact ⟨(s0, ps), List.mem_cons_self _ _, hx⟩
          · obtain ⟨e1, he1, hx1⟩ := ih.mpr (Or.inl ⟨e, he, hx⟩)
            exact ⟨e1, List.mem_cons_of_mem _ he1, hx1⟩
        · obtain ⟨e1, he1, hx1⟩ := ih.mpr (Or.inr hx)
          exact ⟨e1, List.mem_cons_of_mem _ he1, hx1⟩

theorem addToGroups_nonempty (gs : List (Sig × List Nat)) (sg : Sig) (p : Nat)
    (h : ∀ e ∈ gs, e.2 ≠ []) : ∀ e ∈ addToGroups gs sg p, e.2 ≠ [] := by
  induction gs with
  | nil =>
    intro e he
    simp only [addToGroups, List.mem_singleton] at he
    subst he
    simp
  | cons g0 rest ih =>
    obtain ⟨s0, ps⟩ := g0
    intro e he
    simp only [addToGroups] at he
    by_cases hsg : sg = s0
    · rw [if_pos hsg] at he
      rcases List.mem_cons.mp he with he | he
      · subst he; simp
      · exact h e (List.mem_cons_of_mem _ he)
    · rw [if_neg hsg] at he
      rcases List.mem_cons.mp he with he | he
      · subst he
        exact h (s0, ps) (List.mem_cons_self _ _)
      · exact ih (fun e1 he1 => h e1 (List.mem_cons_of_mem _ he1)) e he

theorem buildSigs_sig (a : Automaton) (marked : List Nat) :
    ∀ (items : List (Nat × List Char)) (gs : List (Sig × List Nat)),
      (∀ e ∈ gs, ∀ x ∈ e.2, sigOf a x = e.1) →
      ∀ e ∈ buildSigs a marked items gs, ∀ x ∈ e.2, sigOf a x = e.1 := by
  intro items
  induction items with
  | nil => intro gs h; exact h
  | cons pr rest ih =>
    intro gs h
    obtain ⟨p, ls⟩ := pr
    simp only [buildSigs]
    by_cases he : eligible a marked p = true
    · rw [if_pos he]
      exact ih _ (addToGroups_sig a gs (sigOf a p) p h rfl)
    · rw [if_neg he]
      exact ih _ h

theorem buildSigs_nodup (a : Automaton) (marked : List Nat) :
    ∀ (items : List (Nat × List Char)) (gs : List (Sig × List Nat)),
      ((gs.map Prod.fst).Nodup) →
      ((buildSigs a marked items gs).map Prod.fst).Nodup := by
  intro items
  induction items with
  | nil => intro gs h; exact h
  | cons pr rest ih =>
    intro gs h
    obtain ⟨p, ls⟩ := pr
    simp only [buildSigs]
    by_cases he : eligible a marked p = true
    · rw [if_pos he]
      exact ih _ (addToGroups_nodup gs (sigOf a p) p h)
    · rw [if_neg he]
      exact ih _ h

theorem buildSigs_nonempty (a : Automaton) (marked : List Nat) :
    ∀ (items : List (Nat × List Char)) (gs : List (Sig × List Nat)),
      (∀ e ∈ gs, e.2 ≠ []) →
      ∀ e ∈ buildSigs a marked items gs, e.2 ≠ [] := by
  intro items
  induction items with
  | nil => intro gs h; exact h
  | cons pr rest ih =>
    intro gs h
    obtain ⟨p, ls⟩ := pr
    simp only [buildSigs]
    by_cases he : eligible a marked p = true
    · rw [if_pos he]
      exact ih _ (addToGroups_nonempty gs (sigOf a p) p h)
    · rw [if_neg he]
      exact ih _ h

theorem buildSigs_mem (a : Automaton) (marked : List Nat) :
    ∀ (items : List (Nat × List Char)) (gs : List (Sig × List Nat)) (x : Nat),
      (∃ e ∈ buildSigs a marked items gs, x ∈ e.2)
        ↔ (∃ e ∈ gs, x ∈ e.2)
          ∨ (x ∈ items.map Prod.fst ∧ eligible a marked x = true) := by
  intro items
  induction items with
  | nil =>
    intro gs x
    simp [buildSigs]
  | cons pr rest ih =>
    intro gs x
    obtain ⟨p, ls⟩ := pr
    simp only [buildSigs, List.map_cons, List.mem_cons]
    by_cases he : eligible a marked p = true
    · rw [if_pos he, ih]
      rw [addToGroups_mem]
      constructor
      · rintro ((h | h) | h)
        · exact Or.inl h
        · subst h
          exact Or.inr ⟨Or.inl rfl, he⟩
        · exact Or.inr ⟨Or.inr h.1, h.2⟩
      · rintro (h | ⟨(h | h), hx⟩)
        · exact Or.inl (Or.inl h)
        · subst h
          exact Or.inl (Or.inr rfl)
        · exact Or.inr ⟨h, hx⟩
    · rw [if_neg he, ih]
      constructor
      · rintro (h | h)
        · exact Or.inl h
        · exact Or.inr ⟨Or.inr h.1, h.2⟩
      · rintro (h | ⟨(h | h), hx⟩)
        · exact Or.inl h
        · subst h
          exact absurd hx he
        · exact Or.inr ⟨h, hx⟩

theorem keys_nodup_inj {α : Type} :
    ∀ (gs : List (Sig × α)), (gs.map Prod.fst).Nodup →
      ∀ e1 ∈ gs, ∀ e2 ∈ gs, e1.1 = e2.1 → e1 = e2 := by
  intro gs hnd e1 h1 e2 h2 heq
  exact List.inj_on_of_nodup_map hnd h1 h2 heq

theorem processGroups_reps (a : Automaton) :
    ∀ (gs : List (Sig × List Nat)) (g : Automaton) (reps : List Nat),
      (∀ e ∈ gs, e.2 ≠ []) → processGroups a gs = .ok (g, reps) →
      reps.length = gs.length ∧
      ∀ (i : Nat) (hi : i < gs.length) (hr : i < reps.length) (p : Nat),
        (gs.get ⟨i, hi⟩).2 = [p] → reps.get ⟨i, hr⟩ = p := by
  intro gs
  induction gs generalizing a with
  | nil =>
    intro g reps _ h
    simp only [processGroups, Except.ok.injEq, Prod.mk.injEq] at h
    obtain ⟨_, hr⟩ := h
    subst hr
    exact ⟨rfl, fun i hi => by cases hi⟩
  | cons g0 rest ih =>
    intro g reps hne h
    obtain ⟨sg, ps⟩ := g0
    simp only [processGroups] at h
    by_cases hlen : ps.length > 1
    · rw [if_pos hlen] at h
      split at h
      · cases h
      · rename_i a1 nid hm
        split at h
        · cases h
        · rename_i a2 reps2 hp
          simp only [Except.ok.injEq, Prod.mk.injEq] at h
          obtain ⟨hg, hr⟩ := h
          subst hr
          obtain ⟨hl, hidx⟩ := ih a1 a2 reps2
            (fun e he => hne e (List.mem_cons_of_mem _ he)) hp
          refine ⟨by simp [hl], ?_⟩
          intro i hi hr2 p hget
          cases i with
          | zero =>
            exfalso
            simp only [List.get] at hget
            rw [hget] at hlen
            simp at hlen
          | succ i =>
            simp only [List.get] at hget ⊢
            exact hidx i (by simpa using hi) (by simpa using hr2) p hget
    · rw [if_neg hlen] at h
      split at h
      · exfalso
        exact hne (sg, []) (List.mem_cons_self _ _) rfl
      · rename_i p tail
        split at h
        · cases h
        · rename_i a2 reps2 hp
          simp only [Except.ok.injEq, Prod.mk.injEq] at h
          obtain ⟨hg, hr⟩ := h
          subst hr
          obtain ⟨hl, hidx⟩ := ih a a2 reps2
            (fun e he => hne e (List.mem_cons_of_mem _ he)) hp
          refine ⟨by simp [hl], ?_⟩
          intro i hi hr2 q hget
          cases i with
          | zero =>
            simp only [List.get] at hget ⊢
            injection hget
          | succ i =>
            simp only [List.get] at hget ⊢
            exact hidx i (by simpa using hi) (by simpa using hr2) q hget

/-- C3 amended: each eligible parent is keyed by the signature
`(P.accepting, ordered tuple of transition items)`; two eligible parents
recorded in the step land in the same group exactly when those ordered
signatures are equal (so set-equal but differently-ordered transition
dictionaries are kept apart); and each group yields exactly one
representative, a singleton group's member being used unchanged. -/
theorem sig_grouping_ordered :
    (∀ (a : Automaton) (marked : List Nat) (items : List (Nat × List Char))
        (p q : Nat),
      p ∈ items.map Prod.fst → q ∈ items.map Prod.fst →
      eligible a marked p = true → eligible a marked q = true →
      ((∃ e ∈ buildSigs a marked items [], p ∈ e.2 ∧ q ∈ e.2)
        ↔ sigOf a p = sigOf a q))
    ∧ (∀ (a g : Automaton) (gs : List (Sig × List Nat)) (reps : List Nat),
        (∀ e ∈ gs, e.2 ≠ []) → processGroups a gs = .ok (g, reps) →
        reps.length = gs.length ∧
        ∀ (i : Nat) (hi : i < gs.length) (hr : i < reps.length) (p : Nat),
          (gs.get ⟨i, hi⟩).2 = [p] → reps.get ⟨i, hr⟩ = p) := by
  constructor
  · intro a marked items p q hp hq hep heq
    constructor
    · rintro ⟨e, he, hpe, hqe⟩
      have h1 := buildSigs_sig a marked items [] (by simp) e he p hpe
      have h2 := buildSigs_sig a marked items [] (by simp) e he q hqe
      rw [h1, h2]
    · intro hsig
      obtain ⟨e1, he1, hp1⟩ :=
        (buildSigs_mem a marked items [] p).mpr (Or.inr ⟨hp, hep⟩)
      obtain ⟨e2, he2, hq2⟩ :=
        (buildSigs_mem a marked items [] q).mpr (Or.inr ⟨hq, heq⟩)
      have hs1 := buildSigs_sig a marked items [] (by simp) e1 he1 p hp1
      have hs2 := buildSigs_sig a marked items [] (by simp) e2 he2 q hq2
      have heq12 : e1 = e2 :=
        keys_nodup_inj _ (buildSigs_nodup a marked items [] (by simp))
          e1 he1 e2 he2 (by rw [← hs1, ← hs2, hsig])
      subst heq12
      exact ⟨e1, he1, hp1, hq2⟩
  · intro a g gs reps hne h
    exact processGroups_reps a gs g reps hne h

/-- Witness for `sig_grouping_ordered`: on the concrete first pop of the
compress run on {ab, ac, bc, bb}, parents 4 and 1 are grouped apart
because their ordered signatures differ. -/
theorem sig_grouping_ordered_witness :
    ¬ (∃ e ∈ buildSigs exC3m.1 [7] (hGet exC3m.1 7).parents [],
        (4 : Nat) ∈ e.2 ∧ (1 : Nat) ∈ e.2) := by
  have h := sig_grouping_ordered.1 exC3m.1 [7] (hGet exC3m.1 7).parents 4 1
    (by decide) (by decide) (by decide) (by decide)
  rw [h]
  decide

theorem alookup_aset_self {κ β : Type} [DecidableEq κ] :
    ∀ (xs : List (κ × β)) (k : κ) (v : β), alookup (aset xs k v) k = some v := by
  intro xs k v
  induction xs with
  | nil => simp [aset, alookup]
  | cons e rest ih =>
    obtain ⟨k0, v0⟩ := e
    simp only [aset]
    by_cases hk : k = k0
    · rw [if_pos hk]
      simp [alookup, hk]
    · rw [if_neg hk]
      simp [alookup, hk, ih]

theorem alookup_aset_ne {κ β : Type} [DecidableEq κ] :
    ∀ (xs : List (κ × β)) (k k' : κ) (v : β), k' ≠ k →
      alookup (aset xs k v) k' = alookup xs k' := by
  intro xs k k' v hne
  induction xs with
  | nil => simp [aset, alookup, hne]
  | cons e rest ih =>
    obtain ⟨k0, v0⟩ := e
    simp only [aset]
    by_cases hk : k = k0
    · rw [if_pos hk]
      subst hk
      simp [alookup, hne]
    · rw [if_neg hk]
      by_cases hk' : k' = k0
      · simp [alookup, hk']
      · simp [alookup, hk', ih]

theorem list_set_ge {α : Type} :
    ∀ (l : List α) (n : Nat) (d : α), l.length ≤ n → l.set n d = l := by
  intro l
  induction l with
  | nil => intro n d _; rfl
  | cons x xs ih =>
    intro n d h
    cases n with
    | zero => simp at h
    | succ n =>
      simp only [List.set]
      rw [ih n d (by simpa using h)]

theorem hSet_length (a : Automaton) (n : Nat) (d : StateData) :
    (hSet a n d).states.length = a.states.length := by
  simp [hSet]

theorem hSet_initial (a : Automaton) (n : Nat) (d : StateData) :
    (hSet a n d).initial = a.initial := rfl

theorem hSet_compressed (a : Automaton) (n : Nat) (d : StateData) :
    (hSet a n d).compressed = a.compressed := rfl

theorem hGet_hSet_eq (a : Automaton) (n : Nat) (d : StateData)
    (h : n < a.states.length) : hGet (hSet a n d) n = d := by
  unfold hGet hSet
  simp [List.getD_eq_getElem?_getD, List.getElem?_set_self' , h]

theorem hGet_hSet_ne (a : Automaton) (n m : Nat) (d : StateData)
    (h : m ≠ n) : hGet (hSet a n d) m = hGet a m := by
  unfold hGet hSet
  simp [List.getD_eq_getElem?_getD, List.getElem?_set_ne (by omega : n ≠ m)]

theorem hSet_ge (a : Automaton) (n : Nat) (d : StateData)
    (h : a.states.length ≤ n) : hSet a n d = a := by
  unfold hSet
  cases a with
  | mk states ini comp =>
    congr 1
    exact list_set_ge states n d (by simpa using h)

theorem foldl_pres {α : Type} {P : Automaton → Prop} (f : Automaton → α → Automaton)
    (hstep : ∀ x y, P x → P (f x y)) :
    ∀ (ls : List α) (a : Automaton), P a → P (ls.foldl f a) := by
  intro ls
  induction ls with
  | nil => intro a h; exact h
  | cons x xs ih =>
    intro a h
    exact ih (f a x) (hstep a x h)

theorem setTrans_length (a : Automaton) (p : Nat) (l : Char) (t : Nat) :
    (setTrans a p l t).states.length = a.states.length := by
  unfold setTrans
  exact hSet_length a p _

theorem setTrans_initial (a : Automaton) (p : Nat) (l : Char) (t : Nat) :
    (setTrans a p l t).initial = a.initial := rfl

theorem setTrans_compressed (a : Automaton) (p : Nat) (l : Char) (t : Nat) :
    (setTrans a p l t).compressed = a.compressed := rfl

theorem hGet_setTrans_ne (a : Automaton) (p : Nat) (l : Char) (t : Nat)
    (q : Nat) (h : q ≠ p) : hGet (setTrans a p l t) q = hGet a q := by
  unfold setTrans
  exact hGet_hSet_ne a p q _ h

theorem setTrans_parents (a : Automaton) (p : Nat) (l : Char) (t : Nat) (q : Nat) :
    (hGet (setTrans a p l t) q).parents = (hGet a q).parents := by
  by_cases hq : q = p
  · subst hq
    by_cases hlt : q < a.states.length
    · unfold setTrans
      rw [hGet_hSet_eq a q _ hlt]
    · unfold setTrans
      rw [hSet_ge a q _ (by omega)]
  · rw [hGet_setTrans_ne a p l t q hq]

theorem setTrans_final (a : Automaton) (p : Nat) (l : Char) (t : Nat) (q : Nat) :
    (hGet (setTrans a p l t) q).is_final = (hGet a q).is_final := by
  by_cases hq : q = p
  · subst hq
    by_cases hlt : q < a.states.length
    · unfold setTrans
      rw [hGet_hSet_eq a q _ hlt]
    · unfold setTrans
      rw [hSet_ge a q _ (by omega)]
  · rw [hGet_setTrans_ne a p l t q hq]

theorem setTrans_write (x : Automaton) (p : Nat) (l : Char) (t : Nat)
    (h : p < x.states.length) :
    alookup (hGet (setTrans x p l t) p).transitions l = some t := by
  unfold setTrans
  rw [hGet_hSet_eq x p _ h]
  exact alookup_aset_self _ l t

theorem setTrans_sticky (x : Automaton) (q : Nat) (l' : Char) (p : Nat) (l : Char)
    (t : Nat) (h : alookup (hGet x p).transitions l = some t) :
    alookup (hGet (setTrans x q l' t) p).transitions l = some t := by
  by_cases hq : p = q
  · subst hq
    by_cases hlt : p < x.states.length
    · unfold setTrans
      rw [hGet_hSet_eq x p _ hlt]
      by_cases hl : l = l'
      · subst hl
        exact alookup_aset_self _ l t
      · rw [alookup_aset_ne _ _ _ _ hl]
        exact h
    · unfold setTrans
      rw [hSet_ge x p _ (by omega)]
      exact h
  · rw [hGet_setTrans_ne x q l' t p hq]
    exact h

theorem setTrans_lookup_or (x : Automaton) (q : Nat) (l' : Char) (t : Nat)
    (p : Nat) (l : Char) :
    alookup (hGet (setTrans x q l' t) p).transitions l = some t
    ∨ alookup (hGet (setTrans x q l' t) p).transitions l
        = alookup (hGet x p).transitions l := by
  by_cases hq : p = q
  · subst hq
    by_cases hlt : p < x.states.length
    · unfold setTrans
      rw [hGet_hSet_eq x p _ hlt]
      by_cases hl : l = l'
      · subst hl
        exact Or.inl (alookup_aset_self _ l t)
      · exact Or.inr (alookup_aset_ne _ _ _ _ hl)
    · unfold setTrans
      rw [hSet_ge x p _ (by omega)]
      exact Or.inr rfl
  · rw [hGet_setTrans_ne x q l' t p hq]
    exact Or.inr rfl

theorem rewire_length (nid : Nat) (ps : List (Nat × List Char)) (a : Automaton) :
    (rewireParents a nid ps).states.length = a.states.length := by
  unfold rewireParents
  refine foldl_pres (P := fun x => x.states.length = a.states.length) _ ?_ ps a rfl
  intro x pl hx
  refine foldl_pres (P := fun x => x.states.length = a.states.length) _ ?_ pl.2 x hx
  intro x2 l hx2
  rw [setTrans_length, hx2]

theorem rewire_initial (nid : Nat) (ps : List (Nat × List Char)) (a : Automaton) :
    (rewireParents a nid ps).initial = a.initial := by
  unfold rewireParents
  refine foldl_pres (P := fun x => x.initial = a.initial) _ ?_ ps a rfl
  intro x pl hx
  refine foldl_pres (P := fun x => x.initial = a.initial) _ ?_ pl.2 x hx
  intro x2 l hx2
  rw [setTrans_initial, hx2]

theorem rewire_compressed (nid : Nat) (ps : List (Nat × List Char)) (a : Automaton) :
    (rewireParents a nid ps).compressed = a.compressed := by
  unfold rewireParents
  refine foldl_pres (P := fun x => x.compressed = a.compressed) _ ?_ ps a rfl
  intro x pl hx
  refine foldl_pres (P := fun x => x.compressed = a.compressed) _ ?_ pl.2 x hx
  intro x2 l hx2
  rw [setTrans_compressed, hx2]

theorem rewire_parents_pres (nid : Nat) (ps : List (Nat × List Char))
    (a : Automaton) (q : Nat) :
    (hGet (rewireParents a nid ps) q).parents = (hGet a q).parents := by
  unfold rewireParents
  refine foldl_pres (P := fun x => (hGet x q).parents = (hGet a q).parents) _ ?_ ps a rfl
  intro x pl hx
  refine foldl_pres (P := fun x => (hGet x q).parents = (hGet a q).parents) _ ?_ pl.2 x hx
  intro x2 l hx2
  rw [setTrans_parents, hx2]

theorem rewire_final_pres (nid : Nat) (ps : List (Nat × List Char))
    (a : Automaton) (q : Nat) :
    (hGet (rewireParents a nid ps) q).is_final = (hGet a q).is_final := by
  unfold rewireParents
  refine foldl_pres (P := fun x => (hGet x q).is_final = (hGet a q).is_final) _ ?_ ps a rfl
  intro x pl hx
  refine foldl_pres (P := fun x => (hGet x q).is_final = (hGet a q).is_final) _ ?_ pl.2 x hx
  intro x2 l hx2
  rw [setTrans_final, hx2]

theorem rewire_sticky (nid : Nat) (ps : List (Nat × List Char)) (a : Automaton)
    (p : Nat) (l : Char)
    (h : alookup (hGet a p).transitions l = some nid) :
    alookup (hGet (rewireParents a nid ps) p).transitions l = some nid := by
  unfold rewireParents
  refine foldl_pres
    (P := fun x => alookup (hGet x p).transitions l = some nid) _ ?_ ps a h
  intro x pl hx
  refine foldl_pres
    (P := fun x => alookup (hGet x p).transitions l = some nid) _ ?_ pl.2 x hx
  intro x2 l2 hx2
  exact setTrans_sticky x2 pl.1 l2 p l nid hx2

theorem unionInto_pres (nid : Nat) :
    ∀ (items : List (Char × Nat)) (x x' : Automaton),
      unionInto x nid items = .ok x' →
      x'.states.length = x.states.length ∧ x'.initial = x.initial
      ∧ x'.compressed = x.compressed
      ∧ (∀ q, q ≠ nid → hGet x' q = hGet x q)
      ∧ (∀ q, (hGet x' q).is_final = (hGet x q).is_final)
      ∧ (∀ q, (hGet x' q).parents = (hGet x q).parents) := by
  intro items
  induction items with
  | nil =>
    intro x x' h
    simp only [unionInto, Except.ok.injEq] at h
    subst h
    exact ⟨rfl, rfl, rfl, fun q _ => rfl, fun q => rfl, fun q => rfl⟩
  | cons e rest ih =>
    intro x x' h
    obtain ⟨l, child⟩ := e
    simp only [unionInto] at h
    split at h
    · cases h
    · rename_i hc
      set x1 := hSet x nid
        { hGet x nid with
          transitions := aset (hGet x nid).transitions l child } with hx1
      obtain ⟨h1, h2, h3, h4, h5, h6⟩ := ih x1 x' h
      by_cases hlt : nid < x.states.length
      · refine ⟨by rw [h1, hx1, hSet_length], by rw [h2]; rfl,
          by rw [h3]; rfl, ?_, ?_, ?_⟩
        · intro q hq
          rw [h4 q hq, hx1, hGet_hSet_ne x nid q _ hq]
        · intro q
          rw [h5 q]
          by_cases hq : q = nid
          · rw [hq, hx1, hGet_hSet_eq x nid _ hlt]
          · rw [hx1, hGet_hSet_ne x nid q _ hq]
        · intro q
          rw [h6 q]
          by_cases hq : q = nid
          · rw [hq, hx1, hGet_hSet_eq x nid _ hlt]
          · rw [hx1, hGet_hSet_ne x nid q _ hq]
      · have hx1e : x1 = x := by
          rw [hx1]
          exact hSet_ge x nid _ (by omega)
        rw [hx1e] at h1 h2 h3 h4 h5 h6
        exact ⟨h1, h2, h3, h4, h5, h6⟩

theorem mergeGo_pres (nid : Nat) :
    ∀ (ms : List Nat) (a g : Automaton), mergeGo a nid ms = .ok g →
      g.states.length = a.states.length ∧ g.initial = a.initial
      ∧ g.compressed = a.compressed
      ∧ (∀ q, (hGet g q).is_final = (hGet a q).is_final)
      ∧ (∀ q, q ≠ nid → (hGet g q).parents = (hGet a q).parents) := by
  intro ms
  induction ms with
  | nil =>
    intro a g h
    simp only [mergeGo, Except.ok.injEq] at h
    subst h
    exact ⟨rfl, rfl, rfl, fun q => rfl, fun q _ => rfl⟩
  | cons s rest ih =>
    intro a g h
    simp only [mergeGo, bind, Except.bind] at h
    cases hu : unionInto a nid (hGet a s).transitions with
    | error e => rw [hu] at h; cases h
    | ok a1 =>
      rw [hu] at h
      simp only at h
      set a2 := rewireParents a1 nid (hGet a1 s).parents with ha2
      set nd := hGet a2 nid with hnd
      set a3 := hSet a2 nid
        { nd with parents := pUpdate nd.parents (hGet a2 s).parents } with ha3
      obtain ⟨g1, g2, g3, g4, g5, g6⟩ := unionInto_pres nid _ a a1 hu
      obtain ⟨r1, r2, r3, r4, r5⟩ := ih a3 g h
      refine ⟨?_, ?_, ?_, ?_, ?_⟩
      · rw [r1, ha3, hSet_length, ha2, rewire_length, g1]
      · rw [r2, ha3, hSet_initial, ha2, rewire_initial, g2]
      · rw [r3, ha3, hSet_compressed, ha2, rewire_compressed, g3]
      · intro q
        rw [r4 q]
        by_cases hq : q = nid
        · subst hq
          by_cases hlt : q < a2.states.length
          · rw [ha3, hGet_hSet_eq a2 q _ hlt]
            show nd.is_final = _
            rw [hnd, ha2, rewire_final_pres, g5 q]
          · rw [ha3, hSet_ge a2 q _ (by omega), ha2, rewire_final_pres, g5 q]
        · rw [ha3, hGet_hSet_ne a2 nid q _ hq, ha2, rewire_final_pres, g5 q]
      · intro q hq
        rw [r5 q hq, ha3, hGet_hSet_ne a2 nid q _ hq, ha2, rewire_parents_pres,
          g6 q]

theorem rewire_inner (nid : Nat) :
    ∀ (ls : List Char) (x : Automaton) (p : Nat) (l : Char),
      l ∈ ls → p < x.states.length →
      alookup (hGet (ls.foldl (fun acc l' => setTrans acc p l' nid) x) p).transitions l
        = some nid := by
  intro ls
  induction ls with
  | nil => intro x p l h; cases h
  | cons l0 rest ih =>
    intro x p l hl hp
    simp only [List.foldl_cons]
    rcases List.mem_cons.mp hl with hl | hl
    · subst hl
      refine foldl_pres
        (P := fun y => alookup (hGet y p).transitions l = some nid) _ ?_ rest _
        (setTrans_write x p l nid hp)
      intro y l2 hy
      exact setTrans_sticky y p l2 p l nid hy
    · exact ih (setTrans x p l0 nid) p l hl (by rw [setTrans_length]; exact hp)

theorem rewire_writes (nid : Nat) :
    ∀ (ps : List (Nat × List Char)) (x : Automaton) (p : Nat) (ls : List Char)
      (l : Char),
      (p, ls) ∈ ps → l ∈ ls → p < x.states.length →
      alookup (hGet (rewireParents x nid ps) p).transitions l = some nid := by
  intro ps
  induction ps with
  | nil => intro x p ls l h; cases h
  | cons e rest ih =>
    intro x p ls l he hl hp
    obtain ⟨p0, ls0⟩ := e
    show alookup (hGet (rewireParents
      (ls0.foldl (fun acc2 l' => setTrans acc2 p0 l' nid) x) nid rest) p).transitions l
      = some nid
    rcases List.mem_cons.mp he with he | he
    · injection he with he1 he2
      subst he1
      subst he2
      refine rewire_sticky nid rest _ p l ?_
      exact rewire_inner nid ls x p l hl hp
    · refine ih _ p ls l he hl ?_
      have : (ls0.foldl (fun acc2 l' => setTrans acc2 p0 l' nid) x).states.length
          = x.states.length := by
        refine foldl_pres (P := fun y => y.states.length = x.states.length) _ ?_ ls0 x rfl
        intro y l2 hy
        rw [setTrans_length, hy]
      rw [this]
      exact hp

theorem mergeGo_sticky (nid : Nat) :
    ∀ (ms : List Nat) (a g : Automaton), mergeGo a nid ms = .ok g →
      ∀ (p : Nat) (l : Char), p ≠ nid →
      alookup (hGet a p).transitions l = some nid →
      alookup (hGet g p).transitions l = some nid := by
  intro ms
  induction ms with
  | nil =>
    intro a g h p l _ hv
    simp only [mergeGo, Except.ok.injEq] at h
    subst h
    exact hv
  | cons s rest ih =>
    intro a g h p l hp hv
    simp only [mergeGo, bind, Except.bind] at h
    cases hu : unionInto a nid (hGet a s).transitions with
    | error e => rw [hu] at h; cases h
    | ok a1 =>
      rw [hu] at h
      simp only at h
      obtain ⟨g1, g2, g3, g4, g5, g6⟩ := unionInto_pres nid _ a a1 hu
      refine ih _ g h p l hp ?_
      rw [hGet_hSet_ne _ nid p _ hp]
      refine rewire_sticky nid _ a1 p l ?_
      rw [g4 p hp]
      exact hv

theorem mergeGo_rewires (nid : Nat) :
    ∀ (ms : List Nat) (a g : Automaton), mergeGo a nid ms = .ok g →
      (∀ s ∈ ms, s ≠ nid) →
      (∀ s ∈ ms, ∀ pr ∈ (hGet a s).parents,
        pr.1 < a.states.length ∧ pr.1 ≠ nid) →
      ∀ s ∈ ms, ∀ pr ∈ (hGet a s).parents, ∀ l ∈ pr.2,
        alookup (hGet g pr.1).transitions l = some nid := by
  intro ms
  induction ms with
  | nil => intro a g _ _ _ s hs; cases hs
  | cons s0 rest ih =>
    intro a g h hnid hpar s hs pr hpr l hl
    simp only [mergeGo, bind, Except.bind] at h
    cases hu : unionInto a nid (hGet a s0).transitions with
    | error e => rw [hu] at h; cases h
    | ok a1 =>
      rw [hu] at h
      simp only at h
      obtain ⟨g1, g2, g3, g4, g5, g6⟩ := unionInto_pres nid _ a a1 hu
      set a2 := rewireParents a1 nid (hGet a1 s0).parents with ha2
      set nd := hGet a2 nid with hnd
      set a3 := hSet a2 nid
        { nd with parents := pUpdate nd.parents (hGet a2 s0).parents } with ha3
      rcases List.mem_cons.mp hs with hs | hs
      · rw [hs] at hpr
        obtain ⟨hlt, hpne⟩ := hpar s0 (List.mem_cons_self _ _) pr hpr
        refine mergeGo_sticky nid rest a3 g h pr.1 l hpne ?_
        rw [ha3, hGet_hSet_ne a2 nid pr.1 _ hpne]
        rw [ha2]
        have hw : alookup
            (hGet (rewireParents a1 nid (hGet a1 s0).parents) pr.1).transitions l
            = some nid := by
          refine rewire_writes nid _ a1 pr.1 pr.2 l ?_ hl (by rw [g1]; exact hlt)
          rw [g6 s0]
          exact (Prod.mk.eta (p := pr)) ▸ hpr
        exact hw
      · have hpre : (hGet a3 s).parents = (hGet a s).parents := by
          have hsne : s ≠ nid := hnid s (List.mem_cons_of_mem _ hs)
          rw [ha3, hGet_hSet_ne a2 nid s _ hsne, ha2, rewire_parents_pres, g6 s]
        have hlen3 : a3.states.length = a.states.length := by
          rw [ha3, hSet_length, ha2, rewire_length, g1]
        refine ih a3 g h ?_ ?_ s hs pr ?_ l hl
        · intro s1 hs1
          exact hnid s1 (List.mem_cons_of_mem _ hs1)
        · intro s1 hs1 pr1 hpr1
          have hp1 : (hGet a3 s1).parents = (hGet a s1).parents := by
            have hs1ne : s1 ≠ nid := hnid s1 (List.mem_cons_of_mem _ hs1)
            rw [ha3, hGet_hSet_ne a2 nid s1 _ hs1ne, ha2, rewire_parents_pres,
              g6 s1]
          rw [hp1] at hpr1
          obtain ⟨hh1, hh2⟩ := hpar s1 (List.mem_cons_of_mem _ hs1) pr1 hpr1
          rw [hlen3]
          exact ⟨hh1, hh2⟩
        · rw [hpre]
          exact hpr

theorem foldl_pUpdate_congr :
    ∀ (ms : List Nat) (acc : List (Nat × List Char))
      (P1 P2 : Nat → List (Nat × List Char)),
      (∀ s ∈ ms, P1 s = P2 s) →
      ms.foldl (fun acc2 s => pUpdate acc2 (P1 s)) acc
        = ms.foldl (fun acc2 s => pUpdate acc2 (P2 s)) acc := by
  intro ms
  induction ms with
  | nil => intro acc P1 P2 _; rfl
  | cons s rest ih =>
    intro acc P1 P2 h
    simp only [List.foldl_cons]
    rw [h s (List.mem_cons_self _ _)]
    exact ih _ P1 P2 (fun s1 hs1 => h s1 (List.mem_cons_of_mem _ hs1))

theorem mergeGo_parents (nid : Nat) :
    ∀ (ms : List Nat) (a g : Automaton), mergeGo a nid ms = .ok g →
      nid < a.states.length → (∀ s ∈ ms, s ≠ nid) →
      (hGet g nid).parents
        = ms.foldl (fun acc s => pUpdate acc (hGet a s).parents)
            ((hGet a nid).parents) := by
  intro ms
  induction ms with
  | nil =>
    intro a g h _ _
    simp only [mergeGo, Except.ok.injEq] at h
    subst h
    rfl
  | cons s0 rest ih =>
    intro a g h hlt hne
    simp only [mergeGo, bind, Except.bind] at h
    cases hu : unionInto a nid (hGet a s0).transitions with
    | error e => rw [hu] at h; cases h
    | ok a1 =>
      rw [hu] at h
      simp only at h
      obtain ⟨g1, g2, g3, g4, g5, g6⟩ := unionInto_pres nid _ a a1 hu
      set a2 := rewireParents a1 nid (hGet a1 s0).parents with ha2
      set nd := hGet a2 nid with hnd
      set a3 := hSet a2 nid
        { nd with parents := pUpdate nd.parents (hGet a2 s0).parents } with ha3
      have hlt2 : nid < a2.states.length := by
        rw [ha2, rewire_length, g1]; exact hlt
      have hlen3 : a3.states.length = a.states.length := by
        rw [ha3, hSet_length, ha2, rewire_length, g1]
      have hp3 : (hGet a3 nid).parents
          = pUpdate ((hGet a nid).parents) ((hGet a s0).parents) := by
        rw [ha3, hGet_hSet_eq a2 nid _ hlt2]
        show (pUpdate nd.parents (hGet a2 s0).parents) = _
        rw [hnd, ha2, rewire_parents_pres, g6 nid, rewire_parents_pres, g6 s0]
      have := ih a3 g h (by rw [hlen3]; exact hlt)
        (fun s hs => hne s (List.mem_cons_of_mem _ hs))
      rw [this, hp3]
      simp only [List.foldl_cons]
      refine foldl_pUpdate_congr rest _ _ _ ?_
      intro s hs
      have hsne : s ≠ nid := hne s (List.mem_cons_of_mem _ hs)
      rw [ha3, hGet_hSet_ne a2 nid s _ hsne, ha2, rewire_parents_pres, g6 s]

theorem alookup_none_of_not_mem {κ β : Type} [DecidableEq κ] :
    ∀ (xs : List (κ × β)) (k : κ), k ∉ xs.map Prod.fst → alookup xs k = none := by
  intro xs
  induction xs with
  | nil => intro k _; rfl
  | cons e rest ih =>
    intro k hk
    simp only [List.map_cons, List.mem_cons] at hk
    push_neg at hk
    simp only [alookup, if_neg hk.1]
    exact ih k hk.2

theorem alookup_pUpdate :
    ∀ (other xs : List (Nat × List Char)) (k : Nat),
      ((other.map Prod.fst).Nodup) →
      alookup (pUpdate xs other) k
        = match alookup other k with
          | some v => some v
          | none => alookup xs k := by
  intro other
  induction other with
  | nil => intro xs k _; rfl
  | cons e rest ih =>
    intro xs k hnd
    simp only [List.map_cons, List.nodup_cons] at hnd
    show alookup (pUpdate (aset xs e.1 e.2) rest) k = _
    rw [ih _ k hnd.2]
    by_cases hk : k = e.1
    · have hrest : alookup rest k = none := by
        rw [hk]
        exact alookup_none_of_not_mem rest e.1 hnd.1
      have h1 : alookup (e :: rest) k = some e.2 := by
        obtain ⟨k0, v0⟩ := e
        simp only [alookup]
        rw [if_pos hk]
      simp only [hrest, h1]
      rw [hk]
      exact alookup_aset_self xs e.1 e.2
    · have h1 : alookup (e :: rest) k = alookup rest k := by
        obtain ⟨k0, v0⟩ := e
        simp only [alookup]
        rw [if_neg hk]
      rw [h1]
      cases hr : alookup rest k with
      | some v => rfl
      | none => exact alookup_aset_ne xs e.1 k e.2 hk

theorem alookup_foldl_pUpdate :
    ∀ (ms : List Nat) (P : Nat → List (Nat × List Char))
      (init : List (Nat × List Char)) (k : Nat),
      (∀ s ∈ ms, ((P s).map Prod.fst).Nodup) →
      alookup (ms.foldl (fun acc s => pUpdate acc (P s)) init) k
        = match (ms.filterMap (fun s => alookup (P s) k)).getLast? with
          | some v => some v
          | none => alookup init k := by
  intro ms
  induction ms with
  | nil => intro P init k _; rfl
  | cons s rest ih =>
    intro P init k hnd
    simp only [List.foldl_cons]
    rw [ih P _ k (fun s1 hs1 => hnd s1 (List.mem_cons_of_mem _ hs1))]
    rw [List.filterMap_cons]
    cases hfm : rest.filterMap (fun s1 => alookup (P s1) k) with
    | nil =>
      cases hs : alookup (P s) k with
      | some v =>
        simp only [List.getLast?_nil, List.getLast?_singleton]
        rw [alookup_pUpdate _ init k (hnd s (List.mem_cons_self _ _))]
        simp only [hs]
      | none =>
        simp only [List.getLast?_nil]
        rw [alookup_pUpdate _ init k (hnd s (List.mem_cons_self _ _))]
        simp only [hs]
    | cons y ys =>
      cases hg : (y :: ys).getLast? with
      | none =>
        exfalso
        rw [List.getLast?_cons] at hg
        cases hg
      | some gv =>
        cases hs : alookup (P s) k with
        | some v =>
          simp only [List.getLast?_cons_cons, hg]
        | none =>
          simp only [hg]

theorem hGet_append_lt (a : Automaton) (x : StateData) (n : Nat)
    (h : n < a.states.length) :
    hGet { a with states := a.states ++ [x] } n = hGet a n := by
  unfold hGet
  simp only [List.getD_eq_getElem?_getD]
  rw [List.getElem?_append_left h]

theorem hGet_append_self (a : Automaton) (x : StateData) :
    hGet { a with states := a.states ++ [x] } a.states.length = x := by
  unfold hGet
  simp only [List.getD_eq_getElem?_getD]
  rw [List.getElem?_append_right (Nat.le_refl _)]
  simp

theorem mergeStates_elim (a : Automaton) (m0 : Nat) (rest : List Nat)
    (g : Automaton) (nid : Nat)
    (h : mergeStates a (m0 :: rest) = .ok (g, nid)) :
    nid = a.states.length
    ∧ ((m0 :: rest).any
        (fun s => (hGet a s).is_final != (hGet a m0).is_final)) = false
    ∧ mergeGo { a with states := a.states ++ [⟨(hGet a m0).is_final, [], []⟩] }
        a.states.length (m0 :: rest) = .ok g := by
  simp only [mergeStates] at h
  split at h
  · cases h
  · rename_i hany
    split at h
    · rename_i a2 hmg
      simp only [Except.ok.injEq, Prod.mk.injEq] at h
      obtain ⟨hg, hn⟩ := h
      subst hg
      subst hn
      exact ⟨rfl, by simpa using hany, hmg⟩
    · cases h

/-- C4 amended: for a successful `merge_states` call on members inside
the heap whose parent records name in-heap parents with distinct keys,
every recorded (parent, symbol) link of every member is rewired onto the
new state; and the new state's parents map holds, for each parent, the
record of the last member in list order that records that parent —
`dict.update` overwrites a shared parent's symbol list instead of
aggregating it. -/
theorem fuse_rewires_parents (a g : Automaton) (ms : List Nat) (nid : Nat)
    (hok : mergeStates a ms = .ok (g, nid))
    (hms : ∀ s ∈ ms, s < a.states.length)
    (hpar : ∀ s ∈ ms, ∀ pr ∈ (hGet a s).parents, pr.1 < a.states.length)
    (hnd : ∀ s ∈ ms, (((hGet a s).parents).map Prod.fst).Nodup) :
    (∀ s ∈ ms, ∀ pr ∈ (hGet a s).parents, ∀ l ∈ pr.2,
        alookup (hGet g pr.1).transitions l = some nid)
    ∧ ∀ p : Nat,
        alookup (hGet g nid).parents p
          = (ms.filterMap (fun s => alookup (hGet a s).parents p)).getLast? := by
  cases ms with
  | nil => cases hok
  | cons m0 rest =>
    obtain ⟨hnid, _, hmg⟩ := mergeStates_elim a m0 rest g nid hok
    subst hnid
    set a1 : Automaton :=
      { a with states := a.states ++ [⟨(hGet a m0).is_final, [], []⟩] } with ha1
    have hlen1 : a1.states.length = a.states.length + 1 := by
      rw [ha1]; simp
    have hsame : ∀ s ∈ m0 :: rest, hGet a1 s = hGet a s := by
      intro s hs
      exact hGet_append_lt a _ s (hms s hs)
    constructor
    · intro s hs pr hpr l hl
      have h1 := mergeGo_rewires a.states.length (m0 :: rest) a1 g hmg
        (fun s1 hs1 => by
          have := hms s1 hs1
          omega)
        (fun s1 hs1 pr1 hpr1 => by
          rw [hsame s1 hs1] at hpr1
          have := hpar s1 hs1 pr1 hpr1
          constructor
          · rw [hlen1]; omega
          · omega)
        s hs pr (by rw [hsame s hs]; exact hpr) l hl
      exact h1
    · intro p
      have h2 := mergeGo_parents a.states.length (m0 :: rest) a1 g hmg
        (by rw [hlen1]; omega)
        (fun s1 hs1 => by
          have := hms s1 hs1
          omega)
      have hinit : (hGet a1 a.states.length).parents = [] := by
        rw [ha1, hGet_append_self]
      rw [h2, hinit]
      rw [foldl_pUpdate_congr (m0 :: rest) [] _ (fun s => (hGet a s).parents)
        (fun s hs => by rw [hsame s hs])]
      rw [alookup_foldl_pUpdate (m0 :: rest) (fun s => (hGet a s).parents) [] p hnd]
      cases hlast : ((m0 :: rest).filterMap
          (fun s => alookup (hGet a s).parents p)).getLast? with
      | some v => rfl
      | none => rfl

/-- Witness for `fuse_rewires_parents` on the two leaves of the {ab, ac}
trie: both recorded links end up on the new state 4 and its parents map
keeps only the record of the last member. -/
theorem fuse_rewires_parents_witness :
    alookup (hGet exC4m.1 1).transitions 'c' = some 4
    ∧ alookup (hGet exC4m.1 4).parents 1
        = ([3, 2].filterMap (fun s => alookup (hGet exC4 s).parents 1)).getLast? := by
  have h := fuse_rewires_parents exC4 exC4m.1 [3, 2] 4
    (by decide) (by decide) (by decide) (by decide)
  refine ⟨?_, h.2 1⟩
  exact h.1 3 (by decide) (1, ['c']) (by decide) 'c' (by decide)

theorem aset_same {κ β : Type} [DecidableEq κ] :
    ∀ (xs : List (κ × β)) (k : κ) (v : β), alookup xs k = some v →
      aset xs k v = xs := by
  intro xs
  induction xs with
  | nil => intro k v h; cases h
  | cons e rest ih =>
    intro k v h
    obtain ⟨k0, v0⟩ := e
    simp only [alookup] at h
    simp only [aset]
    by_cases hk : k = k0
    · rw [if_pos hk] at h
      rw [if_pos hk]
      injection h with h
      rw [h]
    · rw [if_neg hk] at h
      rw [if_neg hk, ih k v h]

theorem aset_append {κ β : Type} [DecidableEq κ] :
    ∀ (xs : List (κ × β)) (k : κ) (v : β), alookup xs k = none →
      aset xs k v = xs ++ [(k, v)] := by
  intro xs
  induction xs with
  | nil => intro k v _; rfl
  | cons e rest ih =>
    intro k v h
    obtain ⟨k0, v0⟩ := e
    simp only [alookup] at h
    simp only [aset]
    by_cases hk : k = k0
    · rw [if_pos hk] at h
      cases h
    · rw [if_neg hk] at h
      rw [if_neg hk, ih k v h]
      rfl

theorem alookup_of_mem_nodup {κ β : Type} [DecidableEq κ] :
    ∀ (xs : List (κ × β)) (k : κ) (v : β), (xs.map Prod.fst).Nodup →
      (k, v) ∈ xs → alookup xs k = some v := by
  intro xs
  induction xs with
  | nil => intro k v _ h; cases h
  | cons e rest ih =>
    intro k v hnd hm
    obtain ⟨k0, v0⟩ := e
    simp only [List.map_cons, List.nodup_cons] at hnd
    rcases List.mem_cons.mp hm with hm | hm
    · injection hm with h1 h2
      subst h1
      subst h2
      simp [alookup]
    · have hk : k ≠ k0 := by
        intro hc
        apply hnd.1
        rw [← hc]
        exact List.mem_map.mpr ⟨(k, v), hm, rfl⟩
      simp only [alookup, if_neg hk]
      exact ih k v hnd.2 hm

theorem mem_of_alookup_eq_some {κ β : Type} [DecidableEq κ] :
    ∀ (xs : List (κ × β)) (k : κ) (v : β), alookup xs k = some v →
      (k, v) ∈ xs := by
  intro xs
  induction xs with
  | nil => intro k v h; cases h
  | cons e rest ih =>
    intro k v h
    obtain ⟨k0, v0⟩ := e
    simp only [alookup] at h
    by_cases hk : k = k0
    · rw [if_pos hk] at h
      injection h with h
      subst hk
      subst h
      exact List.mem_cons_self _ _
    · rw [if_neg hk] at h
      exact List.mem_cons_of_mem _ (ih k v h)

theorem aset_keys {κ β : Type} [DecidableEq κ] :
    ∀ (xs : List (κ × β)) (k : κ) (v : β),
      (aset xs k v).map Prod.fst
        = if k ∈ xs.map Prod.fst then xs.map Prod.fst
          else xs.map Prod.fst ++ [k] := by
  intro xs
  induction xs with
  | nil => intro k v; simp [aset]
  | cons e rest ih =>
    intro k v
    obtain ⟨k0, v0⟩ := e
    simp only [aset, List.map_cons, List.mem_cons]
    by_cases hk : k = k0
    · rw [if_pos hk]
      simp [hk]
    · rw [if_neg hk]
      simp only [List.map_cons, ih]
      by_cases hmem : k ∈ rest.map Prod.fst
      · rw [if_pos hmem, if_pos (Or.inr hmem)]
      · rw [if_neg hmem, if_neg (by
          intro hcl
          rcases hcl with hcl | hcl
          · exact hk hcl
          · exact hmem hcl)]
        simp

theorem aset_keys_nodup {κ β : Type} [DecidableEq κ]
    (xs : List (κ × β)) (k : κ) (v : β) (h : (xs.map Prod.fst).Nodup) :
    ((aset xs k v).map Prod.fst).Nodup := by
  rw [aset_keys]
  by_cases hmem : k ∈ xs.map Prod.fst
  · rwa [if_pos hmem]
  · rw [if_neg hmem]
    simp only [List.nodup_append, List.nodup_singleton]
    exact ⟨h, by simpa using hmem⟩

theorem acceptFrom_nil (a : Automaton) (n : Nat) :
    acceptFrom a n [] = (hGet a n).is_final := rfl

theorem acceptFrom_cons (a : Automaton) (n : Nat) (l : Char) (w : List Char) :
    acceptFrom a n (l :: w)
      = match alookup (hGet a n).transitions l with
        | some t => acceptFrom a t w
        | none => false := by
  unfold acceptFrom
  cases h : alookup (hGet a n).transitions l with
  | some t =>
    have hw : walk a n (l :: w) = walk a t w := by rw [walk, h]
    rw [hw]
  | none =>
    have hw : walk a n (l :: w) = none := by rw [walk, h]
    rw [hw]

theorem acceptFrom_congr_data (a : Automaton) (x y : Nat)
    (ht : (hGet a x).transitions = (hGet a y).transitions)
    (hf : (hGet a x).is_final = (hGet a y).is_final) (w : List Char) :
    acceptFrom a x w = acceptFrom a y w := by
  cases w with
  | nil => rw [acceptFrom_nil, acceptFrom_nil, hf]
  | cons l w => rw [acceptFrom_cons, acceptFrom_cons, ht]

theorem setTrans_lookup_ne (x : Automaton) (p : Nat) (l0 : Char) (t : Nat)
    (q : Nat) (l : Char) (h : ¬(q = p ∧ l = l0)) :
    alookup (hGet (setTrans x p l0 t) q).transitions l
      = alookup (hGet x q).transitions l := by
  by_cases hq : q = p
  · have hl : l ≠ l0 := fun hc => h ⟨hq, hc⟩
    subst hq
    by_cases hlt : q < x.states.length
    · unfold setTrans
      rw [hGet_hSet_eq x q _ hlt]
      exact alookup_aset_ne _ _ _ _ hl
    · unfold setTrans
      rw [hSet_ge x q _ (by omega)]
  · rw [hGet_setTrans_ne x p l0 t q hq]

theorem rewire_lookup_stable (nid : Nat) :
    ∀ (ps : List (Nat × List Char)) (x : Automaton) (q : Nat) (l : Char),
      (∀ pr ∈ ps, ¬(pr.1 = q ∧ l ∈ pr.2)) →
      alookup (hGet (rewireParents x nid ps) q).transitions l
        = alookup (hGet x q).transitions l := by
  intro ps
  induction ps with
  | nil => intro x q l _; rfl
  | cons e rest ih =>
    intro x q l h
    obtain ⟨p0, ls0⟩ := e
    show alookup (hGet (rewireParents
      (ls0.foldl (fun acc2 l' => setTrans acc2 p0 l' nid) x) nid rest) q).transitions l = _
    rw [ih _ q l (fun pr hpr => h pr (List.mem_cons_of_mem _ hpr))]
    have hh := h (p0, ls0) (List.mem_cons_self _ _)
    clear h ih
    induction ls0 generalizing x with
    | nil => rfl
    | cons l1 ls ih1 =>
      simp only [List.foldl_cons]
      rw [ih1 (setTrans x p0 l1 nid) (by
        intro hc
        exact hh ⟨hc.1, List.mem_cons_of_mem _ hc.2⟩)]
      refine setTrans_lookup_ne x p0 l1 nid q l ?_
      intro hc
      refine hh ⟨hc.1.symm, ?_⟩
      rw [hc.2]
      exact List.mem_cons_self _ _

theorem unionInto_same (nid : Nat) :
    ∀ (items : List (Char × Nat)) (x : Automaton),
      nid < x.states.length →
      (∀ lc ∈ items, alookup (hGet x nid).transitions lc.1 = some lc.2) →
      unionInto x nid items = .ok x := by
  intro items
  induction items with
  | nil => intro x _ _; rfl
  | cons e rest ih =>
    intro x hlt h
    obtain ⟨l, c⟩ := e
    have hl := h (l, c) (List.mem_cons_self _ _)
    simp only [unionInto, hl]
    rw [if_neg (by simp)]
    have hst : aset (hGet x nid).transitions l c = (hGet x nid).transitions :=
      aset_same _ l c hl
    rw [hst]
    have hrec : ({ hGet x nid with
        transitions := (hGet x nid).transitions } : StateData) = hGet x nid := rfl
    rw [hrec, hSet_hGet_self x nid hlt]
    exact ih x hlt (fun lc hlc => h lc (List.mem_cons_of_mem _ hlc))

theorem unionInto_build (nid : Nat) :
    ∀ (items : List (Char × Nat)) (x : Automaton),
      nid < x.states.length →
      ((((hGet x nid).transitions ++ items).map Prod.fst).Nodup) →
      ∃ x', unionInto x nid items = .ok x'
        ∧ (hGet x' nid).transitions = (hGet x nid).transitions ++ items
        ∧ (∀ q, q ≠ nid → hGet x' q = hGet x q)
        ∧ x'.states.length = x.states.length
        ∧ (hGet x' nid).is_final = (hGet x nid).is_final
        ∧ (hGet x' nid).parents = (hGet x nid).parents
        ∧ x'.initial = x.initial ∧ x'.compressed = x.compressed := by
  intro items
  induction items with
  | nil =>
    intro x hlt _
    exact ⟨x, rfl, by simp, fun q _ => rfl, rfl, rfl, rfl, rfl, rfl⟩
  | cons e rest ih =>
    intro x hlt hnd
    obtain ⟨l, c⟩ := e
    have hlnone : alookup (hGet x nid).transitions l = none := by
      apply alookup_none_of_not_mem
      intro hc
      rw [List.map_append] at hnd
      obtain ⟨h1, h2⟩ := List.nodup_append.mp hnd
      have := h2.2 hc  -- hc : l ∈ keys T, need l ∈ keys ((l,c)::rest)
      exact this (by simp)
    simp only [unionInto, hlnone]
    rw [if_neg (by simp)]
    set x1 := hSet x nid
      { hGet x nid with
        transitions := aset (hGet x nid).transitions l c } with hx1
    have hx1len : x1.states.length = x.states.length := by
      rw [hx1]; exact hSet_length x nid _
    have hx1nid : hGet x1 nid = { hGet x nid with
        transitions := aset (hGet x nid).transitions l c } := by
      rw [hx1]; exact hGet_hSet_eq x nid _ hlt
    have hx1tr : (hGet x1 nid).transitions
        = (hGet x nid).transitions ++ [(l, c)] := by
      rw [hx1nid]
      exact aset_append _ l c hlnone
    have hndrest : (((hGet x1 nid).transitions ++ rest).map Prod.fst).Nodup := by
      rw [hx1tr, List.append_assoc]
      exact hnd
    obtain ⟨x', hok, htr, hq, hlen, hf, hp, hi, hc2⟩ :=
      ih x1 (by rw [hx1len]; exact hlt) hndrest
    refine ⟨x', hok, ?_, ?_, by rw [hlen, hx1len], ?_, ?_, ?_, ?_⟩
    · rw [htr, hx1tr, List.append_assoc]
      rfl
    · intro q hq2
      rw [hq q hq2, hx1, hGet_hSet_ne x nid q _ hq2]
    · rw [hf, hx1nid]
    · rw [hp, hx1nid]
    · rw [hi, hx1]; rfl
    · rw [hc2, hx1]; rfl

theorem rewire_hGet_stable (nid : Nat) :
    ∀ (ps : List (Nat × List Char)) (x : Automaton) (q : Nat),
      (∀ pr ∈ ps, pr.1 ≠ q) →
      hGet (rewireParents x nid ps) q = hGet x q := by
  intro ps
  induction ps with
  | nil => intro x q _; rfl
  | cons e rest ih =>
    intro x q h
    obtain ⟨p0, ls0⟩ := e
    show hGet (rewireParents
      (ls0.foldl (fun acc2 l' => setTrans acc2 p0 l' nid) x) nid rest) q = _
    rw [ih _ q (fun pr hpr => h pr (List.mem_cons_of_mem _ hpr))]
    have hne := h (p0, ls0) (List.mem_cons_self _ _)
    clear h ih
    induction ls0 generalizing x with
    | nil => rfl
    | cons l1 ls ih1 =>
      simp only [List.foldl_cons]
      rw [ih1 (setTrans x p0 l1 nid) hne]
      exact hGet_setTrans_ne x p0 l1 nid q (fun hc => hne hc.symm)

/-- One full run of the member loop of `merge_states`, starting from a
heap in which the new state carries either nothing yet or already the
common transition list `I0` of the remaining members: the loop succeeds,
the new state ends with `I0`, and the transitions of every other state
change only at pairs recorded against a member. -/
theorem mergeGo_run (nid : Nat) (I0 : List (Char × Nat))
    (hkeys0 : (I0.map Prod.fst).Nodup) :
    ∀ (ms : List Nat) (x : Automaton),
      nid < x.states.length →
      ((hGet x nid).transitions = I0
        ∨ ((hGet x nid).transitions = [] ∧ ms ≠ [])) →
      (∀ s ∈ ms, s ≠ nid) →
      (∀ s ∈ ms, (hGet x s).transitions = I0) →
      (∀ s ∈ ms, ∀ pr ∈ (hGet x s).parents, pr.1 ∉ ms ∧ pr.1 ≠ nid) →
      ∃ g, mergeGo x nid ms = .ok g
        ∧ (hGet g nid).transitions = I0
        ∧ (∀ q l, q ≠ nid → ¬ RecordedIn x ms q l →
            alookup (hGet g q).transitions l
              = alookup (hGet x q).transitions l) := by
  intro ms
  induction ms with
  | nil =>
    intro x _ htr _ _ _
    rcases htr with htr | htr
    · exact ⟨x, rfl, htr, fun q l _ _ => rfl⟩
    · exact absurd rfl htr.2
  | cons s rest ih =>
    intro x hlt htr hne hmem hrec
    have hsne : s ≠ nid := hne s (List.mem_cons_self _ _)
    have hstr : (hGet x s).transitions = I0 := hmem s (List.mem_cons_self _ _)
    -- the union step: either a no-op (new state already carries I0) or the
    -- first copy (new state still empty)
    have hstep : ∃ x1, unionInto x nid (hGet x s).transitions = .ok x1
        ∧ (hGet x1 nid).transitions = I0
        ∧ (∀ q, q ≠ nid → hGet x1 q = hGet x q)
        ∧ x1.states.length = x.states.length
        ∧ (hGet x1 nid).parents = (hGet x nid).parents := by
      rcases htr with htr | htr
      · refine ⟨x, ?_, htr, fun q _ => rfl, rfl, rfl⟩
        refine unionInto_same nid _ x hlt ?_
        intro lc hlc
        rw [htr]
        rw [hstr] at hlc
        exact alookup_of_mem_nodup I0 lc.1 lc.2 hkeys0
          (by rw [show ((lc.1, lc.2) : Char × Nat) = lc from rfl]; exact hlc)
      · obtain ⟨x1, hok, htr1, hq1, hlen1, _, hp1, _, _⟩ :=
          unionInto_build nid (hGet x s).transitions x hlt
            (by rw [htr.1, hstr]; simpa using hkeys0)
        exact ⟨x1, hok, by rw [htr1, htr.1, hstr]; rfl, hq1, hlen1,
          by rw [hp1]⟩
    obtain ⟨x1, hu, htr1, hq1, hlen1, hp1⟩ := hstep
    have hsx1 : hGet x1 s = hGet x s := hq1 s hsne
    set x2 := rewireParents x1 nid (hGet x1 s).parents with hx2
    set nd := hGet x2 nid with hnd
    set x3 := hSet x2 nid
      { nd with parents := pUpdate nd.parents (hGet x2 s).parents } with hx3
    have hx2len : x2.states.length = x.states.length := by
      rw [hx2, rewire_length, hlen1]
    have hx3len : x3.states.length = x.states.length := by
      rw [hx3, hSet_length, hx2len]
    have hx2nid : hGet x2 nid = hGet x1 nid := by
      rw [hx2, hsx1]
      refine rewire_hGet_stable nid _ x1 nid ?_
      intro pr hpr
      exact (hrec s (List.mem_cons_self _ _) pr hpr).2
    have hx3nid_tr : (hGet x3 nid).transitions = I0 := by
      rw [hx3, hGet_hSet_eq x2 nid _ (by rw [hx2len]; exact hlt)]
      show nd.transitions = I0
      rw [hnd, hx2nid, htr1]
    have hstable : ∀ q, q ≠ nid →
        (∀ pr ∈ (hGet x s).parents, pr.1 ≠ q) →
        hGet x3 q = hGet x q := by
      intro q hq hnorec
      rw [hx3, hGet_hSet_ne x2 nid q _ hq, hx2, hsx1]
      rw [rewire_hGet_stable nid _ x1 q hnorec]
      exact hq1 q hq
    have hresttr : ∀ s1 ∈ rest, hGet x3 s1 = hGet x s1 := by
      intro s1 hs1
      refine hstable s1 (hne s1 (List.mem_cons_of_mem _ hs1)) ?_
      intro pr hpr
      intro hc
      exact (hrec s (List.mem_cons_self _ _) pr hpr).1
        (hc ▸ List.mem_cons_of_mem _ hs1)
    obtain ⟨g, hok, htrg, hstab⟩ := ih x3
      (by rw [hx3len]; exact hlt) (Or.inl hx3nid_tr)
      (fun s1 hs1 => hne s1 (List.mem_cons_of_mem _ hs1))
      (fun s1 hs1 => by
        rw [hresttr s1 hs1]
        exact hmem s1 (List.mem_cons_of_mem _ hs1))
      (fun s1 hs1 pr hpr => by
        rw [hresttr s1 hs1] at hpr
        have := hrec s1 (List.mem_cons_of_mem _ hs1) pr hpr
        exact ⟨fun hc => this.1 (List.mem_cons_of_mem _ hc), this.2⟩)
    refine ⟨g, ?_, htrg, ?_⟩
    · show mergeGo x nid (s :: rest) = .ok g
      simp only [mergeGo, bind, Except.bind, hu]
      exact hok
    · intro q l hq hnr
      have hnr1 : ∀ pr ∈ (hGet x s).parents, ¬(pr.1 = q ∧ l ∈ pr.2) := by
        intro pr hpr hc
        exact hnr ⟨s, List.mem_cons_self _ _, pr, hpr, hc⟩
      have hnr2 : ¬ RecordedIn x3 rest q l := by
        intro ⟨s1, hs1, pr, hpr, hc⟩
        rw [hresttr s1 hs1] at hpr
        exact hnr ⟨s1, List.mem_cons_of_mem _ hs1, pr, hpr, hc⟩
      rw [hstab q l hq hnr2]
      rw [hx3, hGet_hSet_ne x2 nid q _ hq, hx2, hsx1]
      rw [rewire_lookup_stable nid _ x1 q l hnr1]
      rw [hq1 q hq]

theorem pUpdate_keys_nodup :
    ∀ (other xs : List (Nat × List Char)), ((xs.map Prod.fst).Nodup) →
      ((pUpdate xs other).map Prod.fst).Nodup := by
  intro other
  induction other with
  | nil => intro xs h; exact h
  | cons e rest ih =>
    intro xs h
    exact ih _ (aset_keys_nodup xs e.1 e.2 h)

theorem pUpdate_keys_sub :
    ∀ (other xs : List (Nat × List Char)) (k : Nat),
      k ∈ (pUpdate xs other).map Prod.fst →
      k ∈ xs.map Prod.fst ∨ k ∈ other.map Prod.fst := by
  intro other
  induction other with
  | nil => intro xs k h; exact Or.inl h
  | cons e rest ih =>
    intro xs k h
    rcases ih _ k h with h1 | h1
    · rw [aset_keys] at h1
      by_cases hm : e.1 ∈ xs.map Prod.fst
      · rw [if_pos hm] at h1
        exact Or.inl h1
      · rw [if_neg hm] at h1
        rcases List.mem_append.mp h1 with h2 | h2
        · exact Or.inl h2
        · simp only [List.mem_singleton] at h2
          exact Or.inr (by simp [h2])
    · exact Or.inr (List.mem_cons_of_mem _ h1)

theorem unionInto_keysnodup (nid : Nat) :
    ∀ (items : List (Char × Nat)) (x x' : Automaton),
      unionInto x nid items = .ok x' → KeysNodup x → KeysNodup x' := by
  intro items
  induction items with
  | nil =>
    intro x x' h hk
    simp only [unionInto, Except.ok.injEq] at h
    subst h
    exact hk
  | cons e rest ih =>
    intro x x' h hk
    obtain ⟨l, c⟩ := e
    simp only [unionInto] at h
    split at h
    · cases h
    · refine ih _ x' h ?_
      intro n
      by_cases hn : n = nid
      · by_cases hlt : nid < x.states.length
        · rw [hn, hGet_hSet_eq x nid _ hlt]
          exact ⟨aset_keys_nodup _ l c (hk nid).1, (hk nid).2⟩
        · rw [hn, hSet_ge x nid _ (by omega)]
          exact hk nid
      · rw [hGet_hSet_ne x nid n _ hn]
        exact hk n

theorem setTrans_keysnodup (x : Automaton) (p : Nat) (l : Char) (t : Nat)
    (hk : KeysNodup x) : KeysNodup (setTrans x p l t) := by
  intro n
  by_cases hn : n = p
  · by_cases hlt : p < x.states.length
    · rw [hn]
      unfold setTrans
      rw [hGet_hSet_eq x p _ hlt]
      exact ⟨aset_keys_nodup _ l t (hk p).1, (hk p).2⟩
    · rw [hn]
      unfold setTrans
      rw [hSet_ge x p _ (by omega)]
      exact hk p
  · unfold setTrans
    rw [hGet_hSet_ne x p n _ hn]
    exact hk n

theorem mergeGo_keysnodup (nid : Nat) :
    ∀ (ms : List Nat) (x g : Automaton), mergeGo x nid ms = .ok g →
      KeysNodup x → KeysNodup g := by
  intro ms
  induction ms with
  | nil =>
    intro x g h hk
    simp only [mergeGo, Except.ok.injEq] at h
    subst h
    exact hk
  | cons s rest ih =>
    intro x g h hk
    simp only [mergeGo, bind, Except.bind] at h
    cases hu : unionInto x nid (hGet x s).transitions with
    | error e => rw [hu] at h; cases h
    | ok x1 =>
      rw [hu] at h
      simp only at h
      refine ih _ g h ?_
      have hk1 := unionInto_keysnodup nid _ x x1 hu hk
      have hk2 : KeysNodup (rewireParents x1 nid (hGet x1 s).parents) := by
        unfold rewireParents
        refine foldl_pres (P := KeysNodup) _ ?_ _ x1 hk1
        intro y pl hy
        refine foldl_pres (P := KeysNodup) _ ?_ pl.2 y hy
        intro y2 l2 hy2
        exact setTrans_keysnodup y2 pl.1 l2 nid hy2
      set x2 := rewireParents x1 nid (hGet x1 s).parents
      intro n
      by_cases hn : n = nid
      · by_cases hlt : nid < x2.states.length
        · rw [hn, hGet_hSet_eq x2 nid _ hlt]
          exact ⟨(hk2 nid).1, pUpdate_keys_nodup _ _ (hk2 nid).2⟩
        · rw [hn, hSet_ge x2 nid _ (by omega)]
          exact hk2 nid
      · rw [hGet_hSet_ne x2 nid n _ hn]
        exact hk2 n

theorem aset_mem {κ β : Type} [DecidableEq κ] :
    ∀ (xs : List (κ × β)) (k : κ) (v : β) (e : κ × β),
      e ∈ aset xs k v → e ∈ xs ∨ e = (k, v) := by
  intro xs
  induction xs with
  | nil =>
    intro k v e h
    simp only [aset, List.mem_singleton] at h
    exact Or.inr h
  | cons e0 rest ih =>
    intro k v e h
    obtain ⟨k0, v0⟩ := e0
    simp only [aset] at h
    by_cases hk : k = k0
    · rw [if_pos hk] at h
      rcases List.mem_cons.mp h with h | h
      · exact Or.inr (by rw [h, hk])
      · exact Or.inl (List.mem_cons_of_mem _ h)
    · rw [if_neg hk] at h
      rcases List.mem_cons.mp h with h | h
      · exact Or.inl (by rw [h]; exact List.mem_cons_self _ _)
      · rcases ih k v e h with h1 | h1
        · exact Or.inl (List.mem_cons_of_mem _ h1)
        · exact Or.inr h1

theorem pUpdate_mem_vals :
    ∀ (other xs : List (Nat × List Char)) (e : Nat × List Char),
      e ∈ pUpdate xs other → e ∈ xs ∨ e ∈ other := by
  intro other
  induction other with
  | nil => intro xs e h; exact Or.inl h
  | cons e0 rest ih =>
    intro xs e h
    rcases ih _ e h with h1 | h1
    · rcases aset_mem xs e0.1 e0.2 e h1 with h2 | h2
      · exact Or.inl h2
      · exact Or.inr (by rw [h2]; simp)
    · exact Or.inr (List.mem_cons_of_mem _ h1)

theorem unionInto_rangeb (nid L : Nat) :
    ∀ (items : List (Char × Nat)) (x x' : Automaton),
      unionInto x nid items = .ok x' → RangeB L x →
      (∀ lc ∈ items, lc.2 < L) → RangeB L x' := by
  intro items
  induction items with
  | nil =>
    intro x x' h hr _
    simp only [unionInto, Except.ok.injEq] at h
    subst h
    exact hr
  | cons e rest ih =>
    intro x x' h hr hv
    obtain ⟨l, c⟩ := e
    simp only [unionInto] at h
    split at h
    · cases h
    · refine ih _ x' h ?_ (fun lc hlc => hv lc (List.mem_cons_of_mem _ hlc))
      intro n
      by_cases hn : n = nid
      · by_cases hlt : nid < x.states.length
        · rw [hn, hGet_hSet_eq x nid _ hlt]
          constructor
          · intro lc hlc
            rcases aset_mem _ l c lc hlc with h1 | h1
            · exact (hr nid).1 lc h1
            · rw [h1]
              exact hv (l, c) (List.mem_cons_self _ _)
          · exact (hr nid).2
        · rw [hn, hSet_ge x nid _ (by omega)]
          exact hr nid
      · rw [hGet_hSet_ne x nid n _ hn]
        exact hr n

theorem setTrans_rangeb (L : Nat) (x : Automaton) (p : Nat) (l : Char) (t : Nat)
    (hr : RangeB L x) (ht : t < L) : RangeB L (setTrans x p l t) := by
  intro n
  by_cases hn : n = p
  · by_cases hlt : p < x.states.length
    · rw [hn]
      unfold setTrans
      rw [hGet_hSet_eq x p _ hlt]
      constructor
      · intro lc hlc
        rcases aset_mem _ l t lc hlc with h1 | h1
        · exact (hr p).1 lc h1
        · rw [h1]; exact ht
      · exact (hr p).2
    · rw [hn]
      unfold setTrans
      rw [hSet_ge x p _ (by omega)]
      exact hr p
  · unfold setTrans
    rw [hGet_hSet_ne x p n _ hn]
    exact hr n

theorem setTrans_noself (x : Automaton) (p : Nat) (l : Char) (t : Nat)
    (hns : NoSelf x) (ht : t ≠ p) : NoSelf (setTrans x p l t) := by
  intro n lc hlc
  by_cases hn : n = p
  · by_cases hlt : p < x.states.length
    · rw [hn] at hlc
      unfold setTrans at hlc
      rw [hGet_hSet_eq x p _ hlt] at hlc
      rcases aset_mem _ l t lc hlc with h1 | h1
      · rw [hn]; exact hns p lc h1
      · rw [hn, h1]; exact ht
    · rw [hn] at hlc
      unfold setTrans at hlc
      rw [hSet_ge x p _ (by omega)] at hlc
      rw [hn]; exact hns p lc hlc
  · unfold setTrans at hlc
    rw [hGet_hSet_ne x p n _ hn] at hlc
    exact hns n lc hlc

theorem unionInto_noself (nid : Nat) :
    ∀ (items : List (Char × Nat)) (x x' : Automaton),
      unionInto x nid items = .ok x' → NoSelf x →
      (∀ lc ∈ items, lc.2 ≠ nid) → NoSelf x' := by
  intro items
  induction items with
  | nil =>
    intro x x' h hns _
    simp only [unionInto, Except.ok.injEq] at h
    subst h
    exact hns
  | cons e rest ih =>
    intro x x' h hns hv
    obtain ⟨l, c⟩ := e
    simp only [unionInto] at h
    split at h
    · cases h
    · refine ih _ x' h ?_ (fun lc hlc => hv lc (List.mem_cons_of_mem _ hlc))
      intro n lc hlc
      by_cases hn : n = nid
      · by_cases hlt : nid < x.states.length
        · rw [hn] at hlc
          rw [hGet_hSet_eq x nid _ hlt] at hlc
          rcases aset_mem _ l c lc hlc with h1 | h1
          · rw [hn]; exact hns nid lc h1
          · rw [hn, h1]
            exact hv (l, c) (List.mem_cons_self _ _)
        · rw [hn] at hlc
          rw [hSet_ge x nid _ (by omega)] at hlc
          rw [hn]; exact hns nid lc hlc
      · rw [hGet_hSet_ne x nid n _ hn] at hlc
        exact hns n lc hlc

theorem aset_keys_mem {κ β : Type} [DecidableEq κ]
    (xs : List (κ × β)) (k : κ) (v : β) (h : k ∈ xs.map Prod.fst) :
    (aset xs k v).map Prod.fst = xs.map Prod.fst := by
  rw [aset_keys, if_pos h]

theorem rewire_keys (nid : Nat) :
    ∀ (ps : List (Nat × List Char)) (x : Automaton),
      (∀ pr ∈ ps, ∀ l ∈ pr.2, l ∈ ((hGet x pr.1).transitions.map Prod.fst)) →
      ∀ q, ((hGet (rewireParents x nid ps) q).transitions.map Prod.fst)
        = ((hGet x q).transitions.map Prod.fst) := by
  intro ps
  induction ps with
  | nil => intro x _ q; rfl
  | cons e rest ih =>
    intro x hkeys q
    obtain ⟨p0, ls0⟩ := e
    show ((hGet (rewireParents
      (ls0.foldl (fun acc2 l' => setTrans acc2 p0 l' nid) x) nid rest) q).transitions.map
        Prod.fst) = _
    have hinner : ∀ q2,
        ((hGet (ls0.foldl (fun acc2 l' => setTrans acc2 p0 l' nid) x) q2).transitions.map
          Prod.fst) = ((hGet x q2).transitions.map Prod.fst) := by
      have h0 := hkeys (p0, ls0) (List.mem_cons_self _ _)
      clear hkeys ih
      induction ls0 generalizing x with
      | nil => intro q2; rfl
      | cons l1 ls ih1 =>
        intro q2
        simp only [List.foldl_cons]
        rw [ih1 (setTrans x p0 l1 nid) ?_ q2]
        · clear ih1
          by_cases hq : q2 = p0
          · by_cases hlt : p0 < x.states.length
            · rw [hq]
              unfold setTrans
              rw [hGet_hSet_eq x p0 _ hlt]
              exact aset_keys_mem _ l1 nid (h0 l1 (List.mem_cons_self _ _))
            · rw [hq]
              unfold setTrans
              rw [hSet_ge x p0 _ (by omega)]
          · rw [hGet_setTrans_ne x p0 l1 nid q2 hq]
        · intro l hl
          have hst : ((hGet (setTrans x p0 l1 nid) p0).transitions.map Prod.fst)
              = ((hGet x p0).transitions.map Prod.fst) := by
            by_cases hlt : p0 < x.states.length
            · unfold setTrans
              rw [hGet_hSet_eq x p0 _ hlt]
              exact aset_keys_mem _ l1 nid (h0 l1 (List.mem_cons_self _ _))
            · unfold setTrans
              rw [hSet_ge x p0 _ (by omega)]
          rw [hst]
          exact h0 l (List.mem_cons_of_mem _ hl)
    rw [ih _ ?_ q]
    · exact hinner q
    · intro pr hpr l hl
      rw [hinner pr.1]
      exact hkeys pr (List.mem_cons_of_mem _ hpr) l hl

theorem rewire_entries (nid : Nat) :
    ∀ (ps : List (Nat × List Char)) (x : Automaton) (q : Nat),
      ∀ lc ∈ (hGet (rewireParents x nid ps) q).transitions,
        lc ∈ (hGet x q).transitions ∨ lc.2 = nid := by
  intro ps
  induction ps with
  | nil => intro x q lc h; exact Or.inl h
  | cons e rest ih =>
    intro x q lc h
    obtain ⟨p0, ls0⟩ := e
    rw [show rewireParents x nid ((p0, ls0) :: rest)
      = rewireParents (ls0.foldl (fun acc2 l' => setTrans acc2 p0 l' nid) x) nid rest
      from rfl] at h
    rcases ih _ q lc h with h1 | h1
    · clear ih h
      induction ls0 generalizing x with
      | nil => exact Or.inl h1
      | cons l1 ls ih1 =>
        simp only [List.foldl_cons] at h1
        rcases ih1 (setTrans x p0 l1 nid) h1 with h2 | h2
        · by_cases hq : q = p0
          · by_cases hlt : p0 < x.states.length
            · rw [hq] at h2
              unfold setTrans at h2
              rw [hGet_hSet_eq x p0 _ hlt] at h2
              rcases aset_mem _ l1 nid lc h2 with h3 | h3
              · rw [hq]; exact Or.inl h3
              · rw [h3]; exact Or.inr rfl
            · rw [hq] at h2
              unfold setTrans at h2
              rw [hSet_ge x p0 _ (by omega)] at h2
              rw [hq]; exact Or.inl h2
          · rw [hGet_setTrans_ne x p0 l1 nid q hq] at h2
            exact Or.inl h2
        · exact Or.inr h2
    · exact Or.inr h1

theorem mergeGo_keys_entries (nid : Nat) :
    ∀ (ms : List Nat) (x g : Automaton),
      mergeGo x nid ms = .ok g →
      (∀ s ∈ ms, s ≠ nid) →
      (∀ s ∈ ms, ∀ pr ∈ (hGet x s).parents, pr.1 ≠ nid) →
      (∀ s ∈ ms, ∀ pr ∈ (hGet x s).parents, ∀ l ∈ pr.2,
        l ∈ ((hGet x pr.1).transitions.map Prod.fst)) →
      (∀ q, q ≠ nid → ((hGet g q).transitions.map Prod.fst)
          = ((hGet x q).transitions.map Prod.fst))
      ∧ (∀ q, q ≠ nid → ∀ lc ∈ (hGet g q).transitions,
          lc ∈ (hGet x q).transitions ∨ lc.2 = nid) := by
  intro ms
  induction ms with
  | nil =>
    intro x g h _ _ _
    simp only [mergeGo, Except.ok.injEq] at h
    subst h
    exact ⟨fun q _ => rfl, fun q _ lc hlc => Or.inl hlc⟩
  | cons s rest ih =>
    intro x g h hne hrne hkeys
    simp only [mergeGo, bind, Except.bind] at h
    cases hu : unionInto x nid (hGet x s).transitions with
    | error e => rw [hu] at h; cases h
    | ok x1 =>
      rw [hu] at h
      simp only at h
      obtain ⟨u1, u2, u3, u4, u5, u6⟩ := unionInto_pres nid _ x x1 hu
      set x2 := rewireParents x1 nid (hGet x1 s).parents with hx2
      set nd := hGet x2 nid with hnd
      set x3 := hSet x2 nid
        { nd with parents := pUpdate nd.parents (hGet x2 s).parents } with hx3
      have hsp1 : (hGet x1 s).parents = (hGet x s).parents := u6 s
      have hcond1 : ∀ pr ∈ (hGet x1 s).parents, ∀ l ∈ pr.2,
          l ∈ ((hGet x1 pr.1).transitions.map Prod.fst) := by
        intro pr hpr l hl
        rw [hsp1] at hpr
        have hprne := hrne s (List.mem_cons_self _ _) pr hpr
        rw [u4 pr.1 hprne]
        exact hkeys s (List.mem_cons_self _ _) pr hpr l hl
      have hk2 : ∀ q, ((hGet x2 q).transitions.map Prod.fst)
          = ((hGet x1 q).transitions.map Prod.fst) := by
        intro q
        rw [hx2]
        exact rewire_keys nid _ x1 hcond1 q
      have hk3 : ∀ q, q ≠ nid → ((hGet x3 q).transitions.map Prod.fst)
          = ((hGet x q).transitions.map Prod.fst) := by
        intro q hq
        rw [hx3, hGet_hSet_ne x2 nid q _ hq, hk2 q, u4 q hq]
      have hp3 : ∀ q, q ≠ nid → (hGet x3 q).parents = (hGet x q).parents := by
        intro q hq
        rw [hx3, hGet_hSet_ne x2 nid q _ hq, hx2, rewire_parents_pres, u6 q]
      obtain ⟨ihk, ihe⟩ := ih x3 g h
        (fun s1 hs1 => hne s1 (List.mem_cons_of_mem _ hs1))
        (fun s1 hs1 pr hpr => by
          rw [hp3 s1 (hne s1 (List.mem_cons_of_mem _ hs1))] at hpr
          exact hrne s1 (List.mem_cons_of_mem _ hs1) pr hpr)
        (fun s1 hs1 pr hpr l hl => by
          rw [hp3 s1 (hne s1 (List.mem_cons_of_mem _ hs1))] at hpr
          have hprne := hrne s1 (List.mem_cons_of_mem _ hs1) pr hpr
          rw [hk3 pr.1 hprne]
          exact hkeys s1 (List.mem_cons_of_mem _ hs1) pr hpr l hl)
      constructor
      · intro q hq
        rw [ihk q hq, hk3 q hq]
      · intro q hq lc hlc
        rcases ihe q hq lc hlc with h1 | h1
        · rw [hx3, hGet_hSet_ne x2 nid q _ hq] at h1
          rcases rewire_entries nid _ x1 q lc (by rw [← hx2]; exact h1) with h2 | h2
          · rw [u4 q hq] at h2
            exact Or.inl h2
          · exact Or.inr h2
        · exact Or.inr h1

theorem hGet_ge (a : Automaton) (n : Nat) (h : a.states.length ≤ n) :
    hGet a n = StateData.fresh := by
  unfold hGet
  rw [List.getD_eq_default]
  omega

theorem getLast?_mem {α : Type} :
    ∀ (l : List α) (v : α), l.getLast? = some v → v ∈ l := by
  intro l
  induction l with
  | nil => intro v h; cases h
  | cons x xs ih =>
    intro v h
    cases xs with
    | nil =>
      simp only [List.getLast?_singleton, Option.some.injEq] at h
      rw [h]
      exact List.mem_cons_self _ _
    | cons y ys =>
      rw [List.getLast?_cons_cons] at h
      exact List.mem_cons_of_mem _ (ih v h)

/-- The central description of a successful `merge_states` call on a
signature group: under the invariants of the compression loop (members in
the heap, identical transition dictionaries and acceptance, accurate
nonempty parent records naming in-heap parents, no self edges, distinct
dictionary keys) the call succeeds, the fused state gets the common
transition list and acceptance, every state keeps its acceptance and (for
all but the fused state) its parents, transitions change exactly at the
recorded (parent, letter) pairs — which now point at the fused state —
and the fused state's parents map aggregates the member records with a
last-member-wins rule. -/
theorem mergeStates_main (a : Automaton) (m0 : Nat) (rest : List Nat)
    (hin : ∀ s ∈ m0 :: rest, s < a.states.length)
    (heqt : ∀ s ∈ m0 :: rest, (hGet a s).transitions = (hGet a m0).transitions)
    (heqf : ∀ s ∈ m0 :: rest, (hGet a s).is_final = (hGet a m0).is_final)
    (hacc : ∀ s ∈ m0 :: rest, ∀ pr ∈ (hGet a s).parents, ∀ l ∈ pr.2,
        alookup (hGet a pr.1).transitions l = some s)
    (hprange : ∀ s ∈ m0 :: rest, ∀ pr ∈ (hGet a s).parents,
        pr.1 < a.states.length)
    (hnoselfm : ∀ s ∈ m0 :: rest, ∀ lc ∈ (hGet a s).transitions, lc.2 ≠ s)
    (hkeys0 : (((hGet a m0).transitions).map Prod.fst).Nodup)
    (hpne : ∀ s ∈ m0 :: rest, ∀ pr ∈ (hGet a s).parents, pr.2 ≠ [])
    (hpnd : ∀ s ∈ m0 :: rest, (((hGet a s).parents).map Prod.fst).Nodup) :
    ∃ g, mergeStates a (m0 :: rest) = .ok (g, a.states.length)
      ∧ (hGet g a.states.length).transitions = (hGet a m0).transitions
      ∧ (hGet g a.states.length).is_final = (hGet a m0).is_final
      ∧ (∀ p, alookup (hGet g a.states.length).parents p
          = ((m0 :: rest).filterMap
              (fun s => alookup (hGet a s).parents p)).getLast?)
      ∧ g.states.length = a.states.length + 1
      ∧ g.initial = a.initial ∧ g.compressed = a.compressed
      ∧ (∀ q, q ≠ a.states.length → (hGet g q).parents = (hGet a q).parents)
      ∧ (∀ q, q ≠ a.states.length →
          (hGet g q).is_final = (hGet a q).is_final)
      ∧ (∀ s ∈ m0 :: rest, ∀ pr ∈ (hGet a s).parents, ∀ l ∈ pr.2,
          alookup (hGet g pr.1).transitions l = some a.states.length)
      ∧ (∀ q l, q ≠ a.states.length → ¬ RecordedIn a (m0 :: rest) q l →
          alookup (hGet g q).transitions l = alookup (hGet a q).transitions l)
      ∧ (∀ q, q ≠ a.states.length → ((hGet g q).transitions.map Prod.fst)
          = ((hGet a q).transitions.map Prod.fst))
      ∧ (∀ q, q ≠ a.states.length → ∀ lc ∈ (hGet g q).transitions,
          lc ∈ (hGet a q).transitions ∨ lc.2 = a.states.length) := by
  set nid := a.states.length with hnid
  -- no member is recorded as a parent of a member
  have hnotmem : ∀ s ∈ m0 :: rest, ∀ pr ∈ (hGet a s).parents,
      pr.1 ∉ m0 :: rest := by
    intro s hs pr hpr hc
    obtain ⟨l, hl⟩ := List.exists_mem_of_ne_nil _ (hpne s hs pr hpr)
    have h1 := hacc s hs pr hpr l hl
    have h2 : (l, s) ∈ (hGet a pr.1).transitions :=
      mem_of_alookup_eq_some _ l s h1
    rw [heqt pr.1 hc] at h2
    have h3 : (l, s) ∈ (hGet a s).transitions := by
      rw [heqt s hs]
      exact h2
    exact hnoselfm s hs (l, s) h3 rfl
  set a1 : Automaton :=
    { a with states := a.states ++ [⟨(hGet a m0).is_final, [], []⟩] } with ha1
  have hlen1 : a1.states.length = a.states.length + 1 := by rw [ha1]; simp
  have hsame : ∀ q, q ≠ nid → hGet a1 q = hGet a q := by
    intro q hq
    by_cases hlt : q < a.states.length
    · exact hGet_append_lt a _ q hlt
    · rw [hGet_ge a q (by omega), hGet_ge a1 q (by omega)]
  have hnew : hGet a1 nid = ⟨(hGet a m0).is_final, [], []⟩ := by
    rw [ha1]
    exact hGet_append_self a _
  have hmemne : ∀ s ∈ m0 :: rest, s ≠ nid := by
    intro s hs
    have := hin s hs
    omega
  have hsamem : ∀ s ∈ m0 :: rest, hGet a1 s = hGet a s :=
    fun s hs => hsame s (hmemne s hs)
  obtain ⟨g, hok, htrg, hstab⟩ :=
    mergeGo_run nid (hGet a m0).transitions hkeys0 (m0 :: rest) a1
      (by omega)
      (Or.inr ⟨by rw [hnew], by simp⟩)
      hmemne
      (fun s hs => by rw [hsamem s hs]; exact heqt s hs)
      (fun s hs pr hpr => by
        rw [hsamem s hs] at hpr
        exact ⟨hnotmem s hs pr hpr, by
          have := hprange s hs pr hpr
          omega⟩)
  have hany : ((m0 :: rest).any
      (fun s => (hGet a s).is_final != (hGet a m0).is_final)) = false := by
    rw [List.any_eq_false]
    intro s hs
    simp [heqf s hs]
  have hokm : mergeStates a (m0 :: rest) = .ok (g, nid) := by
    simp only [mergeStates, hany, Bool.false_eq_true, if_false]
    rw [← ha1, ← hnid, hok]
  obtain ⟨p1, p2, p3, p4, p5⟩ := mergeGo_pres nid (m0 :: rest) a1 g hok
  have hrec1 : ∀ s ∈ m0 :: rest, ∀ pr ∈ (hGet a1 s).parents,
      pr.1 < a1.states.length ∧ pr.1 ≠ nid := by
    intro s hs pr hpr
    rw [hsamem s hs] at hpr
    have := hprange s hs pr hpr
    exact ⟨by omega, by omega⟩
  have hW1 := mergeGo_rewires nid (m0 :: rest) a1 g hok hmemne hrec1
  have hparfold := mergeGo_parents nid (m0 :: rest) a1 g hok (by omega) hmemne
  obtain ⟨hkeysg, hentriesg⟩ := mergeGo_keys_entries nid (m0 :: rest) a1 g hok
    hmemne
    (fun s hs pr hpr => by
      rw [hsamem s hs] at hpr
      have := hprange s hs pr hpr
      omega)
    (fun s hs pr hpr l hl => by
      rw [hsamem s hs] at hpr
      have h1 := hacc s hs pr hpr l hl
      have h2 : (l, s) ∈ (hGet a pr.1).transitions :=
        mem_of_alookup_eq_some _ l s h1
      rw [hsame pr.1 (by
        have := hprange s hs pr hpr
        omega)]
      exact List.mem_map.mpr ⟨(l, s), h2, rfl⟩)
  refine ⟨g, hokm, htrg, ?_, ?_, ?_, ?_, ?_, ?_, ?_, ?_, ?_, ?_, ?_⟩
  · rw [p4 nid, hnew]
  · intro p
    rw [hparfold]
    rw [foldl_pUpdate_congr (m0 :: rest) _ _ (fun s => (hGet a s).parents)
      (fun s hs => by rw [hsamem s hs])]
    have hinit : (hGet a1 nid).parents = [] := by rw [hnew]
    rw [hinit]
    rw [alookup_foldl_pUpdate (m0 :: rest) (fun s => (hGet a s).parents) [] p hpnd]
    cases ((m0 :: rest).filterMap
        (fun s => alookup (hGet a s).parents p)).getLast? with
    | some v => rfl
    | none => rfl
  · rw [p1, hlen1]
  · rw [p2, ha1]
  · rw [p3, ha1]
  · intro q hq
    rw [p5 q hq, hsame q hq]
  · intro q hq
    rw [p4 q, hsame q hq]
  · intro s hs pr hpr l hl
    refine hW1 s hs pr ?_ l hl
    rw [hsamem s hs]
    exact hpr
  · intro q l hq hnr
    rw [hstab q l hq (by
      intro ⟨s, hs, pr, hpr, hc⟩
      rw [hsamem s hs] at hpr
      exact hnr ⟨s, hs, pr, hpr, hc⟩)]
    rw [hsame q hq]
  · intro q hq
    rw [hkeysg q hq, hsame q hq]
  · intro q hq lc hlc
    rcases hentriesg q hq lc hlc with h1 | h1
    · rw [hsame q hq] at h1
      exact Or.inl h1
    · exact Or.inr h1

theorem mergeGo_untouched (nid : Nat) :
    ∀ (ms : List Nat) (x g : Automaton), mergeGo x nid ms = .ok g →
      (∀ s ∈ ms, s ≠ nid) →
      ∀ q, q ≠ nid →
      (∀ s ∈ ms, ∀ pr ∈ (hGet x s).parents, pr.1 ≠ q) →
      hGet g q = hGet x q := by
  intro ms
  induction ms with
  | nil =>
    intro x g h _ q _ _
    simp only [mergeGo, Except.ok.injEq] at h
    subst h
    rfl
  | cons s rest ih =>
    intro x g h hne q hq hrec
    simp only [mergeGo, bind, Except.bind] at h
    cases hu : unionInto x nid (hGet x s).transitions with
    | error e => rw [hu] at h; cases h
    | ok x1 =>
      rw [hu] at h
      simp only at h
      obtain ⟨u1, u2, u3, u4, u5, u6⟩ := unionInto_pres nid _ x x1 hu
      set x2 := rewireParents x1 nid (hGet x1 s).parents with hx2
      set nd := hGet x2 nid with hnd
      set x3 := hSet x2 nid
        { nd with parents := pUpdate nd.parents (hGet x2 s).parents } with hx3
      have hx3q : hGet x3 q = hGet x q := by
        rw [hx3, hGet_hSet_ne x2 nid q _ hq, hx2]
        rw [rewire_hGet_stable nid _ x1 q (by
          intro pr hpr
          rw [u6 s] at hpr
          exact hrec s (List.mem_cons_self _ _) pr hpr)]
        exact u4 q hq
      have hp3 : ∀ s1 ∈ rest, (hGet x3 s1).parents = (hGet x s1).parents := by
        intro s1 hs1
        have hs1ne : s1 ≠ nid := hne s1 (List.mem_cons_of_mem _ hs1)
        rw [hx3, hGet_hSet_ne x2 nid s1 _ hs1ne, hx2, rewire_parents_pres, u6 s1]
      rw [← hx3q]
      refine ih x3 g h (fun s1 hs1 => hne s1 (List.mem_cons_of_mem _ hs1)) q hq ?_
      intro s1 hs1 pr hpr
      rw [hp3 s1 hs1] at hpr
      exact hrec s1 (List.mem_cons_of_mem _ hs1) pr hpr

theorem mergeStates_untouched (a g : Automaton) (m0 : Nat) (rest : List Nat)
    (hok : mergeStates a (m0 :: rest) = .ok (g, a.states.length))
    (hin : ∀ s ∈ m0 :: rest, s < a.states.length) :
    ∀ q, q ≠ a.states.length → q < a.states.length →
    (∀ s ∈ m0 :: rest, ∀ pr ∈ (hGet a s).parents, pr.1 ≠ q) →
    hGet g q = hGet a q := by
  intro q hq hqlt hrec
  obtain ⟨hnid, _, hmg⟩ := mergeStates_elim a m0 rest g a.states.length hok
  set a1 : Automaton :=
    { a with states := a.states ++ [⟨(hGet a m0).is_final, [], []⟩] } with ha1
  have hsame : ∀ s ∈ m0 :: rest, hGet a1 s = hGet a s := by
    intro s hs
    exact hGet_append_lt a _ s (hin s hs)
  have h1 := mergeGo_untouched a.states.length (m0 :: rest) a1 g hmg
    (fun s hs => by have := hin s hs; omega) q hq
    (fun s hs pr hpr => by
      rw [hsame s hs] at hpr
      exact hrec s hs pr hpr)
  rw [h1]
  exact hGet_append_lt a _ q hqlt

theorem mergeStates_keysnodup (a g : Automaton) (m0 : Nat) (rest : List Nat)
    (hok : mergeStates a (m0 :: rest) = .ok (g, a.states.length))
    (hk : KeysNodup a) : KeysNodup g := by
  obtain ⟨hnid, _, hmg⟩ := mergeStates_elim a m0 rest g a.states.length hok
  refine mergeGo_keysnodup a.states.length (m0 :: rest) _ g hmg ?_
  intro n
  by_cases hn : n = a.states.length
  · rw [hn, hGet_append_self]
    exact ⟨List.nodup_nil, List.nodup_nil⟩
  · by_cases hlt : n < a.states.length
    · rw [hGet_append_lt a _ n hlt]
      exact hk n
    · rw [hGet_ge { a with states := a.states ++ [⟨(hGet a m0).is_final, [], []⟩] } n
        (by simp; omega)]
      exact ⟨List.nodup_nil, List.nodup_nil⟩

theorem accept_of_char (a g : Automaton) (nid m0 : Nat) (ms : List Nat)
    (hm0 : m0 ∈ ms)
    (hfresh : ∀ n, ∀ lc ∈ (hGet a n).transitions, lc.2 ≠ nid)
    (heqt : ∀ s ∈ ms, (hGet a s).transitions = (hGet a m0).transitions)
    (heqf : ∀ s ∈ ms, (hGet a s).is_final = (hGet a m0).is_final)
    (hacc : ∀ s ∈ ms, ∀ pr ∈ (hGet a s).parents, ∀ l ∈ pr.2,
        alookup (hGet a pr.1).transitions l = some s)
    (c_trans : (hGet g nid).transitions = (hGet a m0).transitions)
    (c_final : (hGet g nid).is_final = (hGet a m0).is_final)
    (c_oldfinal : ∀ q, q ≠ nid → (hGet g q).is_final = (hGet a q).is_final)
    (c_W1 : ∀ s ∈ ms, ∀ pr ∈ (hGet a s).parents, ∀ l ∈ pr.2,
        alookup (hGet g pr.1).transitions l = some nid)
    (c_W2 : ∀ q l, q ≠ nid → ¬ RecordedIn a ms q l →
        alookup (hGet g q).transitions l = alookup (hGet a q).transitions l) :
    ∀ w : List Char, (∀ n, n ≠ nid → acceptFrom g n w = acceptFrom a n w)
      ∧ acceptFrom g nid w = acceptFrom a m0 w := by
  intro w
  induction w with
  | nil =>
    constructor
    · intro n hn
      rw [acceptFrom_nil, acceptFrom_nil, c_oldfinal n hn]
    · rw [acceptFrom_nil, acceptFrom_nil, c_final]
  | cons l w ih =>
    constructor
    · intro n hn
      rw [acceptFrom_cons, acceptFrom_cons]
      by_cases hr : RecordedIn a ms n l
      · obtain ⟨s, hs, pr, hpr, hpr1, hl⟩ := hr
        have h1 : alookup (hGet g n).transitions l = some nid := by
          rw [← hpr1]
          exact c_W1 s hs pr hpr l hl
        have h2 : alookup (hGet a n).transitions l = some s := by
          rw [← hpr1]
          exact hacc s hs pr hpr l hl
        rw [h1, h2]
        simp only
        rw [ih.2]
        exact (acceptFrom_congr_data a s m0 (heqt s hs) (heqf s hs) w).symm
      · rw [c_W2 n l hn hr]
        cases h : alookup (hGet a n).transitions l with
        | none => rfl
        | some t =>
          simp only
          have ht : t ≠ nid :=
            hfresh n (l, t) (mem_of_alookup_eq_some _ l t h)
          exact ih.1 t ht
    · rw [acceptFrom_cons, acceptFrom_cons, c_trans]
      cases h : alookup (hGet a m0).transitions l with
      | none => rfl
      | some t =>
        simp only
        have ht : t ≠ nid := by
          have hm : (l, t) ∈ (hGet a m0).transitions :=
            mem_of_alookup_eq_some _ l t h
          exact hfresh m0 (l, t) hm
        exact ih.1 t ht

theorem parents_char_mem (a g : Automaton) (nid : Nat) (ms : List Nat)
    (hknd : (((hGet g nid).parents).map Prod.fst).Nodup)
    (hchar : ∀ p, alookup (hGet g nid).parents p
        = (ms.filterMap (fun s => alookup (hGet a s).parents p)).getLast?) :
    ∀ pr ∈ (hGet g nid).parents, ∃ m ∈ ms, pr ∈ (hGet a m).parents := by
  intro pr hpr
  obtain ⟨k, v⟩ := pr
  have h1 : alookup (hGet g nid).parents k = some v :=
    alookup_of_mem_nodup _ k v hknd hpr
  rw [hchar] at h1
  have h2 := getLast?_mem _ _ h1
  rw [List.mem_filterMap] at h2
  obtain ⟨m, hm, hma⟩ := h2
  exact ⟨m, hm, mem_of_alookup_eq_some _ k v hma⟩

theorem members_nil : members [] = [] := rfl

theorem members_cons (e : Sig × List Nat) (rest : List (Sig × List Nat)) :
    members (e :: rest) = e.2 ++ members rest := by
  simp [members]

theorem addToGroups_members_perm (gs : List (Sig × List Nat)) (sg : Sig)
    (p : Nat) :
    (members (addToGroups gs sg p)).Perm (members gs ++ [p]) := by
  induction gs with
  | nil => simp [addToGroups, members]
  | cons g0 rest ih =>
    obtain ⟨s0, ps⟩ := g0
    simp only [addToGroups]
    by_cases hsg : sg = s0
    · rw [if_pos hsg]
      rw [members_cons, members_cons]
      simp only [List.append_assoc]
      exact List.Perm.append_left ps
        (by simpa using @List.perm_append_comm _ [p] (members rest))
    · rw [if_neg hsg]
      rw [members_cons, members_cons]
      simp only [List.append_assoc]
      exact List.Perm.append_left ps ih

theorem buildSigs_members_perm (a : Automaton) (marked : List Nat) :
    ∀ (items : List (Nat × List Char)) (gs : List (Sig × List Nat)),
      (members (buildSigs a marked items gs)).Perm
        (members gs
          ++ (items.filter (fun pr => eligible a marked pr.1)).map Prod.fst) := by
  intro items
  induction items with
  | nil => intro gs; simp [buildSigs]
  | cons pr rest ih =>
    intro gs
    obtain ⟨p, ls⟩ := pr
    simp only [buildSigs]
    by_cases he : eligible a marked p = true
    · rw [if_pos he]
      have h1 := ih (addToGroups gs (sigOf a p) p)
      have h2 : (members (addToGroups gs (sigOf a p) p)
          ++ (rest.filter (fun pr => eligible a marked pr.1)).map Prod.fst).Perm
          ((members gs ++ [p])
            ++ (rest.filter (fun pr => eligible a marked pr.1)).map Prod.fst) :=
        List.Perm.append_right _ (addToGroups_members_perm gs (sigOf a p) p)
      have h3 := h1.trans h2
      have h4 : (List.filter (fun pr => eligible a marked pr.1)
          ((p, ls) :: rest)).map Prod.fst
          = p :: (rest.filter (fun pr => eligible a marked pr.1)).map Prod.fst := by
        rw [List.filter_cons]
        simp [he]
      rw [h4]
      refine h3.trans ?_
      simp [List.append_assoc]
    · rw [if_neg he]
      have h4 : (List.filter (fun pr => eligible a marked pr.1)
          ((p, ls) :: rest)).map Prod.fst
          = (rest.filter (fun pr => eligible a marked pr.1)).map Prod.fst := by
        rw [List.filter_cons]
        simp only [eligible] at he ⊢
        simp [he]
      rw [h4]
      exact ih gs

theorem buildSigs_members_nodup (a : Automaton) (marked : List Nat)
    (items : List (Nat × List Char)) (hnd : (items.map Prod.fst).Nodup) :
    (members (buildSigs a marked items [])).Nodup := by
  have h1 := buildSigs_members_perm a marked items []
  rw [members_nil, List.nil_append] at h1
  refine h1.nodup_iff.mpr ?_
  refine List.Nodup.sublist ?_ hnd
  exact ((List.filter_sublist items).map _)

theorem accurate_congr (a : Automaton) (d1 d2 : List Nat)
    (h : ∀ x, x ∈ d2 ↔ x ∈ d1) (ha : Accurate a d1) : Accurate a d2 := by
  intro s hs
  exact ha s (fun hc => hs ((h s).mpr hc))

theorem accurate_mono (a : Automaton) (d1 d2 : List Nat)
    (h : ∀ x ∈ d1, x ∈ d2) (ha : Accurate a d1) : Accurate a d2 := by
  intro s hs
  exact ha s (fun hc => hs (h s hc))

theorem fused_nil : fused [] = [] := rfl

theorem fused_cons (e : Sig × List Nat) (rest : List (Sig × List Nat)) :
    fused (e :: rest) = (if 1 < e.2.length then e.2 else []) ++ fused rest := by
  simp [fused]

theorem fused_sub (gs : List (Sig × List Nat)) :
    ∀ p ∈ fused gs, p ∈ members gs := by
  intro p hp
  simp only [fused, List.mem_flatMap] at hp
  obtain ⟨e, he, hpe⟩ := hp
  by_cases h : 1 < e.2.length
  · rw [if_pos h] at hpe
    simp only [members, List.mem_flatMap]
    exact ⟨e, he, hpe⟩
  · rw [if_neg h] at hpe
    cases hpe

theorem foldr_min_spec :
    ∀ (l : List Nat) (x : Nat),
      l.foldr min x ≤ x ∧ (∀ y ∈ l, l.foldr min x ≤ y)
        ∧ (l.foldr min x = x ∨ l.foldr min x ∈ l) := by
  intro l
  induction l with
  | nil => intro x; exact ⟨le_refl _, by simp, Or.inl rfl⟩
  | cons z zs ih =>
    intro x
    obtain ⟨h1, h2, h3⟩ := ih x
    simp only [List.foldr_cons]
    refine ⟨?_, ?_, ?_⟩
    · exact le_trans (min_le_right _ _) h1
    · intro y hy
      rcases List.mem_cons.1 hy with hy1 | hy1
      · rw [hy1]
        exact min_le_left _ _
      · exact le_trans (min_le_right _ _) (h2 y hy1)
    · rcases min_choice z (zs.foldr min x) with h4 | h4
      · rw [h4]
        exact Or.inr (List.mem_cons_self _ _)
      · rw [h4]
        rcases h3 with h5 | h5
        · exact Or.inl h5
        · exact Or.inr (List.mem_cons_of_mem _ h5)

theorem processGroups_main (M : List Nat) :
    ∀ (gs : List (Sig × List Nat)) (a : Automaton) (dead : List Nat),
      RangeB a.states.length a →
      NoSelf a →
      KeysNodup a →
      ParentsNE a →
      Accurate a dead →
      (∀ e ∈ gs, e.2 ≠ []) →
      (∀ p ∈ members gs, p < a.states.length) →
      (∀ e ∈ gs, ∀ p ∈ e.2, sigOf a p = e.1) →
      (∀ p ∈ members gs, ∀ lc ∈ (hGet a p).transitions, lc.2 ∈ M) →
      (members gs).Nodup →
      (∀ p ∈ members gs, p ∉ M) →
      (∀ p ∈ members gs, p ∉ dead) →
      ∃ g2 reps, processGroups a gs = .ok (g2, reps)
        ∧ a.states.length ≤ g2.states.length
        ∧ g2.initial = a.initial
        ∧ g2.compressed = a.compressed
        ∧ (∀ (w : List Char) (n : Nat), n < a.states.length →
            acceptFrom g2 n w = acceptFrom a n w)
        ∧ RangeB g2.states.length g2
        ∧ NoSelf g2
        ∧ KeysNodup g2
        ∧ ParentsNE g2
        ∧ Accurate g2 (fused gs ++ dead)
        ∧ (∀ x, x < a.states.length →
            (∀ lc ∈ (hGet a x).transitions, lc.2 ∈ M) → hGet g2 x = hGet a x)
        ∧ (∀ r ∈ reps, (r ∈ members gs ∧ r ∉ fused gs)
            ∨ (a.states.length ≤ r ∧ r < g2.states.length))
        ∧ (∀ r ∈ reps, ∀ lc ∈ (hGet g2 r).transitions, lc.2 ∈ M)
        ∧ reps.Nodup
        ∧ (∀ q, ∀ lc ∈ (hGet g2 q).transitions,
            lc ∈ (hGet a q).transitions ∨ a.states.length ≤ lc.2 ∨ lc.2 ∈ M)
        ∧ (∀ q, ∀ pr ∈ (hGet g2 q).parents, ∃ q0, pr ∈ (hGet a q0).parents)
        ∧ (∀ q, q < a.states.length →
            (hGet g2 q).parents = (hGet a q).parents)
        ∧ (∀ q, q < a.states.length → ((hGet g2 q).transitions.map Prod.fst)
            = ((hGet a q).transitions.map Prod.fst))
        ∧ (∀ q l t, alookup (hGet a q).transitions l = some t →
            ∃ t2, alookup (hGet g2 q).transitions l = some t2
              ∧ (t2 = t ∨ a.states.length ≤ t2))
        ∧ (∀ p ∈ fused gs, ∀ pr ∈ (hGet a p).parents, ∀ l ∈ pr.2,
            ∃ t2, alookup (hGet g2 pr.1).transitions l = some t2
              ∧ a.states.length ≤ t2)
        ∧ 2 * (g2.states.length - a.states.length) ≤ (fused gs).length
        ∧ (fused gs ≠ [] → a.states.length < g2.states.length)
        ∧ (∀ (r : Nat → Nat) (RB : Nat),
            (∀ n, ∀ lc ∈ (hGet a n).transitions, r lc.2 < r n) →
            (∀ n, r n ≤ RB) →
            ∃ r2 : Nat → Nat,
              (∀ n, ∀ lc ∈ (hGet g2 n).transitions, r2 lc.2 < r2 n)
              ∧ (∀ n, r2 n ≤ RB)) := by
  intro gs
  induction gs with
  | nil =>
    intro a dead hrange0 hns0 hkn0 hpne0 hacc0 _ _ _ _ _ _ _
    refine ⟨a, [], rfl, le_refl _, rfl, rfl, fun w n _ => rfl, hrange0, hns0,
      hkn0, hpne0, by simpa [fused] using hacc0,
      fun x _ _ => rfl, by simp, by simp, List.nodup_nil,
      fun q lc hlc => Or.inl hlc, fun q pr hpr => ⟨q, hpr⟩,
      fun q _ => rfl, fun q _ => rfl,
      fun q l t h => ⟨t, h, Or.inl rfl⟩,
      fun p hp => absurd hp (by simp [fused]),
      by simp, fun h => absurd rfl h,
      fun r RB h1 h2 => ⟨r, h1, h2⟩⟩
  | cons e rest ih =>
    intro a dead hrange0 hns0 hkn0 hpne0 hacc0 hne hlt hsig helig hnd hmemM hmemD
    obtain ⟨sg, ps⟩ := e
    cases ps with
    | nil => exact absurd rfl (hne (sg, []) (List.mem_cons_self _ _))
    | cons m0 restm =>
    have haux : ∀ p ∈ m0 :: restm, p ∈ members ((sg, m0 :: restm) :: rest) := by
      intro p hp
      rw [members_cons]
      exact List.mem_append_left _ hp
    have hauxr : ∀ p ∈ members rest, p ∈ members ((sg, m0 :: restm) :: rest) := by
      intro p hp
      rw [members_cons]
      exact List.mem_append_right _ hp
    have hnd' : ((m0 :: restm) ++ members rest).Nodup := by
      rw [members_cons] at hnd
      exact hnd
    have hdis : (m0 :: restm).Disjoint (members rest) :=
      List.disjoint_of_nodup_append hnd'
    have hndR : (members rest).Nodup := hnd'.of_append_right
    have hneR : ∀ e1 ∈ rest, e1.2 ≠ [] :=
      fun e1 he1 => hne e1 (List.mem_cons_of_mem _ he1)
    have hsigR : ∀ e1 ∈ rest, ∀ p ∈ e1.2, sigOf a p = e1.1 :=
      fun e1 he1 => hsig e1 (List.mem_cons_of_mem _ he1)
    have hsig0 : ∀ s ∈ m0 :: restm,
        (hGet a s).is_final = (hGet a m0).is_final
        ∧ (hGet a s).transitions = (hGet a m0).transitions := by
      intro s hs
      have h1 := hsig (sg, m0 :: restm) (List.mem_cons_self _ _) s hs
      have h2 := hsig (sg, m0 :: restm) (List.mem_cons_self _ _) m0
        (List.mem_cons_self _ _)
      have h3 : sigOf a s = sigOf a m0 := h1.trans h2.symm
      simpa [sigOf, Prod.ext_iff] using h3
    have heqt : ∀ s ∈ m0 :: restm,
        (hGet a s).transitions = (hGet a m0).transitions :=
      fun s hs => (hsig0 s hs).2
    have heqf : ∀ s ∈ m0 :: restm,
        (hGet a s).is_final = (hGet a m0).is_final :=
      fun s hs => (hsig0 s hs).1
    have haccm : ∀ s ∈ m0 :: restm, ∀ pr ∈ (hGet a s).parents, ∀ l ∈ pr.2,
        alookup (hGet a pr.1).transitions l = some s :=
      fun s hs => hacc0 s (hmemD s (haux s hs))
    have hin : ∀ s ∈ m0 :: restm, s < a.states.length :=
      fun s hs => hlt s (haux s hs)
    have hfresh : ∀ n, ∀ lc ∈ (hGet a n).transitions,
        lc.2 ≠ a.states.length := by
      intro n lc hlc
      have := (hrange0 n).1 lc hlc
      omega
    by_cases hlen : (m0 :: restm).length > 1
    · obtain ⟨g, hok, c1, c2, c3, c4, c5, c6, c7, c8, c9, c10, c11, c12⟩ :=
        mergeStates_main a m0 restm hin heqt heqf haccm
          (fun s hs pr hpr => (hrange0 s).2 pr hpr)
          (fun s hs lc hlc => hns0 s lc hlc)
          (hkn0 m0).1
          (fun s hs pr hpr => hpne0 s pr hpr)
          (fun s hs => (hkn0 s).2)
      have F1 : ∀ x, (∀ lc ∈ (hGet a x).transitions, lc.2 ∈ M) →
          ∀ s ∈ m0 :: restm, ∀ pr ∈ (hGet a s).parents, pr.1 ≠ x := by
        intro x hx s hs pr hpr hc
        obtain ⟨l, hl⟩ := List.exists_mem_of_ne_nil _ (hpne0 s pr hpr)
        have h1 := haccm s hs pr hpr l hl
        rw [hc] at h1
        have h2 : (l, s) ∈ (hGet a x).transitions :=
          mem_of_alookup_eq_some _ l s h1
        exact hmemM s (haux s hs) (hx (l, s) h2)
      have F2 : ∀ x, x < a.states.length →
          (∀ lc ∈ (hGet a x).transitions, lc.2 ∈ M) → hGet g x = hGet a x := by
        intro x hxl hx
        exact mergeStates_untouched a g m0 restm hok hin x (by omega) hxl
          (F1 x hx)
      have F3 : ∀ p ∈ members rest, hGet g p = hGet a p := by
        intro p hp
        exact F2 p (hlt p (hauxr p hp))
          (fun lc hlc => helig p (hauxr p hp) lc hlc)
      have F4 : KeysNodup g := mergeStates_keysnodup a g m0 restm hok hkn0
      have F5 : ∀ pr ∈ (hGet g a.states.length).parents,
          ∃ m ∈ m0 :: restm, pr ∈ (hGet a m).parents :=
        parents_char_mem a g a.states.length (m0 :: restm)
          (F4 a.states.length).2 c3
      have F6 : RangeB g.states.length g := by
        intro n
        constructor
        · intro lc hlc
          by_cases hn : n = a.states.length
          · rw [hn, c1] at hlc
            have := (hrange0 m0).1 lc hlc
            omega
          · rcases c12 n hn lc hlc with hold | hnid
            · have := (hrange0 n).1 lc hold
              omega
            · omega
        · intro pr hpr
          by_cases hn : n = a.states.length
          · rw [hn] at hpr
            obtain ⟨m, hm, hmem⟩ := F5 pr hpr
            have := (hrange0 m).2 pr hmem
            omega
          · rw [c7 n hn] at hpr
            have := (hrange0 n).2 pr hpr
            omega
      have F7 : NoSelf g := by
        intro n lc hlc
        by_cases hn : n = a.states.length
        · rw [hn] at hlc ⊢
          rw [c1] at hlc
          have := (hrange0 m0).1 lc hlc
          omega
        · rcases c12 n hn lc hlc with hold | hnid
          · exact hns0 n lc hold
          · rw [hnid]
            exact fun hc => hn hc.symm
      have F8 : ParentsNE g := by
        intro n pr hpr
        by_cases hn : n = a.states.length
        · rw [hn] at hpr
          obtain ⟨m, hm, hmem⟩ := F5 pr hpr
          exact hpne0 m pr hmem
        · rw [c7 n hn] at hpr
          exact hpne0 n pr hpr
      have F9 : Accurate g ((m0 :: restm) ++ dead) := by
        intro s hs pr hpr l hl
        have hsne : s ∉ dead := fun hc => hs (List.mem_append_right _ hc)
        have hsnm : s ∉ m0 :: restm := fun hc => hs (List.mem_append_left _ hc)
        by_cases hsn : s = a.states.length
        · rw [hsn] at hpr
          obtain ⟨m, hm, hmem⟩ := F5 pr hpr
          rw [hsn]
          exact c9 m hm pr hmem l hl
        · rw [c7 s hsn] at hpr
          have hold := hacc0 s hsne pr hpr l hl
          have hq1 : pr.1 ≠ a.states.length := by
            have := (hrange0 s).2 pr hpr
            omega
          have hnr : ¬ RecordedIn a (m0 :: restm) pr.1 l := by
            rintro ⟨m, hm, pr', hpr', hpr1, hl'⟩
            have h1 := haccm m hm pr' hpr' l hl'
            rw [hpr1, hold] at h1
            have hsm : s = m := by injection h1
            rw [hsm] at hsnm
            exact hsnm hm
          rw [c10 pr.1 l hq1 hnr]
          exact hold
      have F10 : ∀ e1 ∈ rest, ∀ p ∈ e1.2, sigOf g p = e1.1 := by
        intro e1 he1 p hp
        have hpm : p ∈ members rest := by
          simp only [members, List.mem_flatMap]
          exact ⟨e1, he1, hp⟩
        have h1 := F3 p hpm
        have h2 := hsigR e1 he1 p hp
        simp only [sigOf] at h2 ⊢
        rw [h1]
        exact h2
      have F11 : ∀ p ∈ members rest, ∀ lc ∈ (hGet g p).transitions,
          lc.2 ∈ M := by
        intro p hp lc hlc
        rw [F3 p hp] at hlc
        exact helig p (hauxr p hp) lc hlc
      have hltR : ∀ p ∈ members rest, p < g.states.length := by
        intro p hp
        have := hlt p (hauxr p hp)
        omega
      have hmemMR : ∀ p ∈ members rest, p ∉ M :=
        fun p hp => hmemM p (hauxr p hp)
      have hmemDR : ∀ p ∈ members rest, p ∉ (m0 :: restm) ++ dead := by
        intro p hp hc
        rcases List.mem_append.1 hc with h1 | h1
        · exact hdis h1 hp
        · exact hmemD p (hauxr p hp) h1
      obtain ⟨a2, reps', hok2, dlen, dinit, dcomp, dacc, drange, dns, dkn,
        dpne, daccu, dunt, drep1, drep2, dnodup, e_ent, e_rec, e_par, e_keys,
        e_val, e_w1, e_cnt, e_pos, e_rank⟩ :=
        ih g ((m0 :: restm) ++ dead) F6 F7 F4 F8 F9 hneR hltR F10 F11 hndR
          hmemMR hmemDR
      have heligm0 : ∀ lc ∈ (hGet a m0).transitions, lc.2 ∈ M :=
        fun lc hlc => helig m0 (haux m0 (List.mem_cons_self _ _)) lc hlc
      have hunid : hGet a2 a.states.length = hGet g a.states.length := by
        refine dunt a.states.length (by omega) ?_
        intro lc hlc
        rw [c1] at hlc
        exact heligm0 lc hlc
      have m_val : ∀ q l t, alookup (hGet a q).transitions l = some t →
          ∃ t1, alookup (hGet g q).transitions l = some t1
            ∧ (t1 = t ∨ a.states.length ≤ t1) := by
        intro q l t hq
        by_cases hqn : q = a.states.length
        · exfalso
          rw [hqn, hGet_ge a _ (le_refl _)] at hq
          cases hq
        · by_cases hr : RecordedIn a (m0 :: restm) q l
          · obtain ⟨s, hs, pr, hpr, hpr1, hl⟩ := hr
            refine ⟨a.states.length, ?_, Or.inr (le_refl _)⟩
            rw [← hpr1]
            exact c9 s hs pr hpr l hl
          · exact ⟨t, by rw [c10 q l hqn hr]; exact hq, Or.inl rfl⟩
      have hlen2 : 2 ≤ (m0 :: restm).length := by
        simpa using hlen
      refine ⟨a2, a.states.length :: reps', ?_, by omega, dinit.trans c5,
        dcomp.trans c6, ?_, drange, dns, dkn, dpne, ?_, ?_, ?_, ?_, ?_,
        ?_, ?_, ?_, ?_, ?_, ?_, ?_, ?_, ?_⟩
      · simp only [processGroups]
        rw [if_pos hlen]
        simp only [hok, hok2]
      · intro w n hn
        have h1 := (accept_of_char a g a.states.length m0 (m0 :: restm)
          (List.mem_cons_self _ _) hfresh heqt heqf haccm c1 c2 c8 c9 c10 w).1
          n (by omega)
        have h2 := dacc w n (by omega)
        rw [h2, h1]
      · refine accurate_congr a2 _ _ ?_ daccu
        intro x
        rw [fused_cons, if_pos hlen]
        simp only [List.mem_append]
        tauto
      · intro x hx hcl
        have h1 := F2 x hx hcl
        have h2 := dunt x (by omega)
          (fun lc hlc => hcl lc (by rwa [h1] at hlc))
        rw [h2, h1]
      · intro r hr
        rcases List.mem_cons.1 hr with hr1 | hr1
        · right
          constructor
          · omega
          · omega
        · rcases drep1 r hr1 with ⟨hm, hmf⟩ | ⟨h1, h2⟩
          · left
            refine ⟨hauxr r hm, ?_⟩
            rw [fused_cons, if_pos hlen]
            intro hc
            rcases List.mem_append.1 hc with hc1 | hc1
            · exact hdis hc1 hm
            · exact hmf hc1
          · right
            constructor
            · omega
            · exact h2
      · intro r hr lc hlc
        rcases List.mem_cons.1 hr with hr1 | hr1
        · rw [hr1, hunid, c1] at hlc
          exact heligm0 lc hlc
        · exact drep2 r hr1 lc hlc
      · refine List.nodup_cons.2 ⟨?_, dnodup⟩
        intro hc
        rcases drep1 _ hc with ⟨hm, _⟩ | ⟨h1, _⟩
        · have := hlt _ (hauxr _ hm)
          omega
        · omega
      · intro q lc hlc
        rcases e_ent q lc hlc with h1 | h1 | h1
        · by_cases hqn : q = a.states.length
          · rw [hqn, c1] at h1
            exact Or.inr (Or.inr
              (helig m0 (haux m0 (List.mem_cons_self _ _)) lc h1))
          · rcases c12 q hqn lc h1 with h2 | h2
            · exact Or.inl h2
            · exact Or.inr (Or.inl (by omega))
        · exact Or.inr (Or.inl (by omega))
        · exact Or.inr (Or.inr h1)
      · intro q pr hpr
        obtain ⟨q0, hq0⟩ := e_rec q pr hpr
        by_cases hqn : q0 = a.states.length
        · rw [hqn] at hq0
          obtain ⟨m, hm, hmem⟩ := F5 pr hq0
          exact ⟨m, hmem⟩
        · rw [c7 q0 hqn] at hq0
          exact ⟨q0, hq0⟩
      · intro q hq
        rw [e_par q (by omega), c7 q (by omega)]
      · intro q hq
        rw [e_keys q (by omega), c11 q (by omega)]
      · intro q l t hq
        obtain ⟨t1, ht1, ht1c⟩ := m_val q l t hq
        obtain ⟨t2, ht2, ht2c⟩ := e_val q l t1 ht1
        refine ⟨t2, ht2, ?_⟩
        rcases ht2c with h1 | h1
        · rcases ht1c with h2 | h2
          · exact Or.inl (h1.trans h2)
          · rw [h1]
            exact Or.inr h2
        · exact Or.inr (by omega)
      · intro p hp pr hpr l hl
        rw [fused_cons, if_pos hlen] at hp
        rcases List.mem_append.1 hp with hp1 | hp1
        · have h1 := c9 p hp1 pr hpr l hl
          obtain ⟨t2, ht2, ht2c⟩ := e_val pr.1 l a.states.length h1
          refine ⟨t2, ht2, ?_⟩
          rcases ht2c with h2 | h2
          · omega
          · omega
        · have hpm : p ∈ members rest := fused_sub rest p hp1
          have h1 : pr ∈ (hGet g p).parents := by
            rw [F3 p hpm]
            exact hpr
          obtain ⟨t2, ht2, ht2c⟩ := e_w1 p hp1 pr h1 l hl
          exact ⟨t2, ht2, by omega⟩
      · rw [fused_cons, if_pos hlen]
        rw [List.length_append]
        have hx1 : g.states.length = a.states.length + 1 := c4
        have hx2 : g.states.length ≤ a2.states.length := dlen
        have hx3 : 2 * (a2.states.length - g.states.length)
            ≤ (fused rest).length := e_cnt
        have hx4 : ((sg, m0 :: restm).2).length = (m0 :: restm).length := rfl
        omega
      · intro _
        omega
      · intro r RB hrd hrb
        set rmin := (restm.map r).foldr min (r m0) with hrmin
        obtain ⟨hm1, hm2, hm3⟩ := foldr_min_spec (restm.map r) (r m0)
        have hminle : ∀ s ∈ m0 :: restm, rmin ≤ r s := by
          intro s hs
          rcases List.mem_cons.1 hs with hs1 | hs1
          · rw [hs1]
            exact hm1
          · exact hm2 (r s) (List.mem_map.2 ⟨s, hs1, rfl⟩)
        have hminmem : ∃ s ∈ m0 :: restm, rmin = r s := by
          rcases hm3 with h4 | h4
          · exact ⟨m0, List.mem_cons_self _ _, h4⟩
          · obtain ⟨s, hs, hse⟩ := List.mem_map.1 h4
            exact ⟨s, List.mem_cons_of_mem _ hs, hse.symm⟩
        set r1 : Nat → Nat :=
          fun n => if n = a.states.length then rmin else r n with hr1
        have hr1decr : ∀ n, ∀ lc ∈ (hGet g n).transitions,
            r1 lc.2 < r1 n := by
          intro n lc hlc
          by_cases hn : n = a.states.length
          · rw [hn, c1] at hlc
            obtain ⟨s0, hs0, hs0e⟩ := hminmem
            have hlc2 : lc ∈ (hGet a s0).transitions := by
              rw [heqt s0 hs0]
              exact hlc
            have h1 := hrd s0 lc hlc2
            have h2 : lc.2 < a.states.length := (hrange0 m0).1 lc hlc
            have h3 : r1 lc.2 = r lc.2 := by
              rw [hr1]
              simp only
              rw [if_neg (by omega)]
            have h4 : r1 n = rmin := by
              rw [hr1, hn]
              simp
            rw [h3, h4, hs0e]
            have := hminle s0 hs0
            omega
          · have hfn : r1 n = r n := by
              rw [hr1]
              simp only
              rw [if_neg hn]
            rcases c12 n hn lc hlc with hold | hnid2
            · have h2 : lc.2 < a.states.length := (hrange0 n).1 lc hold
              have h3 : r1 lc.2 = r lc.2 := by
                rw [hr1]
                simp only
                rw [if_neg (by omega)]
              rw [hfn, h3]
              exact hrd n lc hold
            · have hlk : alookup (hGet g n).transitions lc.1 = some lc.2 := by
                refine alookup_of_mem_nodup _ lc.1 lc.2 (F4 n).1 ?_
                rw [Prod.mk.eta]
                exact hlc
              rw [hnid2] at hlk
              have h3 : r1 lc.2 = rmin := by
                rw [hr1, hnid2]
                simp
              by_cases hrec : RecordedIn a (m0 :: restm) n lc.1
              · obtain ⟨s, hs, pr, hpr, hpr1, hl⟩ := hrec
                have h2 := haccm s hs pr hpr lc.1 hl
                rw [hpr1] at h2
                have h4 := hrd n (lc.1, s) (mem_of_alookup_eq_some _ _ _ h2)
                simp only at h4
                have h5 := hminle s hs
                rw [hfn, h3]
                omega
              · rw [c10 n lc.1 hn hrec] at hlk
                have h6 := (hrange0 n).1 (lc.1, a.states.length)
                  (mem_of_alookup_eq_some _ _ _ hlk)
                simp only at h6
                omega
        have hr1b : ∀ n, r1 n ≤ RB := by
          intro n
          rw [hr1]
          simp only
          by_cases hn : n = a.states.length
          · rw [if_pos hn]
            exact le_trans hm1 (hrb m0)
          · rw [if_neg hn]
            exact hrb n
        exact e_rank r1 RB hr1decr hr1b
    · -- a singleton group
      have hrest : restm = [] := by
        cases restm with
        | nil => rfl
        | cons x xs =>
          exfalso
          apply hlen
          simp [List.length_cons]
      subst hrest
      obtain ⟨a2, reps', hok2, dlen, dinit, dcomp, dacc, drange, dns, dkn,
        dpne, daccu, dunt, drep1, drep2, dnodup, e_ent, e_rec, e_par, e_keys,
        e_val, e_w1, e_cnt, e_pos, e_rank⟩ :=
        ih a dead hrange0 hns0 hkn0 hpne0 hacc0 hneR
          (fun p hp => hlt p (hauxr p hp)) hsigR
          (fun p hp => helig p (hauxr p hp)) hndR
          (fun p hp => hmemM p (hauxr p hp))
          (fun p hp => hmemD p (hauxr p hp))
      have heligm0 : ∀ lc ∈ (hGet a m0).transitions, lc.2 ∈ M :=
        fun lc hlc => helig m0 (haux m0 (List.mem_cons_self _ _)) lc hlc
      have hm0lt : m0 < a.states.length := hin m0 (List.mem_cons_self _ _)
      have hum0 : hGet a2 m0 = hGet a m0 := dunt m0 hm0lt heligm0
      refine ⟨a2, m0 :: reps', ?_, dlen, dinit, dcomp, dacc, drange, dns,
        dkn, dpne, ?_, dunt, ?_, ?_, ?_, e_ent, e_rec, e_par, e_keys, e_val,
        ?_, ?_, ?_, e_rank⟩
      · simp only [processGroups]
        rw [if_neg hlen]
        simp only [hok2]
      · refine accurate_congr a2 _ _ ?_ daccu
        intro x
        rw [fused_cons]
        simp
      · intro r hr
        rcases List.mem_cons.1 hr with hr1 | hr1
        · left
          refine ⟨haux r (by rw [hr1]; exact List.mem_cons_self _ _), ?_⟩
          rw [fused_cons]
          simp only [List.length_cons, List.length_nil]
          rw [if_neg (by omega)]
          rw [List.nil_append]
          intro hc
          exact hdis (by rw [hr1]; exact List.mem_cons_self _ _)
            (fused_sub rest r hc)
        · rcases drep1 r hr1 with ⟨hm, hmf⟩ | ⟨h1, h2⟩
          · left
            refine ⟨hauxr r hm, ?_⟩
            rw [fused_cons]
            simp only [List.length_cons, List.length_nil]
            rw [if_neg (by omega)]
            rw [List.nil_append]
            exact hmf
          · exact Or.inr ⟨h1, h2⟩
      · intro r hr lc hlc
        rcases List.mem_cons.1 hr with hr1 | hr1
        · rw [hr1, hum0] at hlc
          exact heligm0 lc hlc
        · exact drep2 r hr1 lc hlc
      · refine List.nodup_cons.2 ⟨?_, dnodup⟩
        intro hc
        rcases drep1 _ hc with ⟨hm, _⟩ | ⟨h1, _⟩
        · exact hdis (List.mem_cons_self _ _) hm
        · omega
      · intro p hp pr hpr l hl
        rw [fused_cons] at hp
        simp only [List.length_cons, List.length_nil] at hp
        rw [if_neg (by omega), List.nil_append] at hp
        exact e_w1 p hp pr hpr l hl
      · rw [fused_cons]
        simp only [List.length_cons, List.length_nil]
        rw [if_neg (by omega), List.nil_append]
        exact e_cnt
      · intro h
        rw [fused_cons] at h
        simp only [List.length_cons, List.length_nil] at h
        rw [if_neg (by omega), List.nil_append] at h
        exact e_pos h

theorem popStep_main (a : Automaton) (mk qrest dead : List Nat) (s : Nat)
    (hinv : LoopInv a mk (s :: qrest) dead) :
    ∃ a' reps, popStep a mk s = .ok (a', reps)
      ∧ LoopInv a' (s :: mk) (qrest ++ reps)
          (fused (buildSigs a (s :: mk) (hGet a s).parents []) ++ dead)
      ∧ a.states.length ≤ a'.states.length
      ∧ a'.initial = a.initial
      ∧ a'.compressed = a.compressed
      ∧ (∀ (w : List Char) (n : Nat), n < a.states.length →
          acceptFrom a' n w = acceptFrom a n w) := by
  obtain ⟨hrange, hns, hkn, hpne, hacc, hmkle, hqle, hdle, hmkcl, hdcl, hqcl,
    hqnd, hmkq, hdq, hdmk⟩ := hinv
  have hsnd : s ∉ dead := fun hc => hdq s hc (List.mem_cons_self _ _)
  have hslt : s < a.states.length := hqle s (List.mem_cons_self _ _)
  set gs := buildSigs a (s :: mk) (hGet a s).parents [] with hgs
  have hmemiff : ∀ p, p ∈ members gs ↔
      p ∈ (hGet a s).parents.map Prod.fst
        ∧ eligible a (s :: mk) p = true := by
    intro p
    rw [members, List.mem_flatMap, hgs,
      buildSigs_mem a (s :: mk) (hGet a s).parents [] p]
    simp
  have hedge : ∀ p ∈ members gs,
      ∃ l, alookup (hGet a p).transitions l = some s := by
    intro p hp
    obtain ⟨hpk, _⟩ := (hmemiff p).1 hp
    rw [List.mem_map] at hpk
    obtain ⟨pr, hpr, hpr1⟩ := hpk
    obtain ⟨l, hl⟩ := List.exists_mem_of_ne_nil _ (hpne s pr hpr)
    have h1 := hacc s hsnd pr hpr l hl
    rw [hpr1] at h1
    exact ⟨l, h1⟩
  have hmM : ∀ p ∈ members gs, p ∉ s :: mk := by
    intro p hp hc
    obtain ⟨l, hl⟩ := hedge p hp
    have hmem : (l, s) ∈ (hGet a p).transitions :=
      mem_of_alookup_eq_some _ l s hl
    rcases List.mem_cons.1 hc with hps | hcm
    · exact hns p (l, s) hmem hps.symm
    · exact hmkq s (hmkcl p hcm (l, s) hmem) (List.mem_cons_self _ _)
  have hmD : ∀ p ∈ members gs, p ∉ dead := by
    intro p hp hc
    obtain ⟨l, hl⟩ := hedge p hp
    exact hmkq s (hdcl p hc (l, s) (mem_of_alookup_eq_some _ l s hl))
      (List.mem_cons_self _ _)
  have hmQ : ∀ p ∈ members gs, p ∉ s :: qrest := by
    intro p hp hc
    obtain ⟨l, hl⟩ := hedge p hp
    exact hmkq s (hqcl p hc (l, s) (mem_of_alookup_eq_some _ l s hl))
      (List.mem_cons_self _ _)
  have hmlt : ∀ p ∈ members gs, p < a.states.length := by
    intro p hp
    obtain ⟨hpk, _⟩ := (hmemiff p).1 hp
    rw [List.mem_map] at hpk
    obtain ⟨pr, hpr, hpr1⟩ := hpk
    have := (hrange s).2 pr hpr
    omega
  have hmelig : ∀ p ∈ members gs, ∀ lc ∈ (hGet a p).transitions,
      lc.2 ∈ s :: mk := by
    intro p hp lc hlc
    obtain ⟨_, he⟩ := (hmemiff p).1 hp
    simp only [eligible, List.all_eq_true] at he
    simpa using he lc hlc
  obtain ⟨a', reps, hok, plen, pinit, pcomp, pacc, prange, pns, pkn, ppne,
    paccu, punt, prep1, prep2, pnodup, _, _, _, _, _, _, _, _, _⟩ :=
    processGroups_main (s :: mk) gs a dead hrange hns hkn hpne hacc
      (buildSigs_nonempty a (s :: mk) (hGet a s).parents []
        (by intro e he; cases he))
      hmlt
      (buildSigs_sig a (s :: mk) (hGet a s).parents []
        (by intro e he; cases he))
      hmelig
      (buildSigs_members_nodup a (s :: mk) (hGet a s).parents (hkn s).2)
      hmM hmD
  have hS : hGet a' s = hGet a s :=
    punt s hslt (fun lc hlc =>
      List.mem_cons_of_mem _ (hqcl s (List.mem_cons_self _ _) lc hlc))
  have hMK : ∀ x ∈ mk, hGet a' x = hGet a x :=
    fun x hx => punt x (hmkle x hx)
      (fun lc hlc => List.mem_cons_of_mem _ (hmkcl x hx lc hlc))
  have hD : ∀ x ∈ dead, hGet a' x = hGet a x :=
    fun x hx => punt x (hdle x hx)
      (fun lc hlc => List.mem_cons_of_mem _ (hdcl x hx lc hlc))
  have hQ : ∀ x ∈ qrest, hGet a' x = hGet a x :=
    fun x hx => punt x (hqle x (List.mem_cons_of_mem _ hx))
      (fun lc hlc => List.mem_cons_of_mem _
        (hqcl x (List.mem_cons_of_mem _ hx) lc hlc))
  have hMem : ∀ p ∈ members gs, hGet a' p = hGet a p :=
    fun p hp => punt p (hmlt p hp) (hmelig p hp)
  refine ⟨a', reps, ?_, ?_, plen, pinit, pcomp, pacc⟩
  · simp only [popStep]
    rw [← hgs]
    exact hok
  · refine ⟨prange, pns, pkn, ppne, paccu, ?_, ?_, ?_, ?_, ?_, ?_, ?_, ?_,
      ?_, ?_⟩
    · intro x hx
      rcases List.mem_cons.1 hx with rfl | hxm
      · omega
      · have := hmkle x hxm
        omega
    · intro x hx
      rcases List.mem_append.1 hx with hx1 | hx1
      · have := hqle x (List.mem_cons_of_mem _ hx1)
        omega
      · rcases prep1 x hx1 with ⟨hm, _⟩ | ⟨_, h2⟩
        · have := hmlt x hm
          omega
        · exact h2
    · intro x hx
      rcases List.mem_append.1 hx with hx1 | hx1
      · have := hmlt x (fused_sub gs x hx1)
        omega
      · have := hdle x hx1
        omega
    · intro x hx lc hlc
      rcases List.mem_cons.1 hx with rfl | hxm
      · rw [hS] at hlc
        exact List.mem_cons_of_mem _ (hqcl x (List.mem_cons_self _ _) lc hlc)
      · rw [hMK x hxm] at hlc
        exact List.mem_cons_of_mem _ (hmkcl x hxm lc hlc)
    · intro x hx lc hlc
      rcases List.mem_append.1 hx with hx1 | hx1
      · rw [hMem x (fused_sub gs x hx1)] at hlc
        exact hmelig x (fused_sub gs x hx1) lc hlc
      · rw [hD x hx1] at hlc
        exact List.mem_cons_of_mem _ (hdcl x hx1 lc hlc)
    · intro x hx lc hlc
      rcases List.mem_append.1 hx with hx1 | hx1
      · rw [hQ x hx1] at hlc
        exact List.mem_cons_of_mem _
          (hqcl x (List.mem_cons_of_mem _ hx1) lc hlc)
      · exact prep2 x hx1 lc hlc
    · refine List.Nodup.append (List.nodup_cons.1 hqnd).2 pnodup ?_
      intro x hx1 hx2
      rcases prep1 x hx2 with ⟨hm, _⟩ | ⟨h1, _⟩
      · exact hmQ x hm (List.mem_cons_of_mem _ hx1)
      · have := hqle x (List.mem_cons_of_mem _ hx1)
        omega
    · intro x hx hc
      rcases List.mem_append.1 hc with hc1 | hc1
      · rcases List.mem_cons.1 hx with rfl | hxm
        · exact (List.nodup_cons.1 hqnd).1 hc1
        · exact hmkq x hxm (List.mem_cons_of_mem _ hc1)
      · rcases prep1 x hc1 with ⟨hm, _⟩ | ⟨h1, _⟩
        · exact hmM x hm hx
        · rcases List.mem_cons.1 hx with rfl | hxm
          · omega
          · have := hmkle x hxm
            omega
    · intro x hx hc
      rcases List.mem_append.1 hx with hx1 | hx1
      · rcases List.mem_append.1 hc with hc1 | hc1
        · exact hmQ x (fused_sub gs x hx1) (List.mem_cons_of_mem _ hc1)
        · rcases prep1 x hc1 with ⟨_, hnf⟩ | ⟨h1, _⟩
          · exact hnf hx1
          · have := hmlt x (fused_sub gs x hx1)
            omega
      · rcases List.mem_append.1 hc with hc1 | hc1
        · exact hdq x hx1 (List.mem_cons_of_mem _ hc1)
        · rcases prep1 x hc1 with ⟨hm, _⟩ | ⟨h1, _⟩
          · exact hmD x hm hx1
          · have := hdle x hx1
            omega
    · intro x hx hc
      rcases List.mem_append.1 hx with hx1 | hx1
      · exact hmM x (fused_sub gs x hx1) hc
      · rcases List.mem_cons.1 hc with rfl | hcm
        · exact hdq x hx1 (List.mem_cons_self _ _)
        · exact hdmk x hx1 hcm

theorem acceptFrom_states_eq (x y : Automaton) (h : x.states = y.states) :
    ∀ (n : Nat) (w : List Char), acceptFrom x n w = acceptFrom y n w := by
  have hget : ∀ n, hGet x n = hGet y n := by
    intro n
    unfold hGet
    rw [h]
  intro n w
  induction w generalizing n with
  | nil => rw [acceptFrom_nil, acceptFrom_nil, hget]
  | cons l w ih =>
    rw [acceptFrom_cons, acceptFrom_cons, hget]
    cases alookup (hGet y n).transitions l with
    | none => rfl
    | some t => exact ih t

theorem compressLoop_main :
    ∀ (fuel : Nat) (a : Automaton) (q mk dead : List Nat),
      LoopInv a mk q dead →
      (∀ e, compressLoop a fuel q mk ≠ .err e)
      ∧ (∀ g, compressLoop a fuel q mk = .done g →
          g.initial = a.initial
          ∧ a.states.length ≤ g.states.length
          ∧ g.compressed = true
          ∧ (∀ (w : List Char) (n : Nat), n < a.states.length →
              acceptFrom g n w = acceptFrom a n w)) := by
  intro fuel
  induction fuel with
  | zero =>
    intro a q mk dead hinv
    cases q with
    | nil =>
      constructor
      · intro e h
        simp only [compressLoop] at h
        cases h
      · intro g hg
        simp only [compressLoop, CRes.done.injEq] at hg
        subst hg
        exact ⟨rfl, le_refl _, rfl,
          fun w n _ => acceptFrom_states_eq { a with compressed := true } a rfl n w⟩
    | cons s qrest =>
      constructor
      · intro e h
        simp only [compressLoop] at h
        cases h
      · intro g hg
        simp only [compressLoop] at hg
        cases hg
  | succ fuel ih =>
    intro a q mk dead hinv
    cases q with
    | nil =>
      constructor
      · intro e h
        simp only [compressLoop] at h
        cases h
      · intro g hg
        simp only [compressLoop, CRes.done.injEq] at hg
        subst hg
        exact ⟨rfl, le_refl _, rfl,
          fun w n _ => acceptFrom_states_eq { a with compressed := true } a rfl n w⟩
    | cons s qrest =>
      obtain ⟨a', reps, hok, hinv', hlen, hinit, hcomp, haccp⟩ :=
        popStep_main a mk qrest dead s hinv
      have heq : compressLoop a (fuel + 1) (s :: qrest) mk
          = compressLoop a' fuel (qrest ++ reps) (s :: mk) := by
        simp only [compressLoop, hok]
      obtain ⟨ihe, ihd⟩ := ih a' (qrest ++ reps) (s :: mk) _ hinv'
      constructor
      · intro e h
        rw [heq] at h
        exact ihe e h
      · intro g hg
        rw [heq] at hg
        obtain ⟨d1, d2, d3, d4⟩ := ihd g hg
        refine ⟨d1.trans hinit, by omega, d3, ?_⟩
        intro w n hn
        rw [d4 w n (by omega), haccp w n hn]

theorem walk_nil (a : Automaton) (n : Nat) : walk a n [] = some n := rfl

theorem walk_cons (a : Automaton) (n : Nat) (l : Char) (w : List Char) :
    walk a n (l :: w)
      = match alookup (hGet a n).transitions l with
        | some t => walk a t w
        | none => none := rfl

theorem walk_append (a : Automaton) :
    ∀ (u v : List Char) (n : Nat),
      walk a n (u ++ v)
        = match walk a n u with
          | some t => walk a t v
          | none => none := by
  intro u
  induction u with
  | nil =>
    intro v n
    simp [walk_nil]
  | cons l u ih =>
    intro v n
    rw [List.cons_append, walk_cons, walk_cons]
    cases alookup (hGet a n).transitions l with
    | none => rfl
    | some t => exact ih v t

theorem walk_concat (a : Automaton) (v : List Char) (l : Char) (n : Nat) :
    walk a n (v ++ [l])
      = match walk a n v with
        | some t => alookup (hGet a t).transitions l
        | none => none := by
  rw [walk_append]
  cases walk a n v with
  | none => rfl
  | some t =>
    simp only [walk_cons, walk_nil]
    cases alookup (hGet a t).transitions l with
    | none => rfl
    | some u => rfl

theorem walk_to_root (a : Automaton)
    (hrt : ∀ q, ∀ lc ∈ (hGet a q).transitions, lc.2 ≠ a.initial) :
    ∀ (v : List Char) (x : Nat), walk a x v = some a.initial →
      x = a.initial ∧ v = [] := by
  intro v
  induction v with
  | nil =>
    intro x h
    rw [walk_nil] at h
    exact ⟨(Option.some.injEq _ _ ▸ h).symm ▸ rfl, rfl⟩
  | cons l v ih =>
    intro x h
    rw [walk_cons] at h
    cases ht : alookup (hGet a x).transitions l with
    | none => rw [ht] at h; cases h
    | some t =>
      rw [ht] at h
      simp only at h
      have h1 := (ih t h).1
      have h2 := hrt x (l, t) (mem_of_alookup_eq_some _ l t ht)
      exact absurd h1 h2

theorem walk_inj (a : Automaton) (hui : UniqueIn a)
    (hrt : ∀ q, ∀ lc ∈ (hGet a q).transitions, lc.2 ≠ a.initial) :
    ∀ (v w : List Char) (m : Nat), walk a a.initial v = some m →
      walk a a.initial w = some m → v = w := by
  intro v
  induction v using List.reverseRecOn with
  | nil =>
    intro w m hv hw
    rw [walk_nil] at hv
    have hm : m = a.initial := by injection hv; omega
    rw [hm] at hw
    exact ((walk_to_root a hrt w a.initial hw).2).symm
  | append_singleton v' l ih =>
    intro w m hv hw
    rw [walk_concat] at hv
    cases hpv : walk a a.initial v' with
    | none => rw [hpv] at hv; cases hv
    | some p =>
      rw [hpv] at hv
      simp only at hv
      have hmem : (l, m) ∈ (hGet a p).transitions :=
        mem_of_alookup_eq_some _ l m hv
      have hmni : m ≠ a.initial := hrt p (l, m) hmem
      rcases List.eq_nil_or_concat w with rfl | ⟨w', l2, rfl⟩
      · rw [walk_nil] at hw
        exact absurd (by injection hw; omega : m = a.initial) hmni
      · rw [List.concat_eq_append] at hw ⊢
        rw [walk_concat] at hw
        cases hpw : walk a a.initial w' with
        | none => rw [hpw] at hw; cases hw
        | some p2 =>
          rw [hpw] at hw
          simp only at hw
          have hmem2 : (l2, m) ∈ (hGet a p2).transitions :=
            mem_of_alookup_eq_some _ l2 m hw
          obtain ⟨hpp, hll⟩ := hui p p2 (l, m) (l2, m) hmem hmem2 rfl
          simp only at hll
          have hveq : v' = w' := by
            refine ih w' p hpv ?_
            rw [hpw, hpp]
          rw [hveq, hll]

theorem mem_keys_alookup {κ β : Type} [DecidableEq κ] :
    ∀ (xs : List (κ × β)) (k : κ), k ∈ xs.map Prod.fst →
      ∃ v, alookup xs k = some v := by
  intro xs
  induction xs with
  | nil => intro k h; cases h
  | cons e rest ih =>
    intro k h
    simp only [alookup]
    by_cases hk : k = e.1
    · exact ⟨e.2, by rw [if_pos hk]⟩
    · rw [if_neg hk]
      refine ih k ?_
      simp only [List.map_cons, List.mem_cons] at h
      rcases h with h | h
      · exact absurd h hk
      · exact h

theorem alookup_append {κ β : Type} [DecidableEq κ] :
    ∀ (xs ys : List (κ × β)) (k : κ),
      alookup (xs ++ ys) k
        = match alookup xs k with
          | some v => some v
          | none => alookup ys k := by
  intro xs
  induction xs with
  | nil => intro ys k; rfl
  | cons e rest ih =>
    intro ys k
    simp only [List.cons_append, alookup]
    by_cases hk : k = e.1
    · rw [if_pos hk, if_pos hk]
    · rw [if_neg hk, if_neg hk]
      exact ih ys k

theorem nextState_create (a : Automaton) (n : Nat) (l : Char)
    (hn : n < a.states.length)
    (hlk : alookup (hGet a n).transitions l = none) :
    ∃ a2, nextState a n l true = (a2, some a.states.length)
      ∧ a2.states.length = a.states.length + 1
      ∧ a2.initial = a.initial
      ∧ a2.compressed = a.compressed
      ∧ hGet a2 n = { hGet a n with
          transitions := (hGet a n).transitions ++ [(l, a.states.length)] }
      ∧ hGet a2 a.states.length = ⟨false, [], [(n, [l])]⟩
      ∧ (∀ x, x ≠ n → x ≠ a.states.length → hGet a2 x = hGet a x) := by
  set f := a.states.length with hf
  set a1 : Automaton :=
    { a with states := a.states ++ [⟨false, [], [(n, [l])]⟩] } with ha1
  have ha1n : hGet a1 n = hGet a n := hGet_append_lt a _ n hn
  have ha1f : hGet a1 f = ⟨false, [], [(n, [l])]⟩ := hGet_append_self a _
  have ha1len : a1.states.length = a.states.length + 1 := by
    rw [ha1]; simp
  have hnf : n ≠ f := by omega
  set nd : StateData :=
    { hGet a1 n with transitions := aset (hGet a1 n).transitions l f } with hnd
  set a2 := hSet a1 n nd with ha2
  have ha2n : hGet a2 n = nd := hGet_hSet_eq a1 n nd (by omega)
  have hndt : nd.transitions = (hGet a n).transitions ++ [(l, f)] := by
    rw [hnd, ha1n]
    exact aset_append _ l f hlk
  have hstep : nextState a n l true = (a2, alookup (hGet a2 n).transitions l) := by
    rw [nextState, if_pos ⟨rfl, hlk⟩]
  have hlk2 : alookup (hGet a2 n).transitions l = some f := by
    rw [ha2n, hnd, ha1n]
    exact alookup_aset_self _ l f
  refine ⟨a2, by rw [hstep, hlk2], ?_, rfl, rfl, ?_, ?_, ?_⟩
  · rw [ha2, hSet_length, ha1len]
  · rw [ha2n, hnd, ha1n, aset_append _ l f hlk]
  · rw [ha2, hGet_hSet_ne a1 n f nd (by omega), ha1f]
  · intro x hxn hxf
    rw [ha2, hGet_hSet_ne a1 n x nd hxn, ha1]
    by_cases hx : x < a.states.length
    · exact hGet_append_lt a _ x hx
    · rw [hGet_ge a x (by omega), hGet_ge a1 x (by rw [ha1len]; omega)]

theorem addGo_main :
    ∀ (w : List Char) (a : Automaton) (n : Nat),
      n < a.states.length →
      RangeB a.states.length a →
      KeysNodup a →
      ParentsNE a →
      Accurate a [] →
      EdgeIncr a →
      UniqueIn a →
      (∀ q l t, alookup (hGet a q).transitions l = some t →
        ∃ pr ∈ (hGet a t).parents, pr.1 = q ∧ l ∈ pr.2) →
      (∀ x, x < a.states.length → x ≠ a.initial → x ≠ n →
        (hGet a x).transitions = [] → (hGet a x).is_final = true) →
      ∃ a1 m, addGo a n w = (a1, m)
        ∧ a.states.length ≤ a1.states.length
        ∧ a1.initial = a.initial
        ∧ a1.compressed = a.compressed
        ∧ (∀ x, (hGet a1 x).is_final = (hGet a x).is_final)
        ∧ (∀ x, x < a.states.length → (hGet a1 x).parents = (hGet a x).parents)
        ∧ (∀ q, ∃ ext, (hGet a1 q).transitions = (hGet a q).transitions ++ ext
            ∧ ∀ lc ∈ ext, a.states.length ≤ lc.2)
        ∧ m < a1.states.length
        ∧ walk a1 n w = some m
        ∧ RangeB a1.states.length a1
        ∧ KeysNodup a1
        ∧ ParentsNE a1
        ∧ Accurate a1 []
        ∧ EdgeIncr a1
        ∧ UniqueIn a1
        ∧ (∀ q l t, alookup (hGet a1 q).transitions l = some t →
            ∃ pr ∈ (hGet a1 t).parents, pr.1 = q ∧ l ∈ pr.2)
        ∧ (∀ x, x < a1.states.length → x ≠ a1.initial → x ≠ m →
            (hGet a1 x).transitions = [] → (hGet a1 x).is_final = true)
        ∧ (∀ x, a.states.length ≤ x → x < a1.states.length →
            ∃ v, walk a1 n v = some x)
        ∧ (a.states.length < a1.states.length →
            (hGet a1 n).transitions ≠ []) := by
  intro w
  induction w with
  | nil =>
    intro a n hn hrg hkn hpne hacc hei hui hrc hlfx
    refine ⟨a, n, rfl, le_refl _, rfl, rfl, fun x => rfl, fun x _ => rfl,
      fun q => ⟨[], (List.append_nil _).symm, by simp⟩, hn, walk_nil a n,
      hrg, hkn, hpne, hacc, hei, hui, hrc, hlfx,
      fun x h1 h2 => absurd h1 (by omega), fun h => absurd h (by omega)⟩
  | cons l w ih =>
    intro a n hn hrg hkn hpne hacc hei hui hrc hlfx
    cases hlk : alookup (hGet a n).transitions l with
    | some t =>
      have hstep : nextState a n l true = (a, some t) := by
        rw [nextState, if_neg (by rintro ⟨_, h⟩; rw [hlk] at h; cases h), hlk]
      have ht : t < a.states.length :=
        (hrg n).1 (l, t) (mem_of_alookup_eq_some _ l t hlk)
      have hlfx2 : ∀ x, x < a.states.length → x ≠ a.initial → x ≠ t →
          (hGet a x).transitions = [] → (hGet a x).is_final = true := by
        intro x h1 h2 h3 h4
        by_cases hxn : x = n
        · rw [hxn] at h4
          exact absurd h4
            (List.ne_nil_of_mem (mem_of_alookup_eq_some _ l t hlk))
        · exact hlfx x h1 h2 hxn h4
      obtain ⟨a1, m, heq, b1, b2, b3, b4, b5, b6, b7, b8, b9, b10, b11, b12,
        b13, b14, b15, b16, b17, b18⟩ :=
        ih a t ht hrg hkn hpne hacc hei hui hrc hlfx2
      have hl1 : alookup (hGet a1 n).transitions l = some t := by
        obtain ⟨ext, hext, _⟩ := b6 n
        rw [hext, alookup_append, hlk]
      refine ⟨a1, m, by simp only [addGo, hstep]; exact heq, b1, b2, b3, b4,
        b5, b6, b7, ?_, b9, b10, b11, b12, b13, b14, b15, b16, ?_, ?_⟩
      · rw [walk_cons, hl1]
        exact b8
      · intro x hx1 hx2
        obtain ⟨v, hv⟩ := b17 x hx1 hx2
        exact ⟨l :: v, by rw [walk_cons, hl1]; exact hv⟩
      · intro _
        exact List.ne_nil_of_mem (mem_of_alookup_eq_some _ l t hl1)
    | none =>
      obtain ⟨a2, hstep2, s1, s2, s3, s4, s5, s6⟩ :=
        nextState_create a n l hn hlk
      set f := a.states.length with hf
      have hlnotin : l ∉ ((hGet a n).transitions).map Prod.fst := by
        intro hc
        obtain ⟨v, hv⟩ := mem_keys_alookup _ l hc
        rw [hv] at hlk
        cases hlk
      have hafresh : hGet a f = StateData.fresh := hGet_ge a f (le_refl _)
      -- step-level membership characterization of transitions
      have hmem2 : ∀ x lc, lc ∈ (hGet a2 x).transitions ↔
          (lc ∈ (hGet a x).transitions ∨ (x = n ∧ lc = (l, f))) := by
        intro x lc
        by_cases hxn : x = n
        · rw [hxn, s4]
          simp
        · by_cases hxf : x = f
          · rw [hxf, s5, hafresh]
            simp [StateData.fresh]
            omega
          · rw [s6 x hxn hxf]
            simp [hxn]
      -- step-level parents characterization
      have hpar2 : ∀ x, x ≠ f → (hGet a2 x).parents = (hGet a x).parents := by
        intro x hxf
        by_cases hxn : x = n
        · rw [hxn, s4]
        · rw [s6 x hxn hxf]
      have hparf : (hGet a2 f).parents = [(n, [l])] := by rw [s5]
      -- step-level final characterization
      have hfin2 : ∀ x, (hGet a2 x).is_final = (hGet a x).is_final := by
        intro x
        by_cases hxn : x = n
        · rw [hxn, s4]
        · by_cases hxf : x = f
          · rw [hxf, s5, hafresh]
            rfl
          · rw [s6 x hxn hxf]
      -- step-level lookup characterization
      have hlook2 : ∀ q l', alookup (hGet a2 q).transitions l'
          = if q = n then
              (match alookup (hGet a n).transitions l' with
               | some t => some t
               | none => alookup [(l, f)] l')
            else alookup (hGet a q).transitions l' := by
        intro q l'
        by_cases hqn : q = n
        · rw [if_pos hqn, hqn, s4]
          simp only
          rw [alookup_append]
          cases alookup (hGet a n).transitions l' with
          | none => rfl
          | some v => rfl
        · rw [if_neg hqn]
          by_cases hqf : q = f
          · rw [hqf, s5, hafresh]
            rfl
          · rw [s6 q hqn hqf]
      have hrg2 : RangeB a2.states.length a2 := by
        intro x
        constructor
        · intro lc hlc
          rcases (hmem2 x lc).1 hlc with h1 | ⟨_, h1⟩
          · have := (hrg x).1 lc h1
            omega
          · rw [h1]
            simp only
            omega
        · intro pr hpr
          by_cases hxf : x = f
          · rw [hxf, hparf] at hpr
            simp only [List.mem_singleton] at hpr
            rw [hpr]
            simp only
            omega
          · rw [hpar2 x hxf] at hpr
            have := (hrg x).2 pr hpr
            omega
      have hkn2 : KeysNodup a2 := by
        intro x
        constructor
        · by_cases hxn : x = n
          · rw [hxn, s4]
            simp only [List.map_append]
            rw [List.nodup_append]
            refine ⟨(hkn n).1, by simp, ?_⟩
            intro y hy
            simp only [List.map_cons, List.map_nil, List.mem_singleton]
            intro hc
            rw [hc] at hy
            exact hlnotin hy
          · by_cases hxf : x = f
            · rw [hxf, s5]
              simp
            · rw [s6 x hxn hxf]
              exact (hkn x).1
        · by_cases hxf : x = f
          · rw [hxf, hparf]
            simp
          · rw [hpar2 x hxf]
            exact (hkn x).2
      have hpne2 : ParentsNE a2 := by
        intro x pr hpr
        by_cases hxf : x = f
        · rw [hxf, hparf] at hpr
          simp only [List.mem_singleton] at hpr
          rw [hpr]
          simp
        · rw [hpar2 x hxf] at hpr
          exact hpne x pr hpr
      have hacc2 : Accurate a2 [] := by
        intro s _ pr hpr l' hl'
        by_cases hsf : s = f
        · rw [hsf, hparf] at hpr
          simp only [List.mem_singleton] at hpr
          rw [hpr] at hl' ⊢
          simp only [List.mem_singleton] at hl'
          rw [hl']
          rw [hlook2 n l, if_pos rfl, hlk]
          simp [alookup, hsf]
        · rw [hpar2 s hsf] at hpr
          have hold := hacc s (by simp) pr hpr l' hl'
          rw [hlook2 pr.1 l']
          by_cases hq : pr.1 = n
          · rw [if_pos hq]
            rw [hq] at hold
            rw [hold]
          · rw [if_neg hq]
            exact hold
      have hei2 : EdgeIncr a2 := by
        intro x lc hlc
        rcases (hmem2 x lc).1 hlc with h1 | ⟨hx, h1⟩
        · exact hei x lc h1
        · rw [hx, h1]
          simp only
          omega
      have hui2 : UniqueIn a2 := by
        intro n1 n2 lc1 lc2 h1 h2 hteq
        rcases (hmem2 n1 lc1).1 h1 with ha1 | ⟨hn1, hc1⟩
        · rcases (hmem2 n2 lc2).1 h2 with ha2 | ⟨hn2, hc2⟩
          · exact hui n1 n2 lc1 lc2 ha1 ha2 hteq
          · exfalso
            have := (hrg n1).1 lc1 ha1
            rw [hc2] at hteq
            simp only at hteq
            omega
        · rcases (hmem2 n2 lc2).1 h2 with ha2 | ⟨hn2, hc2⟩
          · exfalso
            have := (hrg n2).1 lc2 ha2
            rw [hc1] at hteq
            simp only at hteq
            omega
          · rw [hn1, hn2, hc1, hc2]
            exact ⟨rfl, rfl⟩
      have hrc2 : ∀ q l' t', alookup (hGet a2 q).transitions l' = some t' →
          ∃ pr ∈ (hGet a2 t').parents, pr.1 = q ∧ l' ∈ pr.2 := by
        intro q l' t' hq
        rw [hlook2 q l'] at hq
        by_cases hqn : q = n
        · rw [if_pos hqn] at hq
          cases hold : alookup (hGet a n).transitions l' with
          | some u =>
            rw [hold] at hq
            simp only [Option.some.injEq] at hq
            rw [← hq]
            have htlt : u < a.states.length :=
              (hrg n).1 (l', u) (mem_of_alookup_eq_some _ l' u hold)
            rw [hqn]
            obtain ⟨pr, hpr, hpr1, hpr2⟩ := hrc n l' u hold
            refine ⟨pr, ?_, hpr1, hpr2⟩
            rw [hpar2 u (by omega)]
            exact hpr
          | none =>
            rw [hold] at hq
            simp only [alookup] at hq
            by_cases hll : l' = l
            · rw [if_pos hll] at hq
              simp only [Option.some.injEq] at hq
              rw [← hq, hparf]
              exact ⟨(n, [l]), List.mem_singleton.2 rfl, hqn.symm ▸ rfl,
                by rw [hll]; simp⟩
            · rw [if_neg hll] at hq
              cases hq
        · rw [if_neg hqn] at hq
          have htlt : t' < a.states.length :=
            (hrg q).1 (l', t') (mem_of_alookup_eq_some _ l' t' hq)
          obtain ⟨pr, hpr, hpr1, hpr2⟩ := hrc q l' t' hq
          refine ⟨pr, ?_, hpr1, hpr2⟩
          rw [hpar2 t' (by omega)]
          exact hpr
      have hlfx2 : ∀ x, x < a2.states.length → x ≠ a2.initial → x ≠ f →
          (hGet a2 x).transitions = [] → (hGet a2 x).is_final = true := by
        intro x h1 h2 h3 h4
        rw [hfin2 x]
        by_cases hxn : x = n
        · exfalso
          rw [hxn, s4] at h4
          simp at h4
        · rw [s6 x hxn h3] at h4
          refine hlfx x (by omega) (by rw [s2] at h2; exact h2) hxn h4
      obtain ⟨a1, m, heq, b1, b2, b3, b4, b5, b6, b7, b8, b9, b10, b11, b12,
        b13, b14, b15, b16, b17, b18⟩ :=
        ih a2 f (by omega) hrg2 hkn2 hpne2 hacc2 hei2 hui2 hrc2 hlfx2
      -- the lookup that the new edge provides, lifted to the final heap
      have hl1 : alookup (hGet a1 n).transitions l = some f := by
        obtain ⟨ext, hext, _⟩ := b6 n
        rw [hext, alookup_append, hlook2 n l, if_pos rfl, hlk]
        simp [alookup]
      refine ⟨a1, m, by simp only [addGo, hstep2]; exact heq,
        by omega, by rw [b2, s2], by rw [b3, s3], ?_, ?_, ?_, ?_, ?_,
        b9, b10, b11, b12, b13, b14, b15, b16, ?_, ?_⟩
      · intro x
        rw [b4 x, hfin2 x]
      · intro x hx
        rw [b5 x (by omega), hpar2 x (by omega)]
      · intro q
        obtain ⟨ext2, hext2, hext2t⟩ := b6 q
        by_cases hqn : q = n
        · refine ⟨[(l, f)] ++ ext2, ?_, ?_⟩
          · rw [hext2, hqn, s4, List.append_assoc]
          · intro lc hlc
            rcases List.mem_append.1 hlc with h1 | h1
            · simp only [List.mem_singleton] at h1
              rw [h1]
            · have := hext2t lc h1
              omega
        · by_cases hqf : q = f
          · refine ⟨(hGet a1 q).transitions, ?_, ?_⟩
            · rw [hqf, hafresh]
              rfl
            · intro lc hlc
              rw [hext2, hqf, s5] at hlc
              simp only [List.nil_append] at hlc
              have := hext2t lc hlc
              omega
          · refine ⟨ext2, ?_, fun lc hlc => by have := hext2t lc hlc; omega⟩
            rw [hext2, s6 q hqn hqf]
      · omega
      · rw [walk_cons, hl1]
        exact b8
      · intro x hx1 hx2
        by_cases hxf : x = f
        · refine ⟨[l], ?_⟩
          rw [walk_cons, hl1, hxf]
          exact walk_nil a1 f
        · obtain ⟨v, hv⟩ := b17 x (by omega) hx2
          exact ⟨l :: v, by rw [walk_cons, hl1]; exact hv⟩
      · intro _
        exact List.ne_nil_of_mem (mem_of_alookup_eq_some _ l f hl1)

theorem walk_congr_trans (x y : Automaton)
    (h : ∀ q, (hGet x q).transitions = (hGet y q).transitions) :
    ∀ (v : List Char) (n : Nat), walk x n v = walk y n v := by
  intro v
  induction v with
  | nil => intro n; rfl
  | cons l v ih =>
    intro n
    rw [walk_cons, walk_cons, h n]
    cases alookup (hGet y n).transitions l with
    | none => rfl
    | some t => exact ih t

theorem lookup_ext_of_append (a a1 : Automaton) (L : Nat)
    (h : ∀ q, ∃ ext, (hGet a1 q).transitions = (hGet a q).transitions ++ ext
        ∧ ∀ lc ∈ ext, L ≤ lc.2) :
    ∀ q l t, alookup (hGet a q).transitions l = some t →
      alookup (hGet a1 q).transitions l = some t := by
  intro q l t hq
  obtain ⟨ext, hext, _⟩ := h q
  rw [hext, alookup_append, hq]

theorem walk_ext (a a1 : Automaton)
    (h : ∀ q l t, alookup (hGet a q).transitions l = some t →
        alookup (hGet a1 q).transitions l = some t) :
    ∀ (v : List Char) (x t : Nat), walk a x v = some t → walk a1 x v = some t := by
  intro v
  induction v with
  | nil =>
    intro x t hx
    exact hx
  | cons l v ih =>
    intro x t hx
    rw [walk_cons] at hx
    cases hl : alookup (hGet a x).transitions l with
    | none => rw [hl] at hx; cases hx
    | some u =>
      rw [hl] at hx
      simp only at hx
      rw [walk_cons, h x l u hl]
      exact ih u t hx

theorem walk_stay (a1 : Automaton) (L : Nat)
    (hstay : ∀ q, L ≤ q → ∀ lc ∈ (hGet a1 q).transitions, L ≤ lc.2) :
    ∀ (v : List Char) (y t : Nat), L ≤ y → walk a1 y v = some t → L ≤ t := by
  intro v
  induction v with
  | nil =>
    intro y t hy h
    rw [walk_nil] at h
    injection h with h
    omega
  | cons l v ih =>
    intro y t hy h
    rw [walk_cons] at h
    cases hl : alookup (hGet a1 y).transitions l with
    | none => rw [hl] at h; cases h
    | some u =>
      rw [hl] at h
      simp only at h
      have hu : L ≤ u :=
        hstay y hy (l, u) (mem_of_alookup_eq_some _ l u hl)
      exact ih u t hu h

theorem walk_back (a a1 : Automaton)
    (hrg : RangeB a.states.length a)
    (hchar : ∀ q l t, alookup (hGet a1 q).transitions l = some t →
        alookup (hGet a q).transitions l = some t ∨ a.states.length ≤ t)
    (hstay : ∀ q, a.states.length ≤ q →
        ∀ lc ∈ (hGet a1 q).transitions, a.states.length ≤ lc.2) :
    ∀ (v : List Char) (x t : Nat), t < a.states.length →
      walk a1 x v = some t → walk a x v = some t := by
  intro v
  induction v with
  | nil =>
    intro x t _ h
    exact h
  | cons l v ih =>
    intro x t ht h
    rw [walk_cons] at h
    cases hl : alookup (hGet a1 x).transitions l with
    | none => rw [hl] at h; cases h
    | some u =>
      rw [hl] at h
      simp only at h
      rcases hchar x l u hl with hold | hu
      · rw [walk_cons, hold]
        exact ih u t ht h
      · exfalso
        have := walk_stay a1 a.states.length hstay v u t hu h
        omega

theorem addWord_main (a : Automaton) (w : List Char) (ht : IsTrie a) :
    ∃ a3, addWord a w = .ok a3
      ∧ IsTrie a3
      ∧ a.states.length ≤ a3.states.length
      ∧ (∀ v, acceptWord a3 v = true ↔ (acceptWord a v = true ∨ v = w)) := by
  have hn0 : a.initial < a.states.length := by
    rw [ht.init0]
    exact ht.posLen
  obtain ⟨a1, m, heq, b1, b2, b3, b4, b5, b6, b7, b8, b9, b10, b11, b12,
    b13, b14, b15, b16, b17, b18⟩ :=
    addGo_main w a a.initial hn0 ht.range ht.keysND ht.parentsNE ht.accurate
      ht.edgeIncr ht.uniqueIn ht.recComplete
      (fun x h1 h2 _ h4 => ht.leafFinal x h1 h2 h4)
  set a3 := hSet a1 m { hGet a1 m with is_final := true } with ha3
  have hok : addWord a w = .ok a3 := by
    rw [addWord, if_neg (by rw [ht.notCompressed]; simp), heq]
  have ha3len : a3.states.length = a1.states.length := hSet_length a1 m _
  have ha3t : ∀ x, (hGet a3 x).transitions = (hGet a1 x).transitions := by
    intro x
    by_cases hx : x = m
    · rw [hx, ha3, hGet_hSet_eq a1 m _ b7]
    · rw [ha3, hGet_hSet_ne a1 m x _ hx]
  have ha3p : ∀ x, (hGet a3 x).parents = (hGet a1 x).parents := by
    intro x
    by_cases hx : x = m
    · rw [hx, ha3, hGet_hSet_eq a1 m _ b7]
    · rw [ha3, hGet_hSet_ne a1 m x _ hx]
  have ha3f : ∀ x, x ≠ m → (hGet a3 x).is_final = (hGet a1 x).is_final := by
    intro x hx
    rw [ha3, hGet_hSet_ne a1 m x _ hx]
  have ha3fm : (hGet a3 m).is_final = true := by
    rw [ha3, hGet_hSet_eq a1 m _ b7]
  have ha3w : ∀ v n, walk a3 n v = walk a1 n v :=
    fun v n => walk_congr_trans a3 a1 ha3t v n
  have ha3i : a3.initial = a.initial := b2
  have hwext : ∀ v x t, walk a x v = some t → walk a1 x v = some t :=
    walk_ext a a1 (lookup_ext_of_append a a1 a.states.length b6)
  have hchar : ∀ q l t, alookup (hGet a1 q).transitions l = some t →
      alookup (hGet a q).transitions l = some t ∨ a.states.length ≤ t := by
    intro q l t hq
    obtain ⟨ext, hext, hextt⟩ := b6 q
    rw [hext, alookup_append] at hq
    cases hold : alookup (hGet a q).transitions l with
    | some u =>
      rw [hold] at hq
      simp only at hq
      left
      exact hq
    | none =>
      rw [hold] at hq
      simp only at hq
      right
      exact hextt (l, t) (mem_of_alookup_eq_some _ l t hq)
  have hstay : ∀ q, a.states.length ≤ q →
      ∀ lc ∈ (hGet a1 q).transitions, a.states.length ≤ lc.2 := by
    intro q hq lc hlc
    obtain ⟨ext, hext, hextt⟩ := b6 q
    rw [hext] at hlc
    rcases List.mem_append.1 hlc with h1 | h1
    · exfalso
      rw [hGet_ge a q hq] at h1
      cases h1
    · exact hextt lc h1
  have hrt1 : ∀ q, ∀ lc ∈ (hGet a1 q).transitions, lc.2 ≠ a1.initial := by
    intro q lc hlc
    have := b13 q lc hlc
    rw [b2, ht.init0]
    omega
  refine ⟨a3, hok, ?_, by omega, ?_⟩
  · refine ⟨by rw [ha3i, ht.init0], by omega, by rw [ha3, hSet_compressed, b3,
      ht.notCompressed], ?_, ?_, ?_, ?_, ?_, ?_, ?_, ?_, ?_, ?_⟩
    · intro x
      rw [ha3len]
      constructor
      · intro lc hlc
        rw [ha3t x] at hlc
        exact (b9 x).1 lc hlc
      · intro pr hpr
        rw [ha3p x] at hpr
        exact (b9 x).2 pr hpr
    · intro x
      rw [ha3t x, ha3p x]
      exact b10 x
    · intro x pr hpr
      rw [ha3p x] at hpr
      exact b11 x pr hpr
    · intro s hs pr hpr l hl
      rw [ha3p s] at hpr
      rw [ha3t pr.1]
      exact b12 s hs pr hpr l hl
    · intro x lc hlc
      rw [ha3t x] at hlc
      exact b13 x lc hlc
    · intro x h1 h2 h3
      rw [ha3len] at h1
      rw [ha3t x] at h3
      by_cases hxm : x = m
      · rw [hxm]
        exact ha3fm
      · rw [ha3f x hxm]
        refine b16 x h1 ?_ hxm h3
        rw [b2, ← ha3i]
        exact h2
    · intro hlen1
      rw [ha3t 0]
      rw [ha3len] at hlen1
      by_cases hl1 : 1 < a.states.length
      · have hroot := ht.rootTrans hl1
        obtain ⟨ext, hext, _⟩ := b6 0
        rw [hext]
        intro hc
        rw [List.append_eq_nil] at hc
        exact hroot hc.1
      · have hlt : a.states.length < a1.states.length := by omega
        have := b18 hlt
        rw [ht.init0] at this
        exact this
    · intro n1 n2 lc1 lc2 h1 h2 h3
      rw [ha3t n1] at h1
      rw [ha3t n2] at h2
      exact b14 n1 n2 lc1 lc2 h1 h2 h3
    · intro n hnlt
      rw [ha3len] at hnlt
      by_cases hlt : n < a.states.length
      · obtain ⟨v, hv⟩ := ht.reachAll n hlt
        refine ⟨v, ?_⟩
        rw [ha3w, ha3i]
        exact hwext v a.initial n hv
      · obtain ⟨v, hv⟩ := b17 n (by omega) hnlt
        refine ⟨v, ?_⟩
        rw [ha3w, ha3i]
        exact hv
    · intro q l t hq
      rw [ha3t q] at hq
      obtain ⟨pr, hpr, hpr1, hpr2⟩ := b15 q l t hq
      refine ⟨pr, ?_, hpr1, hpr2⟩
      rw [ha3p t]
      exact hpr
  · intro v
    rw [acceptWord_eq_acceptFrom, acceptWord_eq_acceptFrom]
    rw [acceptFrom, acceptFrom, ha3i, ha3w]
    constructor
    · intro hacc
      cases hwv : walk a1 a.initial v with
      | none => rw [hwv] at hacc; cases hacc
      | some t =>
        rw [hwv] at hacc
        simp only at hacc
        by_cases htm : t = m
        · right
          rw [htm] at hwv
          exact walk_inj a1 b14 hrt1 v w m (by rw [b2]; exact hwv)
            (by rw [b2]; exact b8)
        · rw [ha3f t htm, b4 t] at hacc
          left
          have htlt : t < a.states.length := by
            by_contra hc
            push_neg at hc
            rw [hGet_ge a t hc] at hacc
            cases hacc
          have := walk_back a a1 ht.range hchar hstay v a.initial t htlt hwv
          rw [this]
          exact hacc
    · intro hor
      rcases hor with hacc | hvw
      · cases hwv : walk a a.initial v with
        | none => rw [hwv] at hacc; cases hacc
        | some t =>
          rw [hwv] at hacc
          simp only at hacc
          have h1 := hwext v a.initial t hwv
          rw [h1]
          simp only
          by_cases htm : t = m
          · rw [htm]
            exact ha3fm
          · rw [ha3f t htm, b4 t]
            exact hacc
      · rw [hvw, b8]
        exact ha3fm

theorem hGet_emptyA (n : Nat) : hGet emptyA n = StateData.fresh := by
  cases n with
  | zero => rfl
  | succ k => exact hGet_ge emptyA (k + 1) (by simp [emptyA])

theorem emptyA_trie : IsTrie emptyA := by
  refine ⟨rfl, by simp [emptyA], rfl, ?_, ?_, ?_, ?_, ?_, ?_, ?_, ?_, ?_, ?_⟩
  · intro n
    rw [hGet_emptyA n]
    exact ⟨fun lc h => absurd h (by simp [StateData.fresh]),
      fun pr h => absurd h (by simp [StateData.fresh])⟩
  · intro n
    rw [hGet_emptyA n]
    simp [StateData.fresh]
  · intro n pr h
    rw [hGet_emptyA n] at h
    exact absurd h (by simp [StateData.fresh])
  · intro s _ pr h
    rw [hGet_emptyA s] at h
    exact absurd h (by simp [StateData.fresh])
  · intro n lc h
    rw [hGet_emptyA n] at h
    exact absurd h (by simp [StateData.fresh])
  · intro n h1 h2 h3
    exfalso
    simp [emptyA] at h1
    rw [h1] at h2
    exact h2 rfl
  · intro h
    exfalso
    simp [emptyA] at h
  · intro n1 n2 lc1 lc2 h1 _ _
    rw [hGet_emptyA n1] at h1
    exact absurd h1 (by simp [StateData.fresh])
  · intro n h
    simp only [emptyA] at h
    simp only [List.length_singleton] at h
    have : n = 0 := by omega
    rw [this]
    exact ⟨[], rfl⟩
  · intro q l t h
    rw [hGet_emptyA q] at h
    simp [StateData.fresh, alookup] at h

theorem acceptWord_emptyA (v : List Char) : acceptWord emptyA v = false := by
  rw [acceptWord_eq_acceptFrom]
  cases v with
  | nil =>
    rw [acceptFrom_nil]
    rw [hGet_emptyA]
    rfl
  | cons l v =>
    rw [acceptFrom_cons]
    rw [hGet_emptyA]
    rfl

theorem buildGo_main :
    ∀ (ws : List (List Char)) (a : Automaton), IsTrie a →
      IsTrie (ws.foldl
          (fun a w => match addWord a w with | .ok a1 => a1 | .error _ => a) a)
        ∧ ∀ v, acceptWord (ws.foldl
            (fun a w => match addWord a w with | .ok a1 => a1 | .error _ => a) a)
              v = true
          ↔ (acceptWord a v = true ∨ v ∈ ws) := by
  intro ws
  induction ws with
  | nil =>
    intro a ht
    exact ⟨ht, fun v => by simp⟩
  | cons w ws ih =>
    intro a ht
    obtain ⟨a3, hok, ht3, _, hlang⟩ := addWord_main a w ht
    have hstep : (List.foldl
        (fun a w => match addWord a w with | .ok a1 => a1 | .error _ => a)
        a (w :: ws))
        = List.foldl
          (fun a w => match addWord a w with | .ok a1 => a1 | .error _ => a)
          a3 ws := by
      rw [List.foldl_cons]
      simp only [hok]
    rw [hstep]
    obtain ⟨htf, hlangf⟩ := ih a3 ht3
    refine ⟨htf, ?_⟩
    intro v
    rw [hlangf v, hlang v]
    simp only [List.mem_cons]
    tauto

theorem buildA_trie (ws : List (List Char)) : IsTrie (buildA ws) :=
  (buildGo_main ws emptyA emptyA_trie).1

theorem buildA_language (ws : List (List Char)) (v : List Char) :
    acceptWord (buildA ws) v = true ↔ v ∈ ws := by
  have h := (buildGo_main ws emptyA emptyA_trie).2 v
  rw [buildA]
  rw [h, acceptWord_emptyA]
  simp

theorem markWeight_cons (a : Automaton) (s : Nat) (marked : List Nat)
    (hs : s ∉ marked) (hlt : s < a.states.length) :
    markWeight a marked
      = markWeight a (s :: marked) + ((hGet a s).transitions.length + 1) := by
  unfold markWeight
  have hset : (Finset.range a.states.length).filter (fun i => i ∉ marked)
      = insert s ((Finset.range a.states.length).filter
          (fun i => i ∉ s :: marked)) := by
    ext i
    simp only [Finset.mem_filter, Finset.mem_range, Finset.mem_insert,
      List.mem_cons]
    constructor
    · rintro ⟨h1, h2⟩
      by_cases hi : i = s
      · exact Or.inl hi
      · exact Or.inr ⟨h1, by tauto⟩
    · rintro (rfl | ⟨h1, h2⟩)
      · exact ⟨hlt, hs⟩
      · exact ⟨h1, fun hc => h2 (Or.inr hc)⟩
  rw [hset, Finset.sum_insert (by simp [List.mem_cons])]
  omega

theorem markWeight_cons_ge (a : Automaton) (s : Nat) (marked : List Nat)
    (h : a.states.length ≤ s) :
    markWeight a (s :: marked) = markWeight a marked := by
  unfold markWeight
  congr 1
  ext i
  simp only [Finset.mem_filter, Finset.mem_range, List.mem_cons]
  constructor
  · rintro ⟨h1, h2⟩
    exact ⟨h1, fun hc => h2 (Or.inr hc)⟩
  · rintro ⟨h1, h2⟩
    refine ⟨h1, ?_⟩
    rintro (rfl | hc)
    · omega
    · exact h2 hc

theorem markGo_run (a : Automaton) :
    ∀ (fuel : Nat) (stack marked : List Nat),
      markWeight a marked + stack.length < fuel →
      (markGo a fuel stack marked).Nodup
      ∧ (∀ x ∈ markGo a fuel stack marked, x ∉ marked)
      ∧ (∀ x ∈ markGo a fuel stack marked, x ∈ stack
          ∨ ∃ n ∈ markGo a fuel stack marked,
              ∃ lc ∈ (hGet a n).transitions, lc.2 = x)
      ∧ (∀ x ∈ stack, x ∈ markGo a fuel stack marked ∨ x ∈ marked)
      ∧ ((∀ x ∈ marked, ∀ lc ∈ (hGet a x).transitions,
            lc.2 ∈ marked ∨ lc.2 ∈ stack) →
          ∀ x, (x ∈ markGo a fuel stack marked ∨ x ∈ marked) →
            ∀ lc ∈ (hGet a x).transitions,
              lc.2 ∈ markGo a fuel stack marked ∨ lc.2 ∈ marked) := by
  intro fuel
  induction fuel with
  | zero =>
    intro stack marked h
    exact absurd h (by omega)
  | succ fuel ih =>
    intro stack marked h
    cases stack with
    | nil =>
      simp only [markGo]
      refine ⟨List.nodup_nil, by simp, by simp, by simp, ?_⟩
      intro hcl x hx lc hlc
      rcases hx with hx | hx
      · cases hx
      · rcases hcl x hx lc hlc with h1 | h1
        · exact Or.inr h1
        · cases h1
    | cons s stack =>
      by_cases hsm : s ∈ marked
      · have heq : markGo a (fuel + 1) (s :: stack) marked
            = markGo a fuel stack marked := by
          simp only [markGo, if_pos hsm]
        rw [heq]
        have hpot : markWeight a marked + stack.length < fuel := by
          simp only [List.length_cons] at h
          omega
        obtain ⟨i1, i2, i3, i4, i5⟩ := ih stack marked hpot
        refine ⟨i1, i2, ?_, ?_, ?_⟩
        · intro x hx
          rcases i3 x hx with h1 | h1
          · exact Or.inl (List.mem_cons_of_mem _ h1)
          · exact Or.inr h1
        · intro x hx
          rcases List.mem_cons.1 hx with rfl | hx1
          · exact Or.inr hsm
          · exact i4 x hx1
        · intro hcl
          refine i5 ?_
          intro x hx lc hlc
          rcases hcl x hx lc hlc with h1 | h1
          · exact Or.inl h1
          · rcases List.mem_cons.1 h1 with rfl | h2
            · exact Or.inl hsm
            · exact Or.inr h2
      · have heq : markGo a (fuel + 1) (s :: stack) marked
            = s :: markGo a fuel
                (((hGet a s).transitions.map Prod.snd).reverse ++ stack)
                (s :: marked) := by
          simp only [markGo, if_neg hsm]
        have hpot : markWeight a (s :: marked)
            + (((hGet a s).transitions.map Prod.snd).reverse ++ stack).length
            < fuel := by
          simp only [List.length_append, List.length_reverse,
            List.length_map, List.length_cons] at h ⊢
          by_cases hlt : s < a.states.length
          · have := markWeight_cons a s marked hsm hlt
            omega
          · push_neg at hlt
            rw [markWeight_cons_ge a s marked hlt]
            have htr : (hGet a s).transitions = [] := by
              rw [hGet_ge a s hlt]
              rfl
            rw [htr]
            simp only [List.length_nil]
            omega
        obtain ⟨i1, i2, i3, i4, i5⟩ := ih _ (s :: marked) hpot
        rw [heq]
        have hchild : ∀ lc ∈ (hGet a s).transitions,
            lc.2 ∈ ((hGet a s).transitions.map Prod.snd).reverse ++ stack := by
          intro lc hlc
          refine List.mem_append_left _ ?_
          rw [List.mem_reverse]
          exact List.mem_map.2 ⟨lc, hlc, rfl⟩
        refine ⟨?_, ?_, ?_, ?_, ?_⟩
        · refine List.nodup_cons.2 ⟨?_, i1⟩
          intro hc
          exact i2 s hc (List.mem_cons_self _ _)
        · intro x hx
          rcases List.mem_cons.1 hx with rfl | hx1
          · exact hsm
          · have := i2 x hx1
            intro hc
            exact this (List.mem_cons_of_mem _ hc)
        · intro x hx
          rcases List.mem_cons.1 hx with rfl | hx1
          · exact Or.inl (List.mem_cons_self _ _)
          · rcases i3 x hx1 with h1 | ⟨n, hn, lc, hlc, hlct⟩
            · rcases List.mem_append.1 h1 with h2 | h2
              · rw [List.mem_reverse] at h2
                obtain ⟨lc, hlc, hlct⟩ := List.mem_map.1 h2
                exact Or.inr ⟨s, List.mem_cons_self _ _, lc, hlc, hlct⟩
              · exact Or.inl (List.mem_cons_of_mem _ h2)
            · exact Or.inr ⟨n, List.mem_cons_of_mem _ hn, lc, hlc, hlct⟩
        · intro x hx
          rcases List.mem_cons.1 hx with rfl | hx1
          · exact Or.inl (List.mem_cons_self _ _)
          · rcases i4 x (List.mem_append_right _ hx1) with h1 | h1
            · exact Or.inl (List.mem_cons_of_mem _ h1)
            · rcases List.mem_cons.1 h1 with rfl | h2
              · exact Or.inl (List.mem_cons_self _ _)
              · exact Or.inr h2
        · intro hcl x hx lc hlc
          have hcl2 : ∀ y ∈ s :: marked, ∀ lc2 ∈ (hGet a y).transitions,
              lc2.2 ∈ s :: marked
                ∨ lc2.2 ∈ ((hGet a s).transitions.map Prod.snd).reverse
                    ++ stack := by
            intro y hy lc2 hlc2
            rcases List.mem_cons.1 hy with rfl | hy1
            · exact Or.inr (hchild lc2 hlc2)
            · rcases hcl y hy1 lc2 hlc2 with h1 | h1
              · exact Or.inl (List.mem_cons_of_mem _ h1)
              · rcases List.mem_cons.1 h1 with rfl | h2
                · exact Or.inl (List.mem_cons_self _ _)
                · exact Or.inr (List.mem_append_right _ h2)
          have hx2 : x ∈ markGo a fuel
              (((hGet a s).transitions.map Prod.snd).reverse ++ stack)
              (s :: marked) ∨ x ∈ s :: marked := by
            rcases hx with hx | hx
            · rcases List.mem_cons.1 hx with rfl | hx1
              · exact Or.inr (List.mem_cons_self _ _)
              · exact Or.inl hx1
            · exact Or.inr (List.mem_cons_of_mem _ hx)
          rcases i5 hcl2 x hx2 lc hlc with h1 | h1
          · exact Or.inl (List.mem_cons_of_mem _ h1)
          · rcases List.mem_cons.1 h1 with rfl | h2
            · exact Or.inl (List.mem_cons_self _ _)
            · exact Or.inr h2

theorem foldl_add_trans (c : Nat) :
    ∀ (l : List StateData),
      l.foldl (fun acc sd => acc + sd.transitions.length) c
        = c + (l.map (fun sd => sd.transitions.length)).sum := by
  intro l
  induction l generalizing c with
  | nil => simp
  | cons x xs ih =>
    simp only [List.foldl_cons, List.map_cons, List.sum_cons]
    rw [ih]
    omega

theorem sum_range_getD_trans :
    ∀ (l : List StateData),
      (∑ i ∈ Finset.range l.length, (l.getD i StateData.fresh).transitions.length)
        = (l.map (fun sd => sd.transitions.length)).sum := by
  intro l
  induction l with
  | nil => simp
  | cons x xs ih =>
    simp only [List.length_cons, List.map_cons, List.sum_cons]
    rw [Finset.sum_range_succ']
    simp only [List.getD_cons_succ, List.getD_cons_zero]
    rw [ih]
    omega

theorem markWeight_nil (a : Automaton) :
    markWeight a [] = edgeCount a + a.states.length := by
  unfold markWeight edgeCount
  have h1 : (Finset.range a.states.length).filter (fun i => i ∉ ([] : List Nat))
      = Finset.range a.states.length := by
    ext i
    simp
  rw [h1]
  rw [Finset.sum_add_distrib]
  simp only [Finset.sum_const, smul_eq_mul, mul_one, Finset.card_range]
  rw [foldl_add_trans 0 a.states]
  rw [← sum_range_getD_trans a.states]
  unfold hGet
  omega

theorem markYields_spec (a : Automaton) :
    (markYields a).Nodup
    ∧ (∀ x ∈ markYields a, x = a.initial
        ∨ ∃ n ∈ markYields a, ∃ lc ∈ (hGet a n).transitions, lc.2 = x)
    ∧ a.initial ∈ markYields a
    ∧ (∀ x ∈ markYields a, ∀ lc ∈ (hGet a x).transitions,
        lc.2 ∈ markYields a) := by
  have hpot : markWeight a [] + [a.initial].length < markFuel a := by
    rw [markWeight_nil]
    unfold markFuel
    simp
  obtain ⟨i1, i2, i3, i4, i5⟩ := markGo_run a (markFuel a) [a.initial] [] hpot
  refine ⟨i1, ?_, ?_, ?_⟩
  · intro x hx
    rcases i3 x hx with h1 | h1
    · exact Or.inl (List.mem_singleton.1 h1)
    · exact Or.inr h1
  · rcases i4 a.initial (List.mem_singleton.2 rfl) with h1 | h1
    · exact h1
    · cases h1
  · intro x hx lc hlc
    rcases i5 (by intro y hy; cases hy) x (Or.inl hx) lc hlc with h1 | h1
    · exact h1
    · cases h1
theorem markYields_lt (a : Automaton) (hrg : RangeB a.states.length a)
    (hinit : a.initial < a.states.length) :
    ∀ x ∈ markYields a, x < a.states.length := by
  intro x hx
  rcases (markYields_spec a).2.1 x hx with h1 | ⟨n, _, lc, hlc, hlct⟩
  · omega
  · have := (hrg n).1 lc hlc
    omega

theorem markYields_complete (a : Automaton) :
    ∀ (v : List Char) (x t : Nat), x ∈ markYields a →
      walk a x v = some t → t ∈ markYields a := by
  intro v
  induction v with
  | nil =>
    intro x t hx h
    rw [walk_nil] at h
    injection h with h
    rw [← h]
    exact hx
  | cons l v ih =>
    intro x t hx h
    rw [walk_cons] at h
    cases hl : alookup (hGet a x).transitions l with
    | none => rw [hl] at h; cases h
    | some u =>
      rw [hl] at h
      simp only at h
      have hu : u ∈ markYields a :=
        (markYields_spec a).2.2.2 x hx (l, u) (mem_of_alookup_eq_some _ l u hl)
      exact ih u t hu h

theorem getLeaves_sub (a : Automaton) :
    ∀ x ∈ getLeaves a, x ∈ markYields a ∧ (hGet a x).transitions = [] := by
  intro x hx
  unfold getLeaves at hx
  rw [List.mem_filter] at hx
  refine ⟨hx.1, ?_⟩
  have := hx.2
  rwa [List.isEmpty_iff] at this

theorem getLeaves_trie (a : Automaton) (ht : IsTrie a) :
    getLeaves a ≠ []
    ∧ (∀ x ∈ getLeaves a, x < a.states.length
        ∧ (hGet a x).transitions = []
        ∧ (hGet a x).is_final = (hGet a (a.states.length - 1)).is_final) := by
  have hinit : a.initial < a.states.length := by
    rw [ht.init0]; exact ht.posLen
  have hlast : a.states.length - 1 ∈ getLeaves a := by
    have hr : a.states.length - 1 < a.states.length := by
      have := ht.posLen
      omega
    obtain ⟨v, hv⟩ := ht.reachAll _ hr
    have hy : a.states.length - 1 ∈ markYields a :=
      markYields_complete a v a.initial _ (markYields_spec a).2.2.1 hv
    have htr : (hGet a (a.states.length - 1)).transitions = [] := by
      cases htc : (hGet a (a.states.length - 1)).transitions with
      | nil => rfl
      | cons lc rest =>
        exfalso
        have h1 : lc ∈ (hGet a (a.states.length - 1)).transitions := by
          rw [htc]; exact List.mem_cons_self _ _
        have h2 := ht.edgeIncr _ lc h1
        have h3 := (ht.range _).1 lc h1
        omega
    unfold getLeaves
    rw [List.mem_filter]
    exact ⟨hy, by rw [htr]; rfl⟩
  constructor
  · exact List.ne_nil_of_mem hlast
  · intro x hx
    obtain ⟨hy, htr⟩ := getLeaves_sub a x hx
    have hxlt : x < a.states.length := markYields_lt a ht.range hinit x hy
    refine ⟨hxlt, htr, ?_⟩
    by_cases hroot : 1 < a.states.length
    · have hxf : (hGet a x).is_final = true := by
        refine ht.leafFinal x hxlt ?_ htr
        rw [ht.init0]
        intro hc
        rw [hc] at htr
        exact ht.rootTrans hroot htr
      have hlf : (hGet a (a.states.length - 1)).is_final = true := by
        refine ht.leafFinal _ (by omega) ?_ ?_
        · rw [ht.init0]
          omega
        · obtain ⟨_, h2⟩ := getLeaves_sub a _ hlast
          exact h2
      rw [hxf, hlf]
    · have hx0 : x = 0 := by
        have := ht.posLen
        omega
      have hl0 : a.states.length - 1 = 0 := by
        have := ht.posLen
        omega
      rw [hx0, hl0]

theorem noSelf_of_edgeIncr (a : Automaton) (h : EdgeIncr a) : NoSelf a := by
  intro n lc hlc
  have := h n lc hlc
  omega

theorem map_fst_eq_nil {κ β : Type} (l : List (κ × β))
    (h : l.map Prod.fst = []) : l = [] := by
  cases l with
  | nil => rfl
  | cons x xs => cases h

theorem compressFull_main (a : Automaton) (ht : IsTrie a) (fuel : Nat) :
    (∀ e, compressFull a fuel ≠ .err e)
    ∧ (∀ g, compressFull a fuel = .done g →
        g.initial = a.initial
        ∧ a.states.length ≤ g.states.length
        ∧ g.compressed = true
        ∧ ∀ (w : List Char), acceptWord g w = acceptWord a w) := by
  obtain ⟨hlne, hlprop⟩ := getLeaves_trie a ht
  have hns0 : NoSelf a := noSelf_of_edgeIncr a ht.edgeIncr
  obtain ⟨l0, lrest, hleq⟩ : ∃ l0 lrest, getLeaves a = l0 :: lrest := by
    cases hc : getLeaves a with
    | nil => exact absurd hc hlne
    | cons x xs => exact ⟨x, xs, rfl⟩
  have hlmem : ∀ s ∈ l0 :: lrest, s < a.states.length
      ∧ (hGet a s).transitions = []
      ∧ (hGet a s).is_final = (hGet a (a.states.length - 1)).is_final := by
    intro s hs
    exact hlprop s (by rw [hleq]; exact hs)
  have hin : ∀ s ∈ l0 :: lrest, s < a.states.length :=
    fun s hs => (hlmem s hs).1
  have heqt : ∀ s ∈ l0 :: lrest,
      (hGet a s).transitions = (hGet a l0).transitions := by
    intro s hs
    rw [(hlmem s hs).2.1, (hlmem l0 (List.mem_cons_self _ _)).2.1]
  have heqf : ∀ s ∈ l0 :: lrest,
      (hGet a s).is_final = (hGet a l0).is_final := by
    intro s hs
    rw [(hlmem s hs).2.2, (hlmem l0 (List.mem_cons_self _ _)).2.2]
  have haccm : ∀ s ∈ l0 :: lrest, ∀ pr ∈ (hGet a s).parents, ∀ l ∈ pr.2,
      alookup (hGet a pr.1).transitions l = some s :=
    fun s _ => ht.accurate s (by simp)
  obtain ⟨a1, hok, c1, c2, c3, c4, c5, c6, c7, c8, c9, c10, c11, c12⟩ :=
    mergeStates_main a l0 lrest hin heqt heqf haccm
      (fun s hs pr hpr => (ht.range s).2 pr hpr)
      (fun s hs lc hlc => hns0 s lc hlc)
      (by rw [(hlmem l0 (List.mem_cons_self _ _)).2.1]; exact List.nodup_nil)
      (fun s hs pr hpr => ht.parentsNE s pr hpr)
      (fun s hs => (ht.keysND s).2)
  set nid := a.states.length with hnid
  have hfull : compressFull a fuel = compressLoop a1 fuel [nid] [] := by
    unfold compressFull
    rw [hleq, hok]
  have F4 : KeysNodup a1 := mergeStates_keysnodup a a1 l0 lrest hok ht.keysND
  have F5 : ∀ pr ∈ (hGet a1 nid).parents,
      ∃ m ∈ l0 :: lrest, pr ∈ (hGet a m).parents :=
    parents_char_mem a a1 nid (l0 :: lrest) (F4 nid).2 c3
  have F6 : RangeB a1.states.length a1 := by
    intro n
    constructor
    · intro lc hlc
      by_cases hn : n = nid
      · rw [hn, c1] at hlc
        have := (ht.range l0).1 lc hlc
        omega
      · rcases c12 n hn lc hlc with hold | h1
        · have := (ht.range n).1 lc hold
          omega
        · omega
    · intro pr hpr
      by_cases hn : n = nid
      · rw [hn] at hpr
        obtain ⟨m, hm, hmem⟩ := F5 pr hpr
        have := (ht.range m).2 pr hmem
        omega
      · rw [c7 n hn] at hpr
        have := (ht.range n).2 pr hpr
        omega
  have F7 : NoSelf a1 := by
    intro n lc hlc
    by_cases hn : n = nid
    · rw [hn] at hlc ⊢
      rw [c1] at hlc
      have := (ht.range l0).1 lc hlc
      omega
    · rcases c12 n hn lc hlc with hold | h1
      · exact hns0 n lc hold
      · rw [h1]
        exact fun hc => hn hc.symm
  have F8 : ParentsNE a1 := by
    intro n pr hpr
    by_cases hn : n = nid
    · rw [hn] at hpr
      obtain ⟨m, hm, hmem⟩ := F5 pr hpr
      exact ht.parentsNE m pr hmem
    · rw [c7 n hn] at hpr
      exact ht.parentsNE n pr hpr
  have F9 : Accurate a1 (l0 :: lrest) := by
    intro s hs pr hpr l hl
    by_cases hsn : s = nid
    · rw [hsn] at hpr
      obtain ⟨m, hm, hmem⟩ := F5 pr hpr
      rw [hsn]
      exact c9 m hm pr hmem l hl
    · rw [c7 s hsn] at hpr
      have hold := ht.accurate s (by simp) pr hpr l hl
      have hq1 : pr.1 ≠ nid := by
        have := (ht.range s).2 pr hpr
        omega
      have hnr : ¬ RecordedIn a (l0 :: lrest) pr.1 l := by
        rintro ⟨m, hm, pr', hpr', hpr1, hl'⟩
        have h1 := haccm m hm pr' hpr' l hl'
        rw [hpr1, hold] at h1
        have hsm : s = m := by injection h1
        rw [hsm] at hs
        exact hs hm
      rw [c10 pr.1 l hq1 hnr]
      exact hold
  have hdeadtr : ∀ x ∈ l0 :: lrest, (hGet a1 x).transitions = [] := by
    intro x hx
    have hxne : x ≠ nid := by
      have := hin x hx
      omega
    refine map_fst_eq_nil _ ?_
    rw [c11 x hxne, (hlmem x hx).2.1]
    rfl
  have hinv : LoopInv a1 [] [nid] (l0 :: lrest) := by
    refine ⟨F6, F7, F4, F8, F9, by simp, ?_, ?_, by simp, ?_, ?_,
      List.nodup_singleton _, by simp, ?_, by simp⟩
    · intro x hx
      rw [List.mem_singleton] at hx
      rw [hx]
      omega
    · intro x hx
      have := hin x hx
      omega
    · intro x hx lc hlc
      rw [hdeadtr x hx] at hlc
      cases hlc
    · intro x hx lc hlc
      rw [List.mem_singleton] at hx
      rw [hx, c1, (hlmem l0 (List.mem_cons_self _ _)).2.1] at hlc
      cases hlc
    · intro x hx hc
      rw [List.mem_singleton] at hc
      have := hin x hx
      omega
  obtain ⟨hnoerr, hdone⟩ := compressLoop_main fuel a1 [nid] [] (l0 :: lrest) hinv
  have hfresh : ∀ n, ∀ lc ∈ (hGet a n).transitions, lc.2 ≠ nid := by
    intro n lc hlc
    have := (ht.range n).1 lc hlc
    omega
  have haccb := accept_of_char a a1 nid l0 (l0 :: lrest)
    (List.mem_cons_self _ _) hfresh heqt heqf haccm c1 c2 c8 c9 c10
  constructor
  · intro e hc
    rw [hfull] at hc
    exact hnoerr e hc
  · intro g hg
    rw [hfull] at hg
    obtain ⟨d1, d2, d3, d4⟩ := hdone g hg
    have hinitlt : a.initial < a.states.length := by
      rw [ht.init0]
      exact ht.posLen
    refine ⟨d1.trans c5, by omega, d3, ?_⟩
    intro w
    rw [acceptWord_eq_acceptFrom, acceptWord_eq_acceptFrom]
    have h1 := d4 w a.initial (by omega)
    have h2 := (haccb w).1 a.initial (by omega)
    rw [d1, c5, h1, h2]

/-- C1: language preservation across minimization.  For every graph built
by a sequence of insertions, every inserted word is accepted both before
and after a completed `compress`, and every word never inserted is
rejected both before and after. -/
theorem compress_preserves_language (ws : List (List Char)) (fuel : Nat)
    (g : Automaton) (hg : compressFull (buildA ws) fuel = .done g)
    (w : List Char) :
    (w ∈ ws → acceptWord (buildA ws) w = true ∧ acceptWord g w = true)
    ∧ (w ∉ ws → acceptWord (buildA ws) w = false
        ∧ acceptWord g w = false) := by
  have hlang := buildA_language ws w
  have hp := ((compressFull_main (buildA ws) (buildA_trie ws) fuel).2 g
    hg).2.2.2 w
  constructor
  · intro hw
    have h1 : acceptWord (buildA ws) w = true := hlang.2 hw
    exact ⟨h1, by rw [hp, h1]⟩
  · intro hw
    have h1 : acceptWord (buildA ws) w = false := by
      cases hacc : acceptWord (buildA ws) w with
      | false => rfl
      | true => exact absurd (hlang.1 hacc) hw
    exact ⟨h1, by rw [hp, h1]⟩

theorem compress_preserves_language_witness :
    compressFull (buildA [['a']]) 10
        = .done ⟨[⟨false, [('a', 2)], []⟩,
                  ⟨true, [], [(0, ['a'])]⟩,
                  ⟨true, [], [(0, ['a'])]⟩], 0, true⟩
    ∧ (['a'] ∈ [['a']] →
        acceptWord (buildA [['a']]) ['a'] = true
        ∧ acceptWord (⟨[⟨false, [('a', 2)], []⟩,
            ⟨true, [], [(0, ['a'])]⟩,
            ⟨true, [], [(0, ['a'])]⟩], 0, true⟩ : Automaton) ['a'] = true) :=
  ⟨by decide,
   (compress_preserves_language [['a']] 10
      ⟨[⟨false, [('a', 2)], []⟩, ⟨true, [], [(0, ['a'])]⟩,
        ⟨true, [], [(0, ['a'])]⟩], 0, true⟩ (by decide) ['a']).1⟩

/-- C2: a fuse failure never actually occurs during `compress` on a graph
built by insertions, so minimization never stops in a partially merged
error state: it either completes fully (or, in this bounded embedding of
the unbounded `while` loop, runs out of fuel), and the conditional
"if a fuse raises, the graph is left unmutated" is vacuously satisfied. -/
theorem compress_no_partial_failure (ws : List (List Char)) (fuel : Nat) :
    (∃ g, compressFull (buildA ws) fuel = .done g)
      ∨ compressFull (buildA ws) fuel = .outOfFuel := by
  have h := (compressFull_main (buildA ws) (buildA_trie ws) fuel).1
  cases hc : compressFull (buildA ws) fuel with
  | done g => exact Or.inl ⟨g, rfl⟩
  | err e => exact absurd hc (h e)
  | outOfFuel => exact Or.inr rfl

theorem fused_sublist (gs : List (Sig × List Nat)) :
    (fused gs).Sublist (members gs) := by
  induction gs with
  | nil => exact List.Sublist.refl _
  | cons e rest ih =>
    rw [fused_cons, members_cons]
    refine List.Sublist.append ?_ ih
    by_cases h : 1 < e.2.length
    · rw [if_pos h]
    · rw [if_neg h]
      exact List.nil_sublist _

theorem popStepC (a : Automaton) (mk qrest dead : List Nat) (s : Nat)
    (orig : Nat)
    (hinv : LoopInv a mk (s :: qrest) dead)
    (hc9 : C9Inv a orig mk dead) :
    ∃ a' reps, popStep a mk s = .ok (a', reps)
      ∧ C9Inv a' orig (s :: mk)
          (fused (buildSigs a (s :: mk) (hGet a s).parents []) ++ dead)
      ∧ (∀ q, q < a.states.length → ((hGet a' q).transitions.map Prod.fst)
          = ((hGet a q).transitions.map Prod.fst))
      ∧ (∀ (r : Nat → Nat) (RB : Nat),
          (∀ n, ∀ lc ∈ (hGet a n).transitions, r lc.2 < r n) →
          (∀ n, r n ≤ RB) →
          ∃ r2 : Nat → Nat,
            (∀ n, ∀ lc ∈ (hGet a' n).transitions, r2 lc.2 < r2 n)
            ∧ (∀ n, r2 n ≤ RB)) := by
  obtain ⟨hrange, hns, hkn, hpne, hacc, hmkle, hqle, hdle, hmkcl, hdcl, hqcl,
    hqnd, hmkq, hdq, hdmk⟩ := hinv
  obtain ⟨horig, hro, huc, hdni, hdnd, hdo, hk1, hk2⟩ := hc9
  have hsnd : s ∉ dead := fun hc => hdq s hc (List.mem_cons_self _ _)
  have hslt : s < a.states.length := hqle s (List.mem_cons_self _ _)
  set gs := buildSigs a (s :: mk) (hGet a s).parents [] with hgs
  have hmemiff : ∀ p, p ∈ members gs ↔
      p ∈ (hGet a s).parents.map Prod.fst
        ∧ eligible a (s :: mk) p = true := by
    intro p
    rw [members, List.mem_flatMap, hgs,
      buildSigs_mem a (s :: mk) (hGet a s).parents [] p]
    simp
  have hedge : ∀ p ∈ members gs,
      ∃ l, alookup (hGet a p).transitions l = some s := by
    intro p hp
    obtain ⟨hpk, _⟩ := (hmemiff p).1 hp
    rw [List.mem_map] at hpk
    obtain ⟨pr, hpr, hpr1⟩ := hpk
    obtain ⟨l, hl⟩ := List.exists_mem_of_ne_nil _ (hpne s pr hpr)
    have h1 := hacc s hsnd pr hpr l hl
    rw [hpr1] at h1
    exact ⟨l, h1⟩
  have hmM : ∀ p ∈ members gs, p ∉ s :: mk := by
    intro p hp hc
    obtain ⟨l, hl⟩ := hedge p hp
    have hmem : (l, s) ∈ (hGet a p).transitions :=
      mem_of_alookup_eq_some _ l s hl
    rcases List.mem_cons.1 hc with hps | hcm
    · exact hns p (l, s) hmem hps.symm
    · exact hmkq s (hmkcl p hcm (l, s) hmem) (List.mem_cons_self _ _)
  have hmD : ∀ p ∈ members gs, p ∉ dead := by
    intro p hp hc
    obtain ⟨l, hl⟩ := hedge p hp
    exact hmkq s (hdcl p hc (l, s) (mem_of_alookup_eq_some _ l s hl))
      (List.mem_cons_self _ _)
  have hmlt : ∀ p ∈ members gs, p < a.states.length := by
    intro p hp
    obtain ⟨hpk, _⟩ := (hmemiff p).1 hp
    rw [List.mem_map] at hpk
    obtain ⟨pr, hpr, hpr1⟩ := hpk
    have := (hrange s).2 pr hpr
    omega
  have hmorig : ∀ p ∈ members gs, p < orig := by
    intro p hp
    obtain ⟨hpk, _⟩ := (hmemiff p).1 hp
    rw [List.mem_map] at hpk
    obtain ⟨pr, hpr, hpr1⟩ := hpk
    have := hro s pr hpr
    omega
  have hmelig : ∀ p ∈ members gs, ∀ lc ∈ (hGet a p).transitions,
      lc.2 ∈ s :: mk := by
    intro p hp lc hlc
    obtain ⟨_, he⟩ := (hmemiff p).1 hp
    simp only [eligible, List.all_eq_true] at he
    simpa using he lc hlc
  obtain ⟨a', reps, hok, plen, pinit, pcomp, pacc, prange, pns, pkn, ppne,
    paccu, punt, prep1, prep2, pnodup, c_ent, c_rec, c_par, c_keys, c_val,
    c_w1, c_cnt, c_pos, c_rank⟩ :=
    processGroups_main (s :: mk) gs a dead hrange hns hkn hpne hacc
      (buildSigs_nonempty a (s :: mk) (hGet a s).parents []
        (by intro e he; cases he))
      hmlt
      (buildSigs_sig a (s :: mk) (hGet a s).parents []
        (by intro e he; cases he))
      hmelig
      (buildSigs_members_nodup a (s :: mk) (hGet a s).parents (hkn s).2)
      hmM hmD
  have hfna : ∀ x ∈ fused gs, x < orig :=
    fun x hx => hmorig x (fused_sub gs x hx)
  refine ⟨a', reps, ?_, ?_, fun q hq => c_keys q hq, c_rank⟩
  · simp only [popStep]
    rw [← hgs]
    exact hok
  · refine ⟨by omega, ?_, ?_, ?_, ?_, ?_, ?_, ?_⟩
    · intro n pr hpr
      obtain ⟨n0, hn0⟩ := c_rec n pr hpr
      exact hro n0 pr hn0
    · intro q l t hto htd htm hlk
      have hmem := mem_of_alookup_eq_some _ l t hlk
      rcases c_ent q (l, t) hmem with h1 | h1 | h1
      · have hlka : alookup (hGet a q).transitions l = some t :=
          alookup_of_mem_nodup _ l t (hkn q).1 h1
        have htd0 : t ∉ dead := fun hc => htd (List.mem_append_right _ hc)
        have htm0 : t ∉ mk := fun hc => htm (List.mem_cons_of_mem _ hc)
        obtain ⟨pr, hpr, hpr1, hpr2⟩ := huc q l t hto htd0 htm0 hlka
        refine ⟨pr, ?_, hpr1, hpr2⟩
        rw [c_par t (by omega)]
        exact hpr
      · simp only at h1
        omega
      · exact absurd h1 htm
    · intro m hm q l hlk
      have hmem := mem_of_alookup_eq_some _ l m hlk
      rcases List.mem_append.1 hm with hmf | hmd
      · have hmo : m < orig := hfna m hmf
        have hmmem : m ∈ members gs := fused_sub gs m hmf
        rcases c_ent q (l, m) hmem with h1 | h1 | h1
        · have hlka : alookup (hGet a q).transitions l = some m :=
            alookup_of_mem_nodup _ l m (hkn q).1 h1
          obtain ⟨pr, hpr, hpr1, hpr2⟩ := huc q l m hmo (hmD m hmmem)
            (fun hc => hmM m hmmem (List.mem_cons_of_mem _ hc)) hlka
          obtain ⟨t2, ht2, ht2b⟩ := c_w1 m hmf pr hpr l hpr2
          rw [hpr1] at ht2
          rw [hlk] at ht2
          have : m = t2 := by injection ht2
          omega
        · simp only at h1
          omega
        · exact hmM m hmmem h1
      · rcases c_ent q (l, m) hmem with h1 | h1 | h1
        · exact hdni m hmd q l (alookup_of_mem_nodup _ l m (hkn q).1 h1)
        · simp only at h1
          have := hdo m hmd
          omega
        · rcases List.mem_cons.1 h1 with h2 | h2
          · have h3 : m = s := h2
            exact hdq m hmd (by rw [h3]; exact List.mem_cons_self _ _)
          · have h3 : m ∈ mk := h2
            exact hdmk m hmd h3
    · refine List.Nodup.append ?_ hdnd ?_
      · exact List.Nodup.sublist (fused_sublist gs)
          (buildSigs_members_nodup a (s :: mk) (hGet a s).parents (hkn s).2)
      · intro x hx1 hx2
        exact hmD x (fused_sub gs x hx1) hx2
    · intro x hx
      rcases List.mem_append.1 hx with h1 | h1
      · exact hfna x h1
      · exact hdo x h1
    · rw [List.length_append]
      omega
    · intro h0 horig1
      rw [List.length_append]
      rcases List.mem_append.1 h0 with h1 | h1
      · have hpos := c_pos (List.ne_nil_of_mem h1)
        omega
      · have := hk2 h1 horig1
        omega

theorem compressLoopC :
    ∀ (fuel : Nat) (a : Automaton) (q mk dead : List Nat) (orig : Nat),
      LoopInv a mk q dead →
      C9Inv a orig mk dead →
      ∀ g, compressLoop a fuel q mk = .done g →
        ∃ D : List Nat, (∀ m ∈ D, ∀ q0 l, alookup (hGet g q0).transitions l ≠ some m)
          ∧ D.Nodup
          ∧ (∀ x ∈ D, x < orig)
          ∧ g.states.length ≤ orig + D.length
          ∧ (0 ∈ D → 1 < orig → g.states.length + 1 ≤ orig + D.length)
          ∧ KeysNodup g
          ∧ RangeB g.states.length g
          ∧ g.initial = a.initial
          ∧ (∀ q0, q0 < a.states.length →
              ((hGet g q0).transitions.map Prod.fst)
              = ((hGet a q0).transitions.map Prod.fst))
          ∧ orig ≤ g.states.length
          ∧ (∀ (r : Nat → Nat) (RB : Nat),
              (∀ n, ∀ lc ∈ (hGet a n).transitions, r lc.2 < r n) →
              (∀ n, r n ≤ RB) →
              ∃ r2 : Nat → Nat,
                (∀ n, ∀ lc ∈ (hGet g n).transitions, r2 lc.2 < r2 n)
                ∧ (∀ n, r2 n ≤ RB)) := by
  intro fuel
  induction fuel with
  | zero =>
    intro a q mk dead orig hinv hc9 g hg
    cases q with
    | nil =>
      simp only [compressLoop, CRes.done.injEq] at hg
      subst hg
      obtain ⟨hrange, hns, hkn, _⟩ := hinv
      obtain ⟨horig, _, _, hdni, hdnd, hdo, hk1, hk2⟩ := hc9
      exact ⟨dead, fun m hm q0 l => hdni m hm q0 l, hdnd, hdo, hk1, hk2,
        fun n => hkn n, fun n => hrange n, rfl, fun q0 _ => rfl, horig,
        fun r RB h1 h2 => ⟨r, h1, h2⟩⟩
    | cons s qrest =>
      simp only [compressLoop] at hg
      cases hg
  | succ fuel ih =>
    intro a q mk dead orig hinv hc9 g hg
    cases q with
    | nil =>
      simp only [compressLoop, CRes.done.injEq] at hg
      subst hg
      obtain ⟨hrange, hns, hkn, _⟩ := hinv
      obtain ⟨horig, _, _, hdni, hdnd, hdo, hk1, hk2⟩ := hc9
      exact ⟨dead, fun m hm q0 l => hdni m hm q0 l, hdnd, hdo, hk1, hk2,
        fun n => hkn n, fun n => hrange n, rfl, fun q0 _ => rfl, horig,
        fun r RB h1 h2 => ⟨r, h1, h2⟩⟩
    | cons s qrest =>
      obtain ⟨a', reps, hok, hinv', hlen, hinit, hcomp, haccp⟩ :=
        popStep_main a mk qrest dead s hinv
      obtain ⟨a2, reps2, hok2, hc9', hkeys, hrank⟩ :=
        popStepC a mk qrest dead s orig hinv hc9
      rw [hok] at hok2
      injection hok2 with h
      injection h with ha hb
      rw [← ha] at hc9' hkeys hrank
      have heq : compressLoop a (fuel + 1) (s :: qrest) mk
          = compressLoop a' fuel (qrest ++ reps) (s :: mk) := by
        simp only [compressLoop, hok]
      rw [heq] at hg
      obtain ⟨D, d1, d2, d3, d4, d5, d6, d7, d8, d9, d10, d11⟩ :=
        ih a' (qrest ++ reps) (s :: mk) _ orig hinv' hc9' g hg
      refine ⟨D, d1, d2, d3, d4, d5, d6, d7, d8.trans hinit, ?_, d10, ?_⟩
      · intro q0 hq0
        rw [d9 q0 (by omega), hkeys q0 hq0]
      · intro r RB h1 h2
        obtain ⟨r1, hr1a, hr1b⟩ := hrank r RB h1 h2
        exact d11 r1 RB hr1a hr1b

theorem countStates_trie (a : Automaton) (ht : IsTrie a) :
    countStates a = a.states.length := by
  have hinit : a.initial < a.states.length := by
    rw [ht.init0]
    exact ht.posLen
  obtain ⟨h1, h2, h3, h4⟩ := markYields_spec a
  have hset : (markYields a).toFinset = Finset.range a.states.length := by
    ext x
    rw [List.mem_toFinset, Finset.mem_range]
    constructor
    · intro hx
      exact markYields_lt a ht.range hinit x hx
    · intro hx
      obtain ⟨v, hv⟩ := ht.reachAll x hx
      exact markYields_complete a v a.initial x h3 hv
  unfold countStates
  rw [← List.toFinset_card_of_nodup h1, hset, Finset.card_range]

theorem markYields_single (g : Automaton)
    (h : (hGet g g.initial).transitions = []) :
    markYields g = [g.initial] := by
  unfold markYields markFuel
  have heq : edgeCount g + g.states.length + 2
      = (edgeCount g + g.states.length) + 1 + 1 := rfl
  rw [heq]
  simp only [markGo, List.not_mem_nil, if_neg]
  rw [h]
  simp [markGo]

theorem compressFull_count (a : Automaton) (ht : IsTrie a) (fuel : Nat)
    (g : Automaton) (hg : compressFull a fuel = .done g) :
    countStates g ≤ a.states.length := by
  obtain ⟨hlne, hlprop⟩ := getLeaves_trie a ht
  have hns0 : NoSelf a := noSelf_of_edgeIncr a ht.edgeIncr
  have hlnodup : (getLeaves a).Nodup := by
    unfold getLeaves
    exact List.Nodup.filter _ (markYields_spec a).1
  obtain ⟨l0, lrest, hleq⟩ : ∃ l0 lrest, getLeaves a = l0 :: lrest := by
    cases hc : getLeaves a with
    | nil => exact absurd hc hlne
    | cons x xs => exact ⟨x, xs, rfl⟩
  rw [hleq] at hlnodup
  have hlmem : ∀ s ∈ l0 :: lrest, s < a.states.length
      ∧ (hGet a s).transitions = []
      ∧ (hGet a s).is_final = (hGet a (a.states.length - 1)).is_final := by
    intro s hs
    exact hlprop s (by rw [hleq]; exact hs)
  have hin : ∀ s ∈ l0 :: lrest, s < a.states.length :=
    fun s hs => (hlmem s hs).1
  have heqt : ∀ s ∈ l0 :: lrest,
      (hGet a s).transitions = (hGet a l0).transitions := by
    intro s hs
    rw [(hlmem s hs).2.1, (hlmem l0 (List.mem_cons_self _ _)).2.1]
  have heqf : ∀ s ∈ l0 :: lrest,
      (hGet a s).is_final = (hGet a l0).is_final := by
    intro s hs
    rw [(hlmem s hs).2.2, (hlmem l0 (List.mem_cons_self _ _)).2.2]
  have haccm : ∀ s ∈ l0 :: lrest, ∀ pr ∈ (hGet a s).parents, ∀ l ∈ pr.2,
      alookup (hGet a pr.1).transitions l = some s :=
    fun s _ => ht.accurate s (by simp)
  obtain ⟨a1, hok, c1, c2, c3, c4, c5, c6, c7, c8, c9, c10, c11, c12⟩ :=
    mergeStates_main a l0 lrest hin heqt heqf haccm
      (fun s hs pr hpr => (ht.range s).2 pr hpr)
      (fun s hs lc hlc => hns0 s lc hlc)
      (by rw [(hlmem l0 (List.mem_cons_self _ _)).2.1]; exact List.nodup_nil)
      (fun s hs pr hpr => ht.parentsNE s pr hpr)
      (fun s hs => (ht.keysND s).2)
  set nid := a.states.length with hnid
  have hfull : compressFull a fuel = compressLoop a1 fuel [nid] [] := by
    unfold compressFull
    rw [hleq, hok]
  have F4 : KeysNodup a1 := mergeStates_keysnodup a a1 l0 lrest hok ht.keysND
  have F5 : ∀ pr ∈ (hGet a1 nid).parents,
      ∃ m ∈ l0 :: lrest, pr ∈ (hGet a m).parents :=
    parents_char_mem a a1 nid (l0 :: lrest) (F4 nid).2 c3
  have F6 : RangeB a1.states.length a1 := by
    intro n
    constructor
    · intro lc hlc
      by_cases hn : n = nid
      · rw [hn, c1] at hlc
        have := (ht.range l0).1 lc hlc
        omega
      · rcases c12 n hn lc hlc with hold | h1
        · have := (ht.range n).1 lc hold
          omega
        · omega
    · intro pr hpr
      by_cases hn : n = nid
      · rw [hn] at hpr
        obtain ⟨m, hm, hmem⟩ := F5 pr hpr
        have := (ht.range m).2 pr hmem
        omega
      · rw [c7 n hn] at hpr
        have := (ht.range n).2 pr hpr
        omega
  have F7 : NoSelf a1 := by
    intro n lc hlc
    by_cases hn : n = nid
    · rw [hn] at hlc ⊢
      rw [c1] at hlc
      have := (ht.range l0).1 lc hlc
      omega
    · rcases c12 n hn lc hlc with hold | h1
      · exact hns0 n lc hold
      · rw [h1]
        exact fun hc => hn hc.symm
  have F8 : ParentsNE a1 := by
    intro n pr hpr
    by_cases hn : n = nid
    · rw [hn] at hpr
      obtain ⟨m, hm, hmem⟩ := F5 pr hpr
      exact ht.parentsNE m pr hmem
    · rw [c7 n hn] at hpr
      exact ht.parentsNE n pr hpr
  have F9 : Accurate a1 (l0 :: lrest) := by
    intro s hs pr hpr l hl
    by_cases hsn : s = nid
    · rw [hsn] at hpr
      obtain ⟨m, hm, hmem⟩ := F5 pr hpr
      rw [hsn]
      exact c9 m hm pr hmem l hl
    · rw [c7 s hsn] at hpr
      have hold := ht.accurate s (by simp) pr hpr l hl
      have hq1 : pr.1 ≠ nid := by
        have := (ht.range s).2 pr hpr
        omega
      have hnr : ¬ RecordedIn a (l0 :: lrest) pr.1 l := by
        rintro ⟨m, hm, pr', hpr', hpr1, hl'⟩
        have h1 := haccm m hm pr' hpr' l hl'
        rw [hpr1, hold] at h1
        have hsm : s = m := by injection h1
        rw [hsm] at hs
        exact hs hm
      rw [c10 pr.1 l hq1 hnr]
      exact hold
  have hdeadtr : ∀ x ∈ l0 :: lrest, (hGet a1 x).transitions = [] := by
    intro x hx
    have hxne : x ≠ nid := by
      have := hin x hx
      omega
    refine map_fst_eq_nil _ ?_
    rw [c11 x hxne, (hlmem x hx).2.1]
    rfl
  have hinv : LoopInv a1 [] [nid] (l0 :: lrest) := by
    refine ⟨F6, F7, F4, F8, F9, by simp, ?_, ?_, by simp, ?_, ?_,
      List.nodup_singleton _, by simp, ?_, by simp⟩
    · intro x hx
      rw [List.mem_singleton] at hx
      rw [hx]
      omega
    · intro x hx
      have := hin x hx
      omega
    · intro x hx lc hlc
      rw [hdeadtr x hx] at hlc
      cases hlc
    · intro x hx lc hlc
      rw [List.mem_singleton] at hx
      rw [hx, c1, (hlmem l0 (List.mem_cons_self _ _)).2.1] at hlc
      cases hlc
    · intro x hx hc
      rw [List.mem_singleton] at hc
      have := hin x hx
      omega
  have hc9inv : C9Inv a1 a.states.length [] (l0 :: lrest) := by
    refine ⟨by omega, ?_, ?_, ?_, hlnodup, hin, ?_, ?_⟩
    · intro n pr hpr
      by_cases hn : n = nid
      · rw [hn] at hpr
        obtain ⟨m, hm, hmem⟩ := F5 pr hpr
        exact (ht.range m).2 pr hmem
      · rw [c7 n hn] at hpr
        exact (ht.range n).2 pr hpr
    · intro q l t hto htd _ hlk
      by_cases hq : q = nid
      · rw [hq, c1, (hlmem l0 (List.mem_cons_self _ _)).2.1] at hlk
        cases hlk
      · have hmem := mem_of_alookup_eq_some _ l t hlk
        rcases c12 q hq (l, t) hmem with hold | h1
        · have hlka : alookup (hGet a q).transitions l = some t :=
            alookup_of_mem_nodup _ l t (ht.keysND q).1 hold
          obtain ⟨pr, hpr, hpr1, hpr2⟩ := ht.recComplete q l t hlka
          refine ⟨pr, ?_, hpr1, hpr2⟩
          rw [c7 t (by omega)]
          exact hpr
        · simp only at h1
          omega
    · intro m hm q l hlk
      have hmlt := hin m hm
      by_cases hq : q = nid
      · rw [hq, c1, (hlmem l0 (List.mem_cons_self _ _)).2.1] at hlk
        cases hlk
      · have hmem := mem_of_alookup_eq_some _ l m hlk
        rcases c12 q hq (l, m) hmem with hold | h1
        · have hlka : alookup (hGet a q).transitions l = some m :=
            alookup_of_mem_nodup _ l m (ht.keysND q).1 hold
          obtain ⟨pr, hpr, hpr1, hpr2⟩ := ht.recComplete q l m hlka
          have hw := c9 m hm pr hpr l hpr2
          rw [hpr1, hlk] at hw
          have : m = nid := by injection hw
          omega
        · have : m = nid := h1
          omega
    · have : (l0 :: lrest).length ≥ 1 := by simp
      omega
    · intro h0 h1
      exact absurd ((hlmem 0 h0).2.1) (ht.rootTrans h1)
  rw [hfull] at hg
  obtain ⟨D, d1, d2, d3, d4, d5, d6, d7, d8, d9, d10, _⟩ :=
    compressLoopC fuel a1 [nid] [] (l0 :: lrest) a.states.length hinv
      hc9inv g hg
  have hg0 : g.initial = 0 := by
    rw [d8, c5, ht.init0]
  have hDlt : ∀ x ∈ D, x < g.states.length := by
    intro x hx
    have := d3 x hx
    omega
  by_cases horig1 : 1 < a.states.length
  · -- count bound through the dead set
    have hDcard : ((Finset.range g.states.length).filter
        (fun x => x ∈ D)).card = D.length := by
      have hset : (Finset.range g.states.length).filter (fun x => x ∈ D)
          = D.toFinset := by
        ext x
        simp only [Finset.mem_filter, Finset.mem_range, List.mem_toFinset]
        exact ⟨fun h => h.2, fun h => ⟨hDlt x h, h⟩⟩
      rw [hset, List.toFinset_card_of_nodup d2]
    have hsplit := Finset.filter_card_add_filter_neg_card_eq_card
      (s := Finset.range g.states.length) (p := fun x => x ∈ D)
    simp only at hsplit
    have hrangecard : (Finset.range g.states.length).card
        = g.states.length := Finset.card_range _
    have htarget : ∀ x ∈ markYields g, x ≠ g.initial →
        x < g.states.length ∧ x ∉ D := by
      intro x hx hxi
      rcases (markYields_spec g).2.1 x hx with h1 | ⟨n, hn, lc, hlc, hlct⟩
      · exact absurd h1 hxi
      · have hlk : alookup (hGet g n).transitions lc.1 = some lc.2 := by
          refine alookup_of_mem_nodup _ lc.1 lc.2 (d6 n).1 ?_
          rw [Prod.mk.eta]
          exact hlc
        constructor
        · rw [← hlct]
          exact (d7 n).1 lc hlc
        · intro hc
          rw [hlct] at hlk
          exact d1 x hc n lc.1 hlk
    have hg0lt : 0 < g.states.length := by
      have := ht.posLen
      omega
    have hcard1 : (markYields g).length = (markYields g).toFinset.card :=
      (List.toFinset_card_of_nodup (markYields_spec g).1).symm
    by_cases h0D : (0 : Nat) ∈ D
    · have hbound := d5 h0D horig1
      have hsub : (markYields g).toFinset ⊆ insert (0 : Nat)
          ((Finset.range g.states.length).filter (fun x => x ∉ D)) := by
        intro x hx
        rw [List.mem_toFinset] at hx
        by_cases hxi : x = g.initial
        · rw [hxi, hg0]
          exact Finset.mem_insert_self _ _
        · obtain ⟨h1, h2⟩ := htarget x hx hxi
          exact Finset.mem_insert_of_mem
            (Finset.mem_filter.2 ⟨Finset.mem_range.2 h1, h2⟩)
      have hc2 : (markYields g).toFinset.card
          ≤ ((Finset.range g.states.length).filter (fun x => x ∉ D)).card
            + 1 :=
        le_trans (Finset.card_le_card hsub) (Finset.card_insert_le _ _)
      unfold countStates
      omega
    · have hsub : (markYields g).toFinset ⊆
          (Finset.range g.states.length).filter (fun x => x ∉ D) := by
        intro x hx
        rw [List.mem_toFinset] at hx
        by_cases hxi : x = g.initial
        · rw [hxi, hg0]
          exact Finset.mem_filter.2 ⟨Finset.mem_range.2 hg0lt, h0D⟩
        · obtain ⟨h1, h2⟩ := htarget x hx hxi
          exact Finset.mem_filter.2 ⟨Finset.mem_range.2 h1, h2⟩
      have hc2 := Finset.card_le_card hsub
      unfold countStates
      omega
  · have hroot0 : (hGet a 0).transitions = [] := by
      cases htc : (hGet a 0).transitions with
      | nil => rfl
      | cons lc rest =>
        exfalso
        have hmem : lc ∈ (hGet a 0).transitions := by
          rw [htc]
          exact List.mem_cons_self _ _
        have h1 := ht.edgeIncr 0 lc hmem
        have h2 := (ht.range 0).1 lc hmem
        omega
    have hkeysg : ((hGet g 0).transitions.map Prod.fst) = [] := by
      rw [d9 0 (by omega), c11 0 (by have := ht.posLen; omega), hroot0]
      rfl
    have htransg : (hGet g 0).transitions = [] := map_fst_eq_nil _ hkeysg
    have hsingle : markYields g = [g.initial] := by
      refine markYields_single g ?_
      rw [hg0]
      exact htransg
    unfold countStates
    rw [hsingle]
    simp only [List.length_singleton]
    exact ht.posLen

/-- C9: a completed `compress` never increases the number of distinct
reachable states: `count_states` after minimization is at most
`count_states` before it, on every graph built by a sequence of
insertions. -/
theorem compress_node_count_le (ws : List (List Char)) (fuel : Nat)
    (g : Automaton) (hg : compressFull (buildA ws) fuel = .done g) :
    countStates g ≤ countStates (buildA ws) := by
  rw [countStates_trie (buildA ws) (buildA_trie ws)]
  exact compressFull_count (buildA ws) (buildA_trie ws) fuel g hg

theorem compress_node_count_le_witness :
    compressFull (buildA [['a']]) 10
        = .done ⟨[⟨false, [('a', 2)], []⟩,
                  ⟨true, [], [(0, ['a'])]⟩,
                  ⟨true, [], [(0, ['a'])]⟩], 0, true⟩
    ∧ countStates (⟨[⟨false, [('a', 2)], []⟩,
          ⟨true, [], [(0, ['a'])]⟩,
          ⟨true, [], [(0, ['a'])]⟩], 0, true⟩ : Automaton)
        ≤ countStates (buildA [['a']]) :=
  ⟨by decide,
   compress_node_count_le [['a']] 10
     ⟨[⟨false, [('a', 2)], []⟩, ⟨true, [], [(0, ['a'])]⟩,
       ⟨true, [], [(0, ['a'])]⟩], 0, true⟩ (by decide)⟩

theorem trans_le_edgeCount (a : Automaton) (n : Nat) :
    (hGet a n).transitions.length ≤ edgeCount a := by
  unfold edgeCount
  rw [foldl_add_trans 0 a.states]
  simp only [Nat.zero_add]
  by_cases hn : n < a.states.length
  · have hmem : (hGet a n).transitions.length
        ∈ a.states.map (fun sd => sd.transitions.length) := by
      refine List.mem_map.2 ⟨hGet a n, ?_, rfl⟩
      unfold hGet
      rw [List.getD_eq_getElem _ _ hn]
      exact List.getElem_mem _
    exact List.single_le_sum (fun x _ => Nat.zero_le x) _ hmem
  · rw [hGet_ge a n (by omega)]
    simp [StateData.fresh]

theorem flatMap_congr {α β : Type} (l : List α) (f g : α → List β)
    (h : ∀ x ∈ l, f x = g x) : l.flatMap f = l.flatMap g := by
  induction l with
  | nil => rfl
  | cons x xs ih =>
    rw [List.flatMap_cons, List.flatMap_cons, h x (List.mem_cons_self _ _),
      ih (fun y hy => h y (List.mem_cons_of_mem _ hy))]

theorem countP_flatMap {α β : Type} (p : β → Bool) :
    ∀ (l : List α) (f : α → List β),
      (l.flatMap f).countP p = (l.map (fun x => (f x).countP p)).sum := by
  intro l
  induction l with
  | nil => intro f; rfl
  | cons x xs ih =>
    intro f
    rw [List.flatMap_cons, List.countP_append, List.map_cons, List.sum_cons,
      ih f]

theorem pathsGo_irrel (a : Automaton) (r : Nat → Nat)
    (hrd : ∀ n, ∀ lc ∈ (hGet a n).transitions, r lc.2 < r n) :
    ∀ (f1 : Nat), ∀ (f2 : Nat) (h : List Char) (s : Nat),
      r s < f1 → r s < f2 → pathsGo a f1 h s = pathsGo a f2 h s := by
  intro f1
  induction f1 with
  | zero =>
    intro f2 h s h1 _
    exact absurd h1 (by omega)
  | succ m ih =>
    intro f2 h s h1 h2
    cases f2 with
    | zero => exact absurd h2 (by omega)
    | succ k =>
      simp only [pathsGo]
      congr 1
      refine flatMap_congr _ _ _ ?_
      intro lc hlc
      have hc := hrd s lc hlc
      exact ih k (h ++ [lc.1]) lc.2 (by omega) (by omega)

theorem pathsGo_mem (a : Automaton) (r : Nat → Nat)
    (hrd : ∀ n, ∀ lc ∈ (hGet a n).transitions, r lc.2 < r n)
    (hkn : KeysNodup a) :
    ∀ (fuel : Nat) (h : List Char) (s : Nat), r s < fuel →
      ∀ e, e ∈ pathsGo a fuel h s
        ↔ ∃ w t, walk a s w = some t ∧ e = (h ++ w, t) := by
  intro fuel
  induction fuel with
  | zero =>
    intro h s h1
    exact absurd h1 (by omega)
  | succ m ih =>
    intro h s h1 e
    simp only [pathsGo, List.mem_cons, List.mem_flatMap]
    constructor
    · rintro (rfl | ⟨lc, hlc, he⟩)
      · exact ⟨[], s, walk_nil a s, by simp⟩
      · have hc := hrd s lc hlc
        obtain ⟨w, t, hw, het⟩ := (ih (h ++ [lc.1]) lc.2 (by omega) e).1 he
        refine ⟨lc.1 :: w, t, ?_, by rw [het]; simp⟩
        have hlk : alookup (hGet a s).transitions lc.1 = some lc.2 := by
          refine alookup_of_mem_nodup _ lc.1 lc.2 (hkn s).1 ?_
          rw [Prod.mk.eta]
          exact hlc
        rw [walk_cons, hlk]
        exact hw
    · rintro ⟨w, t, hw, rfl⟩
      cases w with
      | nil =>
        rw [walk_nil] at hw
        left
        have hts : t = s := by injection hw with hw2; omega
        rw [hts]
        simp
      | cons l w2 =>
        rw [walk_cons] at hw
        cases hlk : alookup (hGet a s).transitions l with
        | none => rw [hlk] at hw; cases hw
        | some c =>
          rw [hlk] at hw
          simp only at hw
          right
          have hmem : (l, c) ∈ (hGet a s).transitions :=
            mem_of_alookup_eq_some _ l c hlk
          have hc : r c < r s := hrd s (l, c) hmem
          refine ⟨(l, c), hmem, ?_⟩
          rw [ih (h ++ [l]) c (by omega)]
          exact ⟨w2, t, hw, by simp⟩

theorem pathsGo_fst_nodup (a : Automaton) (r : Nat → Nat)
    (hrd : ∀ n, ∀ lc ∈ (hGet a n).transitions, r lc.2 < r n)
    (hkn : KeysNodup a) :
    ∀ (fuel : Nat) (h : List Char) (s : Nat), r s < fuel →
      ((pathsGo a fuel h s).map Prod.fst).Nodup := by
  intro fuel
  induction fuel with
  | zero =>
    intro h s h1
    exact absurd h1 (by omega)
  | succ m ih =>
    intro h s h1
    simp only [pathsGo, List.map_cons]
    rw [List.nodup_cons]
    constructor
    · intro hc
      rw [List.map_flatMap, List.mem_flatMap] at hc
      obtain ⟨lc, hlc, hmem⟩ := hc
      rw [List.mem_map] at hmem
      obtain ⟨e, he, hfst⟩ := hmem
      have hc2 : r lc.2 < r s := hrd s lc hlc
      obtain ⟨w, t, hw, rfl⟩ :=
        (pathsGo_mem a r hrd hkn m _ lc.2 (by omega) e).1 he
      simp only at hfst
      have hlen := congrArg List.length hfst
      simp only [List.length_append, List.length_singleton] at hlen
      omega
    · rw [List.map_flatMap, List.nodup_flatMap]
      constructor
      · intro lc hlc
        have hc2 : r lc.2 < r s := hrd s lc hlc
        exact ih (h ++ [lc.1]) lc.2 (by omega)
      · have hkeys := (hkn s).1
        rw [List.Nodup, List.pairwise_map] at hkeys
        refine List.Pairwise.imp_of_mem ?_ hkeys
        intro lc1 lc2 hlc1 hlc2 hne x hx1 hx2
        have hc1 : r lc1.2 < r s := hrd s lc1 hlc1
        have hc2 : r lc2.2 < r s := hrd s lc2 hlc2
        rw [List.mem_map] at hx1 hx2
        obtain ⟨e1, he1, hf1⟩ := hx1
        obtain ⟨e2, he2, hf2⟩ := hx2
        obtain ⟨w1, t1, hw1, rfl⟩ :=
          (pathsGo_mem a r hrd hkn m _ lc1.2 (by omega) e1).1 he1
        obtain ⟨w2, t2, hw2, rfl⟩ :=
          (pathsGo_mem a r hrd hkn m _ lc2.2 (by omega) e2).1 he2
        simp only at hf1 hf2
        rw [← hf2] at hf1
        rw [List.append_assoc, List.append_assoc] at hf1
        have h3 := List.append_cancel_left hf1
        rw [List.singleton_append, List.singleton_append] at h3
        injection h3 with h4 _
        exact hne h4

theorem histGo_count (a : Automaton) (r : Nat → Nat)
    (hrd : ∀ n, ∀ lc ∈ (hGet a n).transitions, r lc.2 < r n)
    (p : List Char × Nat → Bool) :
    ∀ (fuel : Nat) (stack : List (List Char × Nat)),
      (stack.map (fun e => (edgeCount a + 2) ^ (r e.2 + 1))).sum < fuel →
      (histGo a fuel stack).countP p
        = (stack.map
            (fun e => (pathsGo a (r e.2 + 1) e.1 e.2).countP p)).sum := by
  intro fuel
  induction fuel with
  | zero =>
    intro stack h1
    exact absurd h1 (by omega)
  | succ m ih =>
    intro stack h1
    cases stack with
    | nil => simp [histGo]
    | cons e stack =>
      obtain ⟨h, s⟩ := e
      set B := edgeCount a + 2 with hB
      set children :=
        (hGet a s).transitions.map (fun lc => (h ++ [lc.1], lc.2)) with hch
      have heq : histGo a (m + 1) ((h, s) :: stack)
          = (h, s) :: histGo a m (children.reverse ++ stack) := by
        simp only [histGo]
      have hterm : ∀ lc ∈ (hGet a s).transitions,
          B ^ (r lc.2 + 1) ≤ B ^ (r s) := by
        intro lc hlc
        have := hrd s lc hlc
        exact Nat.pow_le_pow_right (by omega) (by omega)
      have hsumch : (children.map (fun e => B ^ (r e.2 + 1))).sum
          ≤ (hGet a s).transitions.length * B ^ (r s) := by
        rw [hch, List.map_map]
        refine le_trans (List.sum_le_card_nsmul _ (B ^ (r s)) ?_) ?_
        · intro x hx
          rw [List.mem_map] at hx
          obtain ⟨lc, hlc, hxe⟩ := hx
          rw [← hxe]
          exact hterm lc hlc
        · rw [List.length_map, smul_eq_mul]
      have hsum2 : (hGet a s).transitions.length * B ^ r s
          ≤ edgeCount a * B ^ r s :=
        Nat.mul_le_mul_right _ (trans_le_edgeCount a s)
      have hBrs : 1 ≤ B ^ r s := Nat.one_le_pow _ _ (by omega)
      have h6 : B ^ (r s + 1) = edgeCount a * B ^ r s + 2 * B ^ r s := by
        rw [hB, Nat.pow_succ]
        ring
      have hkey : (children.map (fun e => B ^ (r e.2 + 1))).sum + 2
          ≤ B ^ (r s + 1) := by
        omega
      simp only [List.map_cons, List.sum_cons] at h1
      have hpot2 : ((children.reverse ++ stack).map
          (fun e => B ^ (r e.2 + 1))).sum < m := by
        rw [List.map_append, List.sum_append, List.map_reverse,
          List.sum_reverse]
        omega
      rw [heq, List.countP_cons, ih _ hpot2]
      rw [List.map_append, List.sum_append, List.map_reverse,
        List.sum_reverse]
      simp only [List.map_cons, List.sum_cons]
      have hexp : (pathsGo a (r s + 1) h s).countP p
          = ((if p (h, s) then 1 else 0)
            + (children.map
                (fun e => (pathsGo a (r e.2 + 1) e.1 e.2).countP p)).sum) := by
        have hfuel : pathsGo a (r s + 1) h s
            = (h, s) :: (hGet a s).transitions.flatMap
                (fun lc => pathsGo a (r s) (h ++ [lc.1]) lc.2) := rfl
        rw [hfuel, List.countP_cons, countP_flatMap]
        have hmapeq : (hGet a s).transitions.map
            (fun lc => (pathsGo a (r s) (h ++ [lc.1]) lc.2).countP p)
            = children.map
                (fun e => (pathsGo a (r e.2 + 1) e.1 e.2).countP p) := by
          rw [hch, List.map_map]
          refine List.map_congr_left ?_
          intro lc hlc
          have hc : r lc.2 < r s := hrd s lc hlc
          have := pathsGo_irrel a r hrd (r s) (r lc.2 + 1) (h ++ [lc.1])
            lc.2 (by omega) (by omega)
          simp only [Function.comp]
          rw [this]
        rw [hmapeq]
        omega
      rw [hexp]
      omega

theorem countWords_char (a : Automaton) (r : Nat → Nat)
    (hrd : ∀ n, ∀ lc ∈ (hGet a n).transitions, r lc.2 < r n)
    (hrb : ∀ n, r n ≤ a.states.length) :
    countWords a = (pathsGo a (r a.initial + 1) [] a.initial).countP
      (fun e => (hGet a e.2).is_final) := by
  unfold countWords histYields
  refine (histGo_count a r hrd _ (canonFuel a) [([], a.initial)] ?_).trans ?_
  · simp only [List.map_cons, List.map_nil, List.sum_cons, List.sum_nil]
    unfold canonFuel
    have h1 : r a.initial + 1 < a.states.length + 2 := by
      have := hrb a.initial
      omega
    have h2 := Nat.pow_lt_pow_right
      (by omega : 1 < edgeCount a + 2) h1
    omega
  · simp

theorem countWords_lang (a : Automaton) (r : Nat → Nat)
    (hrd : ∀ n, ∀ lc ∈ (hGet a n).transitions, r lc.2 < r n)
    (hrb : ∀ n, r n ≤ a.states.length) (hkn : KeysNodup a) :
    ∃ L : List (List Char), countWords a = L.length ∧ L.Nodup
      ∧ (∀ w, w ∈ L ↔ acceptWord a w = true) := by
  set P : List Char × Nat → Bool := fun e => (hGet a e.2).is_final with hP
  set L := ((pathsGo a (r a.initial + 1) [] a.initial).filter P).map Prod.fst
    with hL
  have hfuel : r a.initial < r a.initial + 1 := by omega
  refine ⟨L, ?_, ?_, ?_⟩
  · rw [countWords_char a r hrd hrb, hL, List.length_map,
      List.countP_eq_length_filter]
  · rw [hL]
    refine List.Nodup.sublist ?_
      (pathsGo_fst_nodup a r hrd hkn _ [] a.initial hfuel)
    exact List.Sublist.map _ (List.filter_sublist _)
  · intro w
    rw [hL, List.mem_map]
    rw [acceptWord_eq_acceptFrom]
    constructor
    · rintro ⟨e, he, rfl⟩
      rw [List.mem_filter] at he
      obtain ⟨he1, he2⟩ := he
      obtain ⟨w2, t, hw, rfl⟩ :=
        (pathsGo_mem a r hrd hkn _ [] a.initial hfuel e).1 he1
      simp only [List.nil_append]
      rw [acceptFrom, hw]
      exact he2
    · intro hacc
      rw [acceptFrom] at hacc
      cases hw : walk a a.initial w with
      | none => rw [hw] at hacc; cases hacc
      | some t =>
        rw [hw] at hacc
        simp only at hacc
        refine ⟨(w, t), ?_, rfl⟩
        rw [List.mem_filter]
        constructor
        · rw [pathsGo_mem a r hrd hkn _ [] a.initial hfuel]
          exact ⟨w, t, hw, by simp⟩
        · exact hacc

theorem length_eq_of_nodup_iff (l1 l2 : List (List Char))
    (h1 : l1.Nodup) (h2 : l2.Nodup) (h : ∀ w, w ∈ l1 ↔ w ∈ l2) :
    l1.length = l2.length := by
  rw [← List.toFinset_card_of_nodup h1, ← List.toFinset_card_of_nodup h2]
  congr 1
  ext x
  rw [List.mem_toFinset, List.mem_toFinset]
  exact h x

theorem trie_rank (a : Automaton) (ht : IsTrie a) :
    ∃ r : Nat → Nat, (∀ n, ∀ lc ∈ (hGet a n).transitions, r lc.2 < r n)
      ∧ (∀ n, r n ≤ a.states.length) := by
  refine ⟨fun n => a.states.length - n, ?_, ?_⟩
  · intro n lc hlc
    have h1 := ht.edgeIncr n lc hlc
    have h2 := (ht.range n).1 lc hlc
    show a.states.length - lc.2 < a.states.length - n
    omega
  · intro n
    show a.states.length - n ≤ a.states.length
    omega

theorem compressFull_rank (a : Automaton) (ht : IsTrie a) (fuel : Nat)
    (g : Automaton) (hg : compressFull a fuel = .done g) :
    KeysNodup g
    ∧ ∃ r2 : Nat → Nat,
        (∀ n, ∀ lc ∈ (hGet g n).transitions, r2 lc.2 < r2 n)
        ∧ (∀ n, r2 n ≤ g.states.length) := by
  obtain ⟨hlne, hlprop⟩ := getLeaves_trie a ht
  have hns0 : NoSelf a := noSelf_of_edgeIncr a ht.edgeIncr
  have hlnodup : (getLeaves a).Nodup := by
    unfold getLeaves
    exact List.Nodup.filter _ (markYields_spec a).1
  obtain ⟨l0, lrest, hleq⟩ : ∃ l0 lrest, getLeaves a = l0 :: lrest := by
    cases hc : getLeaves a with
    | nil => exact absurd hc hlne
    | cons x xs => exact ⟨x, xs, rfl⟩
  rw [hleq] at hlnodup
  have hlmem : ∀ s ∈ l0 :: lrest, s < a.states.length
      ∧ (hGet a s).transitions = []
      ∧ (hGet a s).is_final = (hGet a (a.states.length - 1)).is_final := by
    intro s hs
    exact hlprop s (by rw [hleq]; exact hs)
  have hin : ∀ s ∈ l0 :: lrest, s < a.states.length :=
    fun s hs => (hlmem s hs).1
  have heqt : ∀ s ∈ l0 :: lrest,
      (hGet a s).transitions = (hGet a l0).transitions := by
    intro s hs
    rw [(hlmem s hs).2.1, (hlmem l0 (List.mem_cons_self _ _)).2.1]
  have heqf : ∀ s ∈ l0 :: lrest,
      (hGet a s).is_final = (hGet a l0).is_final := by
    intro s hs
    rw [(hlmem s hs).2.2, (hlmem l0 (List.mem_cons_self _ _)).2.2]
  have haccm : ∀ s ∈ l0 :: lrest, ∀ pr ∈ (hGet a s).parents, ∀ l ∈ pr.2,
      alookup (hGet a pr.1).transitions l = some s :=
    fun s _ => ht.accurate s (by simp)
  obtain ⟨a1, hok, c1, c2, c3, c4, c5, c6, c7, c8, c9, c10, c11, c12⟩ :=
    mergeStates_main a l0 lrest hin heqt heqf haccm
      (fun s hs pr hpr => (ht.range s).2 pr hpr)
      (fun s hs lc hlc => hns0 s lc hlc)
      (by rw [(hlmem l0 (List.mem_cons_self _ _)).2.1]; exact List.nodup_nil)
      (fun s hs pr hpr => ht.parentsNE s pr hpr)
      (fun s hs => (ht.keysND s).2)
  set nid := a.states.length with hnid
  have hfull : compressFull a fuel = compressLoop a1 fuel [nid] [] := by
    unfold compressFull
    rw [hleq, hok]
  have F4 : KeysNodup a1 := mergeStates_keysnodup a a1 l0 lrest hok ht.keysND
  have F5 : ∀ pr ∈ (hGet a1 nid).parents,
      ∃ m ∈ l0 :: lrest, pr ∈ (hGet a m).parents :=
    parents_char_mem a a1 nid (l0 :: lrest) (F4 nid).2 c3
  have F6 : RangeB a1.states.length a1 := by
    intro n
    constructor
    · intro lc hlc
      by_cases hn : n = nid
      · rw [hn, c1] at hlc
        have := (ht.range l0).1 lc hlc
        omega
      · rcases c12 n hn lc hlc with hold | h1
        · have := (ht.range n).1 lc hold
          omega
        · omega
    · intro pr hpr
      by_cases hn : n = nid
      · rw [hn] at hpr
        obtain ⟨m, hm, hmem⟩ := F5 pr hpr
        have := (ht.range m).2 pr hmem
        omega
      · rw [c7 n hn] at hpr
        have := (ht.range n).2 pr hpr
        omega
  have F7 : NoSelf a1 := by
    intro n lc hlc
    by_cases hn : n = nid
    · rw [hn] at hlc ⊢
      rw [c1] at hlc
      have := (ht.range l0).1 lc hlc
      omega
    · rcases c12 n hn lc hlc with hold | h1
      · exact hns0 n lc hold
      · rw [h1]
        exact fun hc => hn hc.symm
  have F8 : ParentsNE a1 := by
    intro n pr hpr
    by_cases hn : n = nid
    · rw [hn] at hpr
      obtain ⟨m, hm, hmem⟩ := F5 pr hpr
      exact ht.parentsNE m pr hmem
    · rw [c7 n hn] at hpr
      exact ht.parentsNE n pr hpr
  have F9 : Accurate a1 (l0 :: lrest) := by
    intro s hs pr hpr l hl
    by_cases hsn : s = nid
    · rw [hsn] at hpr
      obtain ⟨m, hm, hmem⟩ := F5 pr hpr
      rw [hsn]
      exact c9 m hm pr hmem l hl
    · rw [c7 s hsn] at hpr
      have hold := ht.accurate s (by simp) pr hpr l hl
      have hq1 : pr.1 ≠ nid := by
        have := (ht.range s).2 pr hpr
        omega
      have hnr : ¬ RecordedIn a (l0 :: lrest) pr.1 l := by
        rintro ⟨m, hm, pr', hpr', hpr1, hl'⟩
        have h1 := haccm m hm pr' hpr' l hl'
        rw [hpr1, hold] at h1
        have hsm : s = m := by injection h1
        rw [hsm] at hs
        exact hs hm
      rw [c10 pr.1 l hq1 hnr]
      exact hold
  have hdeadtr : ∀ x ∈ l0 :: lrest, (hGet a1 x).transitions = [] := by
    intro x hx
    have hxne : x ≠ nid := by
      have := hin x hx
      omega
    refine map_fst_eq_nil _ ?_
    rw [c11 x hxne, (hlmem x hx).2.1]
    rfl
  have hinv : LoopInv a1 [] [nid] (l0 :: lrest) := by
    refine ⟨F6, F7, F4, F8, F9, by simp, ?_, ?_, by simp, ?_, ?_,
      List.nodup_singleton _, by simp, ?_, by simp⟩
    · intro x hx
      rw [List.mem_singleton] at hx
      rw [hx]
      omega
    · intro x hx
      have := hin x hx
      omega
    · intro x hx lc hlc
      rw [hdeadtr x hx] at hlc
      cases hlc
    · intro x hx lc hlc
      rw [List.mem_singleton] at hx
      rw [hx, c1, (hlmem l0 (List.mem_cons_self _ _)).2.1] at hlc
      cases hlc
    · intro x hx hc
      rw [List.mem_singleton] at hc
      have := hin x hx
      omega
  have hc9inv : C9Inv a1 a.states.length [] (l0 :: lrest) := by
    refine ⟨by omega, ?_, ?_, ?_, hlnodup, hin, ?_, ?_⟩
    · intro n pr hpr
      by_cases hn : n = nid
      · rw [hn] at hpr
        obtain ⟨m, hm, hmem⟩ := F5 pr hpr
        exact (ht.range m).2 pr hmem
      · rw [c7 n hn] at hpr
        exact (ht.range n).2 pr hpr
    · intro q l t hto htd _ hlk
      by_cases hq : q = nid
      · rw [hq, c1, (hlmem l0 (List.mem_cons_self _ _)).2.1] at hlk
        cases hlk
      · have hmem := mem_of_alookup_eq_some _ l t hlk
        rcases c12 q hq (l, t) hmem with hold | h1
        · have hlka : alookup (hGet a q).transitions l = some t :=
            alookup_of_mem_nodup _ l t (ht.keysND q).1 hold
          obtain ⟨pr, hpr, hpr1, hpr2⟩ := ht.recComplete q l t hlka
          refine ⟨pr, ?_, hpr1, hpr2⟩
          rw [c7 t (by omega)]
          exact hpr
        · simp only at h1
          omega
    · intro m hm q l hlk
      have hmlt := hin m hm
      by_cases hq : q = nid
      · rw [hq, c1, (hlmem l0 (List.mem_cons_self _ _)).2.1] at hlk
        cases hlk
      · have hmem := mem_of_alookup_eq_some _ l m hlk
        rcases c12 q hq (l, m) hmem with hold | h1
        · have hlka : alookup (hGet a q).transitions l = some m :=
            alookup_of_mem_nodup _ l m (ht.keysND q).1 hold
          obtain ⟨pr, hpr, hpr1, hpr2⟩ := ht.recComplete q l m hlka
          have hw := c9 m hm pr hpr l hpr2
          rw [hpr1, hlk] at hw
          have : m = nid := by injection hw
          omega
        · have : m = nid := h1
          omega
    · have : (l0 :: lrest).length ≥ 1 := by simp
      omega
    · intro h0 h1
      exact absurd ((hlmem 0 h0).2.1) (ht.rootTrans h1)
  rw [hfull] at hg
  obtain ⟨D, d1, d2, d3, d4, d5, d6, d7, d8, d9, d10, d11⟩ :=
    compressLoopC fuel a1 [nid] [] (l0 :: lrest) a.states.length hinv
      hc9inv g hg
  refine ⟨d6, ?_⟩
  obtain ⟨r, hrd, hrb⟩ := trie_rank a ht
  set rmin := (lrest.map r).foldr min (r l0) with hrmin
  obtain ⟨hm1, hm2, hm3⟩ := foldr_min_spec (lrest.map r) (r l0)
  have hminle : ∀ s ∈ l0 :: lrest, rmin ≤ r s := by
    intro s hs
    rcases List.mem_cons.1 hs with hs1 | hs1
    · rw [hs1]
      exact hm1
    · exact hm2 (r s) (List.mem_map.2 ⟨s, hs1, rfl⟩)
  have hminmem : ∃ s ∈ l0 :: lrest, rmin = r s := by
    rcases hm3 with h4 | h4
    · exact ⟨l0, List.mem_cons_self _ _, h4⟩
    · obtain ⟨s, hs, hse⟩ := List.mem_map.1 h4
      exact ⟨s, List.mem_cons_of_mem _ hs, hse.symm⟩
  set r1 : Nat → Nat :=
    fun n => if n = a.states.length then rmin else r n with hr1
  have hr1decr : ∀ n, ∀ lc ∈ (hGet a1 n).transitions, r1 lc.2 < r1 n := by
    intro n lc hlc
    by_cases hn : n = a.states.length
    · rw [hn, c1] at hlc
      obtain ⟨s0, hs0, hs0e⟩ := hminmem
      have hlc2 : lc ∈ (hGet a s0).transitions := by
        rw [heqt s0 hs0]
        exact hlc
      have h1 := hrd s0 lc hlc2
      have h2 : lc.2 < a.states.length := (ht.range l0).1 lc hlc
      have h3 : r1 lc.2 = r lc.2 := by
        rw [hr1]
        simp only
        rw [if_neg (by omega)]
      have h4 : r1 n = rmin := by
        rw [hr1, hn]
        simp
      rw [h3, h4, hs0e]
      have := hminle s0 hs0
      omega
    · have hfn : r1 n = r n := by
        rw [hr1]
        simp only
        rw [if_neg hn]
      rcases c12 n hn lc hlc with hold | hnid2
      · have h2 : lc.2 < a.states.length := (ht.range n).1 lc hold
        have h3 : r1 lc.2 = r lc.2 := by
          rw [hr1]
          simp only
          rw [if_neg (by omega)]
        rw [hfn, h3]
        exact hrd n lc hold
      · have hlk : alookup (hGet a1 n).transitions lc.1 = some lc.2 := by
          refine alookup_of_mem_nodup _ lc.1 lc.2 (F4 n).1 ?_
          rw [Prod.mk.eta]
          exact hlc
        rw [hnid2] at hlk
        have h3 : r1 lc.2 = rmin := by
          rw [hr1, hnid2]
          simp
        by_cases hrec : RecordedIn a (l0 :: lrest) n lc.1
        · obtain ⟨s, hs, pr, hpr, hpr1, hl⟩ := hrec
          have h2 := haccm s hs pr hpr lc.1 hl
          rw [hpr1] at h2
          have h4 := hrd n (lc.1, s) (mem_of_alookup_eq_some _ _ _ h2)
          simp only at h4
          have h5 := hminle s hs
          rw [hfn, h3]
          omega
        · rw [c10 n lc.1 hn hrec] at hlk
          have h6 := (ht.range n).1 (lc.1, a.states.length)
            (mem_of_alookup_eq_some _ _ _ hlk)
          simp only at h6
          omega
  have hr1b : ∀ n, r1 n ≤ a.states.length := by
    intro n
    rw [hr1]
    simp only
    by_cases hn : n = a.states.length
    · rw [if_pos hn]
      exact le_trans hm1 (hrb l0)
    · rw [if_neg hn]
      exact hrb n
  obtain ⟨r2, hr2a, hr2b⟩ := d11 r1 a.states.length hr1decr hr1b
  exact ⟨r2, hr2a, fun n => le_trans (hr2b n) (by omega)⟩
/-- C5: countWords equals the number of distinct words inserted, and its
value is unchanged by a completed compress: for every word list ws and any
graph g produced by compress from the trie built over ws, the trie's
countWords equals the number of distinct inserted words and g's countWords
equals the trie's. -/
theorem count_words_invariant (ws : List (List Char)) (fuel : Nat)
    (g : Automaton) (hg : compressFull (buildA ws) fuel = .done g) :
    countWords (buildA ws) = ws.dedup.length
    ∧ countWords g = countWords (buildA ws) := by
  have ht := buildA_trie ws
  obtain ⟨r, hrd, hrb⟩ := trie_rank (buildA ws) ht
  obtain ⟨L, hLc, hLnd, hLm⟩ :=
    countWords_lang (buildA ws) r hrd hrb ht.keysND
  have htrie : countWords (buildA ws) = ws.dedup.length := by
    rw [hLc]
    refine length_eq_of_nodup_iff L ws.dedup hLnd (List.nodup_dedup ws) ?_
    intro w
    rw [hLm w, buildA_language ws w, List.mem_dedup]
  refine ⟨htrie, ?_⟩
  obtain ⟨hKN, r2, hr2d, hr2b⟩ := compressFull_rank (buildA ws) ht fuel g hg
  obtain ⟨L2, hL2c, hL2nd, hL2m⟩ := countWords_lang g r2 hr2d hr2b hKN
  have hlang := ((compressFull_main (buildA ws) ht fuel).2 g hg).2.2.2
  rw [hLc, hL2c]
  refine length_eq_of_nodup_iff L2 L hL2nd hLnd ?_
  intro w
  rw [hL2m w, hLm w, hlang w]

theorem count_words_invariant_witness :
    compressFull (buildA [['a']]) 10
        = .done ⟨[⟨false, [('a', 2)], []⟩, ⟨true, [], [(0, ['a'])]⟩,
            ⟨true, [], [(0, ['a'])]⟩], 0, true⟩
    ∧ countWords (buildA [['a']]) = [['a']].dedup.length
    ∧ countWords (⟨[⟨false, [('a', 2)], []⟩, ⟨true, [], [(0, ['a'])]⟩,
        ⟨true, [], [(0, ['a'])]⟩], 0, true⟩ : Automaton)
      = countWords (buildA [['a']]) :=
  ⟨by decide, count_words_invariant [['a']] 10 _ (by decide)⟩
